import Mathlib

/-!
# LexRank text summarisation: a verification development

Shallow embedding of the computational core of `text-summary-lexrank`
(`matrix.hpp`, `util.hpp`, `defs.hpp`, `vector_space_model.cpp`, `lexrank.cpp`,
`tokenizer.cpp`, and the comparator of `main_lexrank.cpp` and the file filter of
`file_manager.cpp`).

Conventions of the embedding.

* `double` arithmetic is exact arithmetic in a linearly ordered field `K`
  (instantiated with `ℚ` for concrete evaluation).  The two library functions
  `std::sqrt` and `std::log10` are parameters `sqrt log10 : K → K`.
* A division whose divisor may be zero at run time (`cosine_sim`) returns a
  `DivResult`, which keeps the IEEE-754 special values apart from the finite
  quotients.
* `std::unordered_map<std::string, V>` is an association list
  `List (String × V)` listed in iteration order.
* `for` loops are left folds over the list of the indices they visit; the
  unbounded `while (true)` loop of `lexrank` takes a fuel argument that bounds
  the number of matrix-vector products.
* `size_t` values and the `char` entries of an adjacency matrix are natural numbers;
  where a `size_t` subtraction can wrap around (`get_data_file_list`) it is taken
  modulo `2 ^ 64`.
* A `std::string` is a `String`, read through its list of characters.  The stopword
  list read from a file and the external stemmer `stem` are parameters; the standard
  algorithms `std::remove`, `std::replace`, `std::sort` are definitions of their own.
-/

namespace ir

/-! ## `matrix.hpp` -/

/-- A sequence of `T` values (`ir::Vector<T>`). -/
structure Vector (T : Type) where
  m_size : Nat
  m_data : List T
deriving DecidableEq, Repr

/-- A row-major matrix of `T` values (`ir::Matrix<T>`). -/
structure Matrix (T : Type) where
  n_rows : Nat
  n_cols : Nat
  m_data : List T
deriving DecidableEq, Repr

section containers
variable {T : Type}

/-- Constructor `Vector(size)`: `size` default-initialised elements. -/
def Vector.new [Zero T] (size : Nat) : Vector T :=
  { m_size := size, m_data := List.replicate size 0 }

/-- Read access `operator()(i)`, that is `m_data[i]`. -/
def Vector.get [Zero T] (v : Vector T) (i : Nat) : T :=
  v.m_data.getD i 0

/-- Write access `v(i) = x`. -/
def Vector.set (v : Vector T) (i : Nat) (x : T) : Vector T :=
  { v with m_data := v.m_data.set i x }

/-- Member `size()`. -/
def Vector.size (v : Vector T) : Nat := v.m_size

/-- Constructor `Matrix(rows, cols)`: `rows * cols` default-initialised elements. -/
def Matrix.new [Zero T] (rows cols : Nat) : Matrix T :=
  { n_rows := rows, n_cols := cols, m_data := List.replicate (rows * cols) 0 }

/-- Read access `operator()(i, j)`, that is `m_data[i * n_cols + j]`. -/
def Matrix.get [Zero T] (m : Matrix T) (i j : Nat) : T :=
  m.m_data.getD (i * m.n_cols + j) 0

/-- Write access `m(i, j) = x`. -/
def Matrix.set (m : Matrix T) (i j : Nat) (x : T) : Matrix T :=
  { m with m_data := m.m_data.set (i * m.n_cols + j) x }

/-- Member `rows()`. -/
def Matrix.rows (m : Matrix T) : Nat := m.n_rows

/-- Member `cols()`. -/
def Matrix.cols (m : Matrix T) : Nat := m.n_cols

/-- Matrix-vector product `operator*(matrix, vector)`.  The source asserts
`matrix.cols() == vector.size()`. -/
def Matrix.mulVec [Zero T] [Add T] [Mul T] (matrix : Matrix T) (vector : Vector T) : Vector T :=
  (List.range matrix.rows).foldl
    (fun result i =>
      let elem := (List.range matrix.cols).foldl
        (fun elem j => elem + matrix.get i j * vector.get j) 0
      result.set i elem)
    (Vector.new matrix.rows)

end containers

/-! ## `util.hpp`, `defs.hpp` -/

section numeric
variable {K : Type} [LinearOrderedField K]

/-- The function `ir::close(a, b, eps)`: `std::abs(a - b) <= eps`. -/
def close (a b eps : K) : Bool := decide (|a - b| ≤ eps)

/-- The default `eps` of `ir::close`, `std::numeric_limits<double>::epsilon()`. -/
def numeric_limits_epsilon : K := 1 / 2 ^ 52

/-- Map from terms to their counts (`ir::doc_terms`). -/
abbrev doc_terms := List (String × Nat)

/-- A tokenised and normalised document (`ir::NormalizedDocument`). -/
structure NormalizedDocument where
  sentence_term_counts : List doc_terms
deriving DecidableEq, Repr

/-- A raw document, a sequence of sentences (`ir::RawDocument`). -/
structure RawDocument where
  sentences : List String
deriving DecidableEq, Repr

/-- A sparse tf-idf vector, `std::unordered_map<std::string, double>`. -/
abbrev TfIdfMap (K : Type) := List (String × K)

/-- The assignment `m[term] = value` of `std::unordered_map::operator[]`: overwrite the
entry of `term` when there is one, add an entry otherwise. -/
def map_assign {V : Type} : List (String × V) → String → V → List (String × V)
  | [], term, value => [(term, value)]
  | (k, v) :: rest, term, value =>
    if k = term then (k, value) :: rest else (k, v) :: map_assign rest term value

/-- How a run can fail: `std::out_of_range` thrown by `unordered_map::at`, or the fuel
given to the power iteration ran out before the convergence test succeeded. -/
inductive Failure where
  | out_of_range (term : String)
  | fuel_exhausted
deriving DecidableEq, Repr

/-- Value of a `double` division: a finite quotient when the divisor is not zero, and
the IEEE-754 special value otherwise. -/
inductive DivResult (K : Type) where
  | finite (q : K)
  | pos_inf
  | neg_inf
  | nan
deriving DecidableEq, Repr

/-- Division `a / b` of doubles. -/
def fdiv (a b : K) : DivResult K :=
  if b = 0 then
    if 0 < a then DivResult.pos_inf else if a < 0 then DivResult.neg_inf else DivResult.nan
  else DivResult.finite (a / b)

/-- Comparison `r >= t` of a division result with a finite double; every comparison
with NaN is false. -/
def DivResult.ge (r : DivResult K) (t : K) : Bool :=
  match r with
  | DivResult.finite q => decide (t ≤ q)
  | DivResult.pos_inf => true
  | DivResult.neg_inf => false
  | DivResult.nan => false

/-! ## `vector_space_model.cpp` -/

/-- The tf-idf map of one sentence: the inner loop of `ir::tf_idf_maps`. -/
def tf_idf_map (log10 : K → K) (idf_scores : List (String × K)) (sentence : doc_terms) :
    Except Failure (TfIdfMap K) :=
  sentence.foldlM
    (fun back term_pair =>
      let term := term_pair.1
      let count : Nat := term_pair.2
      let tf : K := if count > 0 then 1 + log10 (count : K) else 0
      match idf_scores.lookup term with
      | none => Except.error (Failure.out_of_range term)
      | some idf =>
        let tfidf := tf * idf
        if !close tfidf 0 numeric_limits_epsilon then Except.ok (map_assign back term tfidf)
        else Except.ok back)
    []

/-- The function `ir::tf_idf_maps`: one tf-idf map per sentence, in order. -/
def tf_idf_maps (log10 : K → K) (norm_doc : NormalizedDocument)
    (idf_scores : List (String × K)) : Except Failure (List (TfIdfMap K)) :=
  norm_doc.sentence_term_counts.mapM (tf_idf_map log10 idf_scores)

/-- The function `ir::euc_len`. -/
def euc_len (sqrt : K → K) (vec : TfIdfMap K) : K :=
  sqrt (vec.foldl (fun result pair => result + pair.2 * pair.2) 0)

/-- The numerator of `ir::cosine_sim`: the sum over the terms of `vec1` found in `vec2`. -/
def cosine_dot (vec1 vec2 : TfIdfMap K) : K :=
  vec1.foldl
    (fun result term_pair =>
      match vec2.lookup term_pair.1 with
      | some tfidf2 => result + term_pair.2 * tfidf2
      | none => result)
    0

/-- The function `ir::cosine_sim`. -/
def cosine_sim (sqrt : K → K) (vec1 vec2 : TfIdfMap K) : DivResult K :=
  fdiv (cosine_dot vec1 vec2) (euc_len sqrt vec1 * euc_len sqrt vec2)

/-- The increment `++m[word]` on a map: `operator[]` inserts a zero for a new key, then the
stored value is incremented. -/
def map_increment {V : Type} [Zero V] [One V] [Add V] (m : List (String × V)) (word : String) :
    List (String × V) :=
  match m.lookup word with
  | some count => map_assign m word (count + 1)
  | none => map_assign m word (0 + 1)

/-- The `std::unordered_set` `doc_words` of `ir::idf_scores`: the words that occur in the
sentences of one document, each once. -/
def doc_words (doc : NormalizedDocument) : List String :=
  doc.sentence_term_counts.foldl
    (fun doc_words sentence =>
      sentence.foldl (fun doc_words word_pair => doc_words.insert word_pair.1) doc_words)
    []

/-- The function `ir::idf_scores`.  The divisor `doc_freq` is a stored count, at least 1. -/
def idf_scores (log10 : K → K) (document_corpus : List (Nat × NormalizedDocument)) :
    List (String × K) :=
  let result : List (String × K) := document_corpus.foldl
    (fun result doc_pair => (doc_words doc_pair.2).foldl map_increment result)
    []
  let n_docs := document_corpus.length
  result.map (fun term_pair => (term_pair.1, log10 ((n_docs : K) / term_pair.2)))

/-! ## `lexrank.hpp`, `lexrank.cpp` -/

/-- Cosine similarity threshold for an edge, `0.1`. -/
def LexrankEdgeThreshold : K := 1 / 10

/-- Convergence bound of the power iteration, `1e-5`. -/
def PowerIterationEpsilon : K := 1 / 100000

/-- Damping factor of LexRank, `0.15`. -/
def DampingFactor : K := 15 / 100

/-- The function `ir::build_adjacency_matrix`. -/
def build_adjacency_matrix (sqrt : K → K) (tfidf_maps : List (TfIdfMap K)) : Matrix Nat :=
  let size := tfidf_maps.length
  let result : Matrix Nat := Matrix.new size size
  let result := (List.range size).foldl
    (fun result i =>
      (List.range' (i + 1) (size - (i + 1))).foldl
        (fun result j =>
          let row_sentence := tfidf_maps.getD i []
          let col_sentence := tfidf_maps.getD j []
          let cos_sim := cosine_sim sqrt row_sentence col_sentence
          if cos_sim.ge LexrankEdgeThreshold then (result.set j i 1).set i j 1 else result)
        result)
    result
  (List.range result.rows).foldl (fun result i => result.set i i 1) result

/-- The column sum `colsum` that `ir::markov_chain_mat` computes for column `j`. -/
def colsum (adj_mat : Matrix Nat) (j : Nat) : Nat :=
  (List.range adj_mat.rows).foldl (fun colsum i => colsum + adj_mat.get i j) 0

/-- The function `ir::markov_chain_mat`.  The quotient `1.0 / colsum` is stored only where
some `adj_mat(i, j)` is not zero, and then `colsum` is not zero either. -/
def markov_chain_mat (adj_mat : Matrix Nat) (damping_factor : K) : Matrix K :=
  let n := adj_mat.rows
  let result : Matrix K := Matrix.new n n
  let result := (List.range n).foldl
    (fun result j =>
      let entry : K := 1 / (colsum adj_mat j : K)
      (List.range n).foldl
        (fun result i => if adj_mat.get i j ≠ 0 then result.set i j entry else result)
        result)
    result
  let entry_damping : K := damping_factor / (n : K)
  (List.range n).foldl
    (fun result i =>
      (List.range n).foldl
        (fun result j =>
          let result := result.set i j (result.get i j * (1 - damping_factor))
          result.set i j (result.get i j + entry_damping))
        result)
    result

/-- The convergence test of the power iteration: every entry of `lexrank_dist` is
within `PowerIterationEpsilon` of the entry of `prev`. -/
def converged (lexrank_dist prev : Vector K) : Bool :=
  (List.range lexrank_dist.size).all
    (fun i => close (lexrank_dist.get i) (prev.get i) PowerIterationEpsilon)

/-- The `while (true)` loop of `ir::lexrank`, run for at most `fuel` matrix-vector
products; `none` when the fuel runs out. -/
def power_iteration (trans_mat : Matrix K) : Nat → Vector K → Option (Vector K)
  | 0, _ => none
  | fuel + 1, prev =>
    let lexrank_dist := trans_mat.mulVec prev
    if converged lexrank_dist prev then some lexrank_dist
    else power_iteration trans_mat fuel lexrank_dist

/-- The initial distribution of `ir::lexrank`: every entry `1.0 / size`. -/
def initial_dist (size : Nat) : Vector K :=
  (List.range size).foldl (fun lexrank_dist i => lexrank_dist.set i (1 / (lexrank_dist.size : K)))
    (Vector.new size)

/-- The transition matrix that `ir::lexrank` builds from the tf-idf maps. -/
def lexrank_trans_mat (sqrt : K → K) (tfidf_maps : List (TfIdfMap K)) : Matrix K :=
  markov_chain_mat (build_adjacency_matrix sqrt tfidf_maps) DampingFactor

/-- The final copy of `ir::lexrank`: the `size()` entries of the distribution, copied
into a `std::vector<double>`. -/
def to_std_vector (lexrank_dist : Vector K) : List K :=
  (List.range lexrank_dist.size).map (fun i => lexrank_dist.get i)

/-- The function `ir::lexrank`, with the power iteration bounded by `fuel`. -/
def lexrank (sqrt log10 : K → K) (fuel : Nat) (norm_doc : NormalizedDocument)
    (idf_scores : List (String × K)) : Except Failure (List K) :=
  match tf_idf_maps log10 norm_doc idf_scores with
  | Except.error e => Except.error e
  | Except.ok tfidf_maps =>
    let trans_mat := lexrank_trans_mat sqrt tfidf_maps
    match power_iteration trans_mat fuel (initial_dist trans_mat.cols) with
    | none => Except.error Failure.fuel_exhausted
    | some lexrank_dist => Except.ok (to_std_vector lexrank_dist)

/-! ## `tokenizer.cpp` -/

/-- The algorithm `std::remove(v.begin(), v.end(), value)`: every element different from
`value` is moved to the next free position at the front of the vector, in order.  The
result is the vector after the moves and the new logical end.  A move never writes
behind the element being read, so the elements read are those of the initial vector. -/
def std_remove {α : Type} [DecidableEq α] (v : List α) (value : α) : List α × Nat :=
  v.foldl
    (fun state x => if x = value then state else (state.1.set state.2 x, state.2 + 1))
    (v, 0)

/-- The idiom `v.erase(std::remove(v.begin(), v.end(), value), v.end())`. -/
def erase_remove {α : Type} [DecidableEq α] (v : List α) (value : α) : List α :=
  (std_remove v value).1.take (std_remove v value).2

/-- The algorithm `std::replace(first, last, old_value, new_value)`. -/
def std_replace {α : Type} [DecidableEq α] (v : List α) (old_value new_value : α) : List α :=
  v.map (fun x => if x = old_value then new_value else x)

/-- The apostrophe, the character that `remove_punctuation` uses as deletion marker. -/
def apostrophe : Char := Char.ofNat 39

/-- The double quote character. -/
def double_quote : Char := Char.ofNat 34

/-- The whitespace characters passed to `split` by `tokenize`: space, tab, newline,
carriage return, vertical tab, form feed. -/
def whitespace : List Char :=
  [Char.ofNat 32, Char.ofNat 9, Char.ofNat 10, Char.ofNat 13, Char.ofNat 11, Char.ofNat 12]

/-- The scan of `split`: `current` holds, reversed, the characters of the token being read. -/
def split_scan (delimiters : List Char) : List Char → List Char → List String
  | [], current => if current.isEmpty then [] else [String.mk current.reverse]
  | c :: rest, current =>
    if delimiters.contains c then
      if current.isEmpty then split_scan delimiters rest []
      else String.mk current.reverse :: split_scan delimiters rest []
    else split_scan delimiters rest (c :: current)

/-- Modelled from the spec: the function `ir::split` of `util.hpp`, whose definition is not
among the given sources.  It returns, in order, the non-empty maximal runs of characters
of `str` that are not delimiters. -/
def split (str : String) (delimiters : List Char) : List String :=
  split_scan delimiters str.data []

/-- The function `ir::tokenize`. -/
def tokenize (str : String) : List String :=
  split str whitespace

/-- The predicate `to_remove` of `remove_punctuation`: not the marker and not
alphanumeric. -/
def to_remove (c : Char) : Bool := c != apostrophe && !c.isAlphanum

/-- One of the two marking loops of `remove_punctuation`: the characters are replaced by
the marker from the start of the list for as long as `to_remove` holds. -/
def mark_while_to_remove : List Char → List Char
  | [] => []
  | c :: rest => if to_remove c then apostrophe :: mark_while_to_remove rest else c :: rest

/-- The function `ir::remove_punctuation`.  The second marking loop runs from the last
character towards the first. -/
def remove_punctuation (token : String) : String :=
  let result := token.data
  let result := std_replace result double_quote apostrophe
  let result := std_replace result (Char.ofNat 44) apostrophe
  let result := std_replace result (Char.ofNat 60) apostrophe
  let result := std_replace result (Char.ofNat 62) apostrophe
  let result := erase_remove result apostrophe
  if result.isEmpty then String.mk result
  else
    let result := mark_while_to_remove result
    let result := (mark_while_to_remove result.reverse).reverse
    String.mk (erase_remove result apostrophe)

/-- The function `ir::is_stopword`, the sorted stopword list read from `STOPWORD_PATH`
being the parameter `stopwords` (the source asserts that it is not empty); the binary
search decides membership. -/
def is_stopword (stopwords : List String) (word : String) : Bool :=
  stopwords.contains word

/-- The function `ir::normalize`.  The external stemmer `stem(p, i, j)` is the parameter
`stem`: it maps the buffer and the two indices to the buffer it leaves and the index it
returns.  The index is converted to `size_t` before `substr(0, word_end + 1)`. -/
def normalize (stopwords : List String) (stem : List Char → Int → Int → List Char × Int)
    (token : String) : String :=
  let result := remove_punctuation token
  let result := String.mk (result.data.map Char.toLower)
  if is_stopword stopwords result then ""
  else
    let stemmed := stem result.data 0 ((result.data.length : Int) - 1)
    let word_end : Nat := (stemmed.2 % 2 ^ 64).toNat
    String.mk (stemmed.1.take ((word_end + 1) % 2 ^ 64))

/-- The function `ir::normalize_all`. -/
def normalize_all (stopwords : List String) (stem : List Char → Int → Int → List Char × Int)
    (token_vec : List String) : List String :=
  let token_vec := token_vec.map (fun token => normalize stopwords stem token)
  erase_remove token_vec ""

/-- The call `std::sort(tokens.begin(), tokens.end())` on a vector of strings. -/
def std_sort (tokens : List String) : List String :=
  tokens.mergeSort (fun a b => decide (a ≤ b))

/-- The term-count map that `normalize_document` builds from the sorted tokens of one
sentence. -/
def count_terms (tokens : List String) : doc_terms :=
  (std_sort tokens).foldl (fun counts term => map_increment counts term) []

/-- The function `ir::normalize_document`. -/
def normalize_document (stopwords : List String)
    (stem : List Char → Int → Int → List Char × Int) (raw_doc : RawDocument) :
    NormalizedDocument :=
  raw_doc.sentences.foldl
    (fun norm_doc sentence =>
      let tokens := normalize_all stopwords stem (tokenize sentence)
      if tokens.isEmpty then norm_doc
      else { sentence_term_counts := norm_doc.sentence_term_counts ++ [count_terms tokens] })
    { sentence_term_counts := [] }

/-! ## `main_lexrank.cpp` -/

/-- The comparator that `print_summary` passes to `std::sort`, on pairs of a score and a
sentence index: `left.first >= right.first`. -/
def print_summary_comp (left right : K × Int) : Bool := decide (left.1 ≥ right.1)

/-! ## `file_manager.hpp`, `file_manager.cpp` -/

/-- The value `std::string::npos`, the largest 64-bit `size_t`. -/
def npos : Nat := 2 ^ 64 - 1

/-- The search of `std::string::find`: the lowest position at or after `pos` where
`needle` starts in the rest `haystack` of the string, and `npos` when there is none. -/
def string_find_from (needle : List Char) : List Char → Nat → Nat
  | [], pos => if needle.isEmpty then pos else npos
  | c :: rest, pos =>
    if needle.isPrefixOf (c :: rest) then pos else string_find_from needle rest (pos + 1)

/-- The library call `s.find(needle)`. -/
def string_find (s needle : String) : Nat := string_find_from needle.data s.data 0

/-- The constant `DOCUMENT_EXTENSION` of `file_manager.hpp`. -/
def DOCUMENT_EXTENSION : String := ".txt"

/-- The test that `get_data_file_list` applies to a directory entry name:
`filename.find(DOCUMENT_EXTENSION) == filename.size() - DOCUMENT_EXTENSION.size()`, the
subtraction being that of 64-bit `size_t`. -/
def is_data_file (filename : String) : Bool :=
  string_find filename DOCUMENT_EXTENSION
    == (filename.length + 2 ^ 64 - DOCUMENT_EXTENSION.length) % 2 ^ 64

/-! ## Specification vocabulary used by the theorems -/

/-- The matrix `r` has `n` rows, `m` columns and `n * m` stored elements. -/
def Matrix.Shape {T : Type} (r : Matrix T) (n m : Nat) : Prop :=
  r.n_rows = n ∧ r.n_cols = m ∧ r.m_data.length = n * m

/-- The matrix transformer `F` keeps the shape `n × m` and rewrites every entry as a
function `u a b` of the old value of that same entry. -/
def Pointwise {T : Type} [Zero T] (n m : Nat) (F : Matrix T → Matrix T)
    (u : Nat → Nat → T → T) : Prop :=
  ∀ r : Matrix T, r.Shape n m →
    (F r).Shape n m ∧ ∀ a b, a < n → b < m → (F r).get a b = u a b (r.get a b)

/-- The edge test that `build_adjacency_matrix` performs for the pair `(i, j)`. -/
def edge (sqrt : K → K) (tfidf_maps : List (TfIdfMap K)) (i j : Nat) : Bool :=
  (cosine_sim sqrt (tfidf_maps.getD i []) (tfidf_maps.getD j [])).ge LexrankEdgeThreshold

/-- The weight of `term` in `vec` as `cosine_sim` reads it: the value found by the
lookup, and nothing added when the term is absent. -/
def weight_of (vec : TfIdfMap K) (term : String) : K :=
  match vec.lookup term with
  | some tfidf => tfidf
  | none => 0

/-- The keys of a map are pairwise distinct, as in every `std::unordered_map`. -/
def UniqueKeys {V : Type} (m : List (String × V)) : Prop := (m.map Prod.fst).Nodup

instance {V : Type} (m : List (String × V)) : Decidable (UniqueKeys m) := by
  unfold UniqueKeys; infer_instance

/-- Three tf-idf vectors over `ℚ` used to instantiate the theorems. -/
def sample_maps : List (TfIdfMap ℚ) := [[("cat", 1)], [("cat", 2), ("dog", 1)], [("ran", 1)]]

/-- The matrix `adj` is an `n × n` adjacency matrix of 0s and 1s whose diagonal is all 1s. -/
def IsAdjacency (adj : Matrix Nat) (n : Nat) : Prop :=
  adj.Shape n n ∧ (∀ i, i < n → ∀ j, j < n → adj.get i j = 0 ∨ adj.get i j = 1) ∧
    (∀ i, i < n → adj.get i i = 1)

instance (adj : Matrix Nat) (n : Nat) : Decidable (IsAdjacency adj n) := by
  unfold IsAdjacency Matrix.Shape; infer_instance

/-- The degree `deg(j)`: the number of 1-entries in column `j` of the adjacency matrix. -/
def degree (adj : Matrix Nat) (j : Nat) : Nat :=
  (List.range adj.rows).countP (fun i => adj.get i j = 1)

/-- The sum of the entries of column `j` of a matrix. -/
def column_sum (m : Matrix K) (j : Nat) : K :=
  ((List.range m.rows).map (fun i => m.get i j)).sum

/-- The base value of the spec: `1 / deg(j)` when `i` and `j` are adjacent, 0 otherwise. -/
def base (adj : Matrix Nat) (i j : Nat) : K :=
  if adj.get i j = 1 then 1 / (degree adj j : K) else 0

/-- A 3 × 3 adjacency matrix used to instantiate the theorems: sentences 0 and 1 are
adjacent, sentence 2 is isolated. -/
def sample_adj : Matrix Nat := { n_rows := 3, n_cols := 3, m_data := [1, 1, 0, 1, 1, 0, 0, 0, 1] }

/-- The vector `v` has size `n` and `n` stored elements. -/
def Vector.Shape {T : Type} (v : Vector T) (n : Nat) : Prop :=
  v.m_size = n ∧ v.m_data.length = n

/-- The iterate `x_t` of the power iteration: `t` matrix-vector products applied to `x0`. -/
def iterate_dist (trans_mat : Matrix K) (x0 : Vector K) (t : Nat) : Vector K :=
  Nat.iterate (fun x => trans_mat.mulVec x) t x0

/-- Every term of every sentence of the document has an entry in the idf table. -/
def AllTermsKnown (norm_doc : NormalizedDocument) (idf_scores : List (String × K)) : Prop :=
  ∀ sentence ∈ norm_doc.sentence_term_counts, ∀ term_pair ∈ sentence,
    (idf_scores.lookup term_pair.1).isSome = true

instance (norm_doc : NormalizedDocument) (idf_scores : List (String × K)) :
    Decidable (AllTermsKnown norm_doc idf_scores) := by
  unfold AllTermsKnown; infer_instance

/-- A one-sentence document used to instantiate the theorems. -/
def one_doc : NormalizedDocument := { sentence_term_counts := [[("cat", 2), ("sat", 1)]] }

/-- A three-sentence document used to instantiate the theorems. -/
def sample_doc : NormalizedDocument :=
  { sentence_term_counts := [[("cat", 1), ("sat", 1)], [("dog", 1), ("ran", 2)], [("cat", 1)]] }

/-- An idf table over `ℚ` holding every term of the sample documents. -/
def sample_idf : List (String × ℚ) := [("cat", 1 / 2), ("sat", 0), ("dog", 1 / 3), ("ran", 1 / 3)]

/-- Every pair of distinct vectors passes the edge test of `build_adjacency_matrix`. -/
def AllSimilar (sqrt : K → K) (tfidf_maps : List (TfIdfMap K)) : Prop :=
  ∀ i, i < tfidf_maps.length → ∀ j, j < tfidf_maps.length → i ≠ j →
    (cosine_sim sqrt (tfidf_maps.getD i []) (tfidf_maps.getD j [])).ge LexrankEdgeThreshold = true

/-- A document of two identical one-term sentences. -/
def two_doc : NormalizedDocument := { sentence_term_counts := [[("cat", 1)], [("cat", 1)]] }

/-- An idf table over `ℚ` giving the term of `two_doc` the score 1. -/
def unit_idf : List (String × ℚ) := [("cat", 1)]

/-- A stand-in for `log10` that is right at the count 1. -/
def zero_log : ℚ → ℚ := fun _ => 0

/-- The Euclidean length in the words of the spec: the square root of the sum of the
squares of the weights. -/
def euclidean_length_spec (sqrt : K → K) (vec : TfIdfMap K) : K :=
  sqrt ((vec.map (fun p => p.2 ^ 2)).sum)

/-- The terms present in both maps. -/
def shared_terms (vec1 vec2 : TfIdfMap K) : Finset String :=
  (vec1.map Prod.fst).toFinset ∩ (vec2.map Prod.fst).toFinset

/-- The cosine similarity in the words of the spec: the sum of `v1[t] * v2[t]` over the
terms `t` present in both maps, divided by the product of the Euclidean lengths. -/
def cosine_sim_spec (sqrt : K → K) (vec1 vec2 : TfIdfMap K) : K :=
  (∑ t in shared_terms vec1 vec2, weight_of vec1 t * weight_of vec2 t)
    / (euclidean_length_spec sqrt vec1 * euclidean_length_spec sqrt vec2)

/-- The weight of a term with count `count` and idf score `idf`: `(1 + log10 count) * idf`,
the factor `tf` being 0 when the count is 0. -/
def tf_idf_weight (log10 : K → K) (count : Nat) (idf : K) : K :=
  (if count > 0 then 1 + log10 (count : K) else 0) * idf

/-- One round of the inner loop of `tf_idf_maps` for a term found in the idf table. -/
def tf_idf_step (log10 : K → K) (idf_scores : List (String × K)) (back : TfIdfMap K)
    (term_pair : String × Nat) : TfIdfMap K :=
  if !close (tf_idf_weight log10 term_pair.2 (weight_of idf_scores term_pair.1)) 0
      numeric_limits_epsilon
  then map_assign back term_pair.1
    (tf_idf_weight log10 term_pair.2 (weight_of idf_scores term_pair.1))
  else back

/-- The term `t` occurs in some sentence of the document. -/
def doc_contains (doc : NormalizedDocument) (t : String) : Bool :=
  doc.sentence_term_counts.any (fun sentence => sentence.any (fun word_pair => word_pair.1 == t))

/-- The document frequency `df(t)`: the number of documents of the corpus containing `t`. -/
def doc_freq (document_corpus : List (Nat × NormalizedDocument)) (t : String) : Nat :=
  document_corpus.countP (fun doc_pair => doc_contains doc_pair.2 t)

/-- The corpus of the spec's example: `A = [{cat, sat}, {dog, ran}]`, `B = [{dog, sat}]`. -/
def example_corpus : List (Nat × NormalizedDocument) :=
  [(1, { sentence_term_counts := [[("cat", 1), ("sat", 1)], [("dog", 1), ("ran", 1)]] }),
   (2, { sentence_term_counts := [[("dog", 1), ("sat", 1)]] })]

/-- A stand-in for `log10` over `ℚ` with the sign behaviour of a logarithm on `x >= 1`. -/
def shifted_log : ℚ → ℚ := fun x => x - 1

/-- The five characters that `remove_punctuation` deletes wherever they occur:
apostrophe, double quote, comma, `<` and `>`. -/
def stripped_chars : List Char :=
  [apostrophe, double_quote, Char.ofNat 44, Char.ofNat 60, Char.ofNat 62]

/-- The characters of a token that are not among `stripped_chars`, in their order. -/
def strip_punctuation (chars : List Char) : List Char :=
  chars.filter (fun c => !stripped_chars.contains c)

/-- Dropping the longest prefix and the longest suffix whose characters satisfy `p`. -/
def trim_while (p : Char → Bool) (chars : List Char) : List Char :=
  ((chars.dropWhile p).reverse.dropWhile p).reverse

/-- The characters of a token after `remove_punctuation` and the conversion to lower
case: the string that `normalize` tests against the stopwords and hands to `stem`. -/
def lowered (token : String) : List Char :=
  (remove_punctuation token).data.map Char.toLower

/-- The column-normalized adjacency matrix `X` of the header of `markov_chain_mat`:
entry `(i, j)` is `adj(i, j)` divided by the sum of column `j`. -/
def column_normalized (adj : Matrix Nat) (i j : Nat) : K :=
  (adj.get i j : K) / (colsum adj j : K)

/-- Entry `(i, j)` of the identity matrix. -/
def identity_entry (i j : Nat) : K := if i = j then 1 else 0

/-- Entry `(i, j)` of the matrix `(d/N) I + (1 - d) X` written in the header of
`markov_chain_mat`, with `I` read as the identity matrix. -/
def documented_formula (adj : Matrix Nat) (d : K) (i j : Nat) : K :=
  d / (adj.rows : K) * identity_entry i j + (1 - d) * column_normalized adj i j

/-- Entry `(i, j)` of the matrix `(d/N) J + (1 - d) X`, with `J` the matrix of ones. -/
def all_ones_formula (adj : Matrix Nat) (d : K) (i j : Nat) : K :=
  d / (adj.rows : K) * 1 + (1 - d) * column_normalized adj i j

/-- The strict weak ordering that `std::sort` requires of its comparator: irreflexive,
transitive, and with a transitive incomparability relation. -/
def IsStrictWeakOrdering {α : Type} (comp : α → α → Bool) : Prop :=
  (∀ a, comp a a = false) ∧
  (∀ a b c, comp a b = true → comp b c = true → comp a c = true) ∧
  (∀ a b c, (comp a b = false ∧ comp b a = false) → (comp b c = false ∧ comp c b = false) →
    (comp a c = false ∧ comp c a = false))

/-- The name ends with the extension. -/
def ends_with (filename extension : String) : Bool :=
  extension.data.isSuffixOf filename.data

/-- A stemmer that leaves the word as it is: the buffer untouched, the end index returned. -/
def identity_stem : List Char → Int → Int → List Char × Int := fun buffer _ j => (buffer, j)

/-- A raw document of two sentences, the second without any alphanumeric character. -/
def sample_raw_doc : RawDocument := { sentences := ["The cat, the <dog>!", "..."] }

end numeric

end ir

/-! ## Theorems -/

namespace ir

/-! ### Matrix indexing -/

section framework
variable {T : Type}

theorem flat_index_lt {n m i j : Nat} (hi : i < n) (hj : j < m) : i * m + j < n * m := by
  have h1 : (i + 1) * m ≤ n * m := Nat.mul_le_mul_right m hi
  have h2 : (i + 1) * m = i * m + m := by ring
  omega

theorem flat_index_inj {m i j a b : Nat} (hj : j < m) (hb : b < m)
    (h : i * m + j = a * m + b) : i = a ∧ j = b := by
  have hm : 0 < m := by omega
  have h1 : (i * m + j) / m = i := by
    rw [Nat.add_comm, Nat.add_mul_div_right _ _ hm, Nat.div_eq_of_lt hj, Nat.zero_add]
  have h2 : (a * m + b) / m = a := by
    rw [Nat.add_comm, Nat.add_mul_div_right _ _ hm, Nat.div_eq_of_lt hb, Nat.zero_add]
  have hia : i = a := by rw [← h1, ← h2, h]
  subst hia
  exact ⟨rfl, by omega⟩

theorem Matrix.shape_new [Zero T] (n m : Nat) : (Matrix.new n m : Matrix T).Shape n m := by
  simp [Matrix.Shape, Matrix.new]

theorem Matrix.get_new [Zero T] (n m a b : Nat) : (Matrix.new n m : Matrix T).get a b = 0 := by
  simp [Matrix.get, Matrix.new, List.getD_eq_getElem?_getD, List.getElem?_replicate]
  split <;> simp

theorem Matrix.shape_set {r : Matrix T} {n m : Nat} (h : r.Shape n m) (i j : Nat) (x : T) :
    (r.set i j x).Shape n m := by
  obtain ⟨h1, h2, h3⟩ := h
  exact ⟨h1, h2, by simp [Matrix.set, h3]⟩

theorem Matrix.get_set [Zero T] {r : Matrix T} {n m : Nat} (h : r.Shape n m) {i j a b : Nat}
    (hi : i < n) (hj : j < m) (hb : b < m) (x : T) :
    (r.set i j x).get a b = if a = i ∧ b = j then x else r.get a b := by
  obtain ⟨h1, h2, h3⟩ := h
  have hlt : i * m + j < r.m_data.length := h3 ▸ flat_index_lt hi hj
  simp only [Matrix.get, Matrix.set, h2, List.getD_eq_getElem?_getD, List.getElem?_set]
  by_cases hab : a = i ∧ b = j
  · obtain ⟨rfl, rfl⟩ := hab
    simp [hlt]
  · have hne : i * m + j ≠ a * m + b := by
      intro he
      obtain ⟨e1, e2⟩ := flat_index_inj hj hb he
      exact hab ⟨e1.symm, e2.symm⟩
    simp [hne, hab]

theorem foldl_ite_const {ι : Type} (l : List ι) (p : ι → Prop) [DecidablePred p] (c v : T) :
    l.foldl (fun v x => if p x then c else v) v = if ∃ x ∈ l, p x then c else v := by
  induction l generalizing v with
  | nil => simp
  | cons x xs ih =>
    rw [List.foldl_cons, ih]
    by_cases hx : p x
    · by_cases hxs : ∃ y ∈ xs, p y
      · simp [hx, hxs]
      · simp [hx, hxs]
    · simp [hx]

end framework

/-! ### Loops that rewrite a matrix entry by entry -/

section framework2
variable {T : Type} [Zero T]

theorem pointwise_id (n m : Nat) : Pointwise n m (fun r : Matrix T => r) (fun _ _ v => v) :=
  fun _ hr => ⟨hr, fun _ _ _ _ => rfl⟩

theorem pointwise_comp {n m : Nat} {F G : Matrix T → Matrix T} {u w : Nat → Nat → T → T}
    (hF : Pointwise n m F u) (hG : Pointwise n m G w) :
    Pointwise n m (fun r => G (F r)) (fun a b v => w a b (u a b v)) := by
  intro r hr
  obtain ⟨s1, g1⟩ := hF r hr
  obtain ⟨s2, g2⟩ := hG (F r) s1
  exact ⟨s2, fun a b ha hb => by rw [g2 a b ha hb, g1 a b ha hb]⟩

theorem pointwise_ite {n m : Nat} {F : Matrix T → Matrix T} {u : Nat → Nat → T → T}
    (c : Prop) [Decidable c] (hF : Pointwise n m F u) :
    Pointwise n m (fun r => if c then F r else r) (fun a b v => if c then u a b v else v) := by
  by_cases hc : c
  · simpa [hc] using hF
  · simpa [hc] using pointwise_id n m

theorem pointwise_modify {n m i j : Nat} (hi : i < n) (hj : j < m) (g : T → T) :
    Pointwise n m (fun r => r.set i j (g (r.get i j)))
      (fun a b v => if a = i ∧ b = j then g v else v) := by
  intro r hr
  refine ⟨Matrix.shape_set hr _ _ _, fun a b _ hb => ?_⟩
  rw [Matrix.get_set hr hi hj hb]
  by_cases hab : a = i ∧ b = j
  · obtain ⟨rfl, rfl⟩ := hab
    simp
  · simp [hab]

theorem pointwise_set {n m i j : Nat} (hi : i < n) (hj : j < m) (x : T) :
    Pointwise n m (fun r => r.set i j x) (fun a b v => if a = i ∧ b = j then x else v) :=
  pointwise_modify hi hj (fun _ => x)

theorem pointwise_foldl {ι : Type} {n m : Nat} (l : List ι) (F : Matrix T → ι → Matrix T)
    (u : ι → Nat → Nat → T → T) (h : ∀ x ∈ l, Pointwise n m (fun r => F r x) (u x)) :
    Pointwise n m (fun r => l.foldl F r) (fun a b v => l.foldl (fun v x => u x a b v) v) := by
  induction l with
  | nil => exact pointwise_id n m
  | cons x xs ih =>
    have hx := h x (List.mem_cons_self x xs)
    have hxs := ih (fun y hy => h y (List.mem_cons_of_mem x hy))
    exact pointwise_comp hx hxs

end framework2

/-! ### Entries of `build_adjacency_matrix` -/

section adjacency
variable {K : Type} [LinearOrderedField K]

theorem adjacency_pairs_pointwise (sqrt : K → K) (tfidf_maps : List (TfIdfMap K))
    (inner : Nat → List Nat) (hinner : ∀ i j, j ∈ inner i → j < tfidf_maps.length) :
    Pointwise (T := Nat) tfidf_maps.length tfidf_maps.length
      (fun r : Matrix Nat => (List.range tfidf_maps.length).foldl
        (fun result i =>
          (inner i).foldl
            (fun result j =>
              if (cosine_sim sqrt (tfidf_maps.getD i []) (tfidf_maps.getD j [])).ge
                  LexrankEdgeThreshold
              then (result.set j i 1).set i j 1 else result)
            result)
        r)
      (fun (a b : Nat) (v : Nat) =>
        if ∃ i ∈ List.range tfidf_maps.length,
            ∃ j ∈ inner i,
              edge sqrt tfidf_maps i j = true ∧ ((a = j ∧ b = i) ∨ (a = i ∧ b = j))
        then 1 else v) := by
  have key := pointwise_foldl (T := Nat) (n := tfidf_maps.length) (m := tfidf_maps.length)
    (List.range tfidf_maps.length)
    (fun result i =>
      (inner i).foldl
        (fun result j =>
          if (cosine_sim sqrt (tfidf_maps.getD i []) (tfidf_maps.getD j [])).ge
              LexrankEdgeThreshold
          then (result.set j i 1).set i j 1 else result)
        result)
    (fun (i a b : Nat) (v : Nat) =>
      if ∃ j ∈ inner i,
          edge sqrt tfidf_maps i j = true ∧ ((a = j ∧ b = i) ∨ (a = i ∧ b = j))
      then 1 else v)
    (by
      intro i hi
      have hi' : i < tfidf_maps.length := List.mem_range.mp hi
      have inner := pointwise_foldl (T := Nat) (n := tfidf_maps.length) (m := tfidf_maps.length)
        (inner i)
        (fun result j =>
          if (cosine_sim sqrt (tfidf_maps.getD i []) (tfidf_maps.getD j [])).ge
              LexrankEdgeThreshold
          then (result.set j i 1).set i j 1 else result)
        (fun (j a b : Nat) (v : Nat) =>
          if edge sqrt tfidf_maps i j = true ∧ ((a = j ∧ b = i) ∨ (a = i ∧ b = j)) then 1 else v)
        (by
          intro j hj
          have hj' : j < tfidf_maps.length := hinner i j hj
          have h2 := pointwise_ite (edge sqrt tfidf_maps i j = true)
            (pointwise_comp (pointwise_set hj' hi' (1 : Nat)) (pointwise_set hi' hj' (1 : Nat)))
          intro r hr
          obtain ⟨s, g⟩ := h2 r hr
          refine ⟨s, fun a b ha hb => (g a b ha hb).trans ?_⟩
          dsimp only
          by_cases hc : edge sqrt tfidf_maps i j = true
          · by_cases h1 : a = i ∧ b = j
            · simp [hc, h1]
            · by_cases h3 : a = j ∧ b = i
              · simp [hc, h3]
              · simp [hc, h1, h3]
          · simp [hc])
      intro r hr
      obtain ⟨s, g⟩ := inner r hr
      refine ⟨s, fun a b ha hb => (g a b ha hb).trans ?_⟩
      exact foldl_ite_const _ _ _ _)
  intro r hr
  obtain ⟨s, g⟩ := key r hr
  refine ⟨s, fun a b ha hb => (g a b ha hb).trans ?_⟩
  exact foldl_ite_const _ _ _ _

theorem adjacency_diag_pointwise (n : Nat) :
    Pointwise n n
      (fun r : Matrix Nat => (List.range n).foldl (fun result i => result.set i i 1) r)
      (fun a b v => if a = b then 1 else v) := by
  have key := pointwise_foldl (T := Nat) (n := n) (m := n) (List.range n)
    (fun result i => result.set i i 1)
    (fun (i a b : Nat) (v : Nat) => if a = i ∧ b = i then 1 else v)
    (fun i hi => pointwise_set (List.mem_range.mp hi) (List.mem_range.mp hi) 1)
  intro r hr
  obtain ⟨s, g⟩ := key r hr
  refine ⟨s, fun a b ha hb => (g a b ha hb).trans ?_⟩
  refine (foldl_ite_const _ (fun i => a = i ∧ b = i) _ _).trans ?_
  dsimp only
  by_cases hab : a = b
  · subst hab
    have : ∃ x ∈ List.range n, a = x ∧ a = x := ⟨a, List.mem_range.mpr ha, rfl, rfl⟩
    rw [if_pos this, if_pos rfl]
  · have : ¬ ∃ x ∈ List.range n, a = x ∧ b = x := by
      rintro ⟨x, -, h1, h2⟩
      exact hab (h1.trans h2.symm)
    rw [if_neg this, if_neg hab]

theorem build_adjacency_matrix_shape (sqrt : K → K) (tfidf_maps : List (TfIdfMap K)) :
    (build_adjacency_matrix sqrt tfidf_maps).Shape tfidf_maps.length tfidf_maps.length := by
  obtain ⟨s1, -⟩ := adjacency_pairs_pointwise sqrt tfidf_maps
    (fun i => List.range' (i + 1) (tfidf_maps.length - (i + 1)))
    (fun i j hj => by have := List.mem_range'_1.mp hj; omega) _
    (Matrix.shape_new (T := Nat) tfidf_maps.length tfidf_maps.length)
  obtain ⟨s2, -⟩ := adjacency_diag_pointwise tfidf_maps.length _ s1
  have hrows := s1.1
  simp only [build_adjacency_matrix, Matrix.rows]
  simp only [hrows]
  exact s2

theorem build_adjacency_matrix_get (sqrt : K → K) (tfidf_maps : List (TfIdfMap K)) {a b : Nat}
    (ha : a < tfidf_maps.length) (hb : b < tfidf_maps.length) :
    (build_adjacency_matrix sqrt tfidf_maps).get a b =
      if a = b ∨ (a < b ∧ edge sqrt tfidf_maps a b = true) ∨
          (b < a ∧ edge sqrt tfidf_maps b a = true) then 1 else 0 := by
  obtain ⟨s1, g1⟩ := adjacency_pairs_pointwise sqrt tfidf_maps
    (fun i => List.range' (i + 1) (tfidf_maps.length - (i + 1)))
    (fun i j hj => by have := List.mem_range'_1.mp hj; omega) _
    (Matrix.shape_new (T := Nat) tfidf_maps.length tfidf_maps.length)
  obtain ⟨-, g2⟩ := adjacency_diag_pointwise tfidf_maps.length _ s1
  have hrows := s1.1
  simp only [build_adjacency_matrix, Matrix.rows]
  simp only [hrows]
  rw [g2 a b ha hb, g1 a b ha hb, Matrix.get_new]
  by_cases hab : a = b
  · simp [hab]
  · simp only [hab, if_false, false_or]
    congr 1
    apply propext
    constructor
    · rintro ⟨i, hi, j, hj, he, h⟩
      have hj' := List.mem_range'_1.mp hj
      rcases h with ⟨rfl, rfl⟩ | ⟨rfl, rfl⟩
      · exact Or.inr ⟨by omega, he⟩
      · exact Or.inl ⟨by omega, he⟩
    · rintro (⟨hlt, he⟩ | ⟨hlt, he⟩)
      · exact ⟨a, List.mem_range.mpr ha, b, List.mem_range'_1.mpr ⟨by omega, by omega⟩, he,
          Or.inr ⟨rfl, rfl⟩⟩
      · exact ⟨b, List.mem_range.mpr hb, a, List.mem_range'_1.mpr ⟨by omega, by omega⟩, he,
          Or.inl ⟨rfl, rfl⟩⟩
end adjacency

/-! ### Symmetry of `cosine_sim` -/

section cosine
variable {K : Type} [LinearOrderedField K]

theorem cosine_dot_foldl (vec2 : TfIdfMap K) (vec1 : TfIdfMap K) (acc : K) :
    vec1.foldl
        (fun result term_pair =>
          match vec2.lookup term_pair.1 with
          | some tfidf2 => result + term_pair.2 * tfidf2
          | none => result)
        acc
      = acc + (vec1.map (fun p => p.2 * weight_of vec2 p.1)).sum := by
  induction vec1 generalizing acc with
  | nil => simp
  | cons p ps ih =>
    rw [List.foldl_cons, ih, List.map_cons, List.sum_cons, ← add_assoc]
    congr 1
    unfold weight_of
    cases vec2.lookup p.1 <;> simp

theorem cosine_dot_eq_sum (vec1 vec2 : TfIdfMap K) :
    cosine_dot vec1 vec2 = (vec1.map (fun p => p.2 * weight_of vec2 p.1)).sum := by
  unfold cosine_dot
  rw [cosine_dot_foldl, zero_add]

theorem weight_of_eq_sum (vec : TfIdfMap K) (h : UniqueKeys vec) (term : String) :
    weight_of vec term = (vec.map (fun q => if q.1 = term then q.2 else 0)).sum := by
  induction vec with
  | nil => simp [weight_of]
  | cons q qs ih =>
    obtain ⟨k, y⟩ := q
    have hnd : k ∉ qs.map Prod.fst ∧ UniqueKeys qs := by
      simpa [UniqueKeys] using h
    rw [List.map_cons, List.sum_cons]
    by_cases hk : k = term
    · subst hk
      have hzero : (qs.map (fun q => if q.1 = k then q.2 else 0)).sum = 0 := by
        apply List.sum_eq_zero
        intro x hx
        obtain ⟨q, hq, rfl⟩ := List.mem_map.mp hx
        have : q.1 ≠ k := fun e => hnd.1 (e ▸ List.mem_map_of_mem Prod.fst hq)
        simp [this]
      simp [weight_of, List.lookup, hzero]
    · have hk' : (term == k) = false := by
        simpa using fun e : term = k => hk e.symm
      have := ih hnd.2
      simp only [weight_of, List.lookup, hk', hk, if_false, zero_add] at this ⊢
      exact this

theorem list_sum_comm {α β : Type} (l1 : List α) (l2 : List β) (f : α → β → K) :
    (l1.map (fun p => (l2.map (fun q => f p q)).sum)).sum
      = (l2.map (fun q => (l1.map (fun p => f p q)).sum)).sum := by
  induction l1 with
  | nil => simp
  | cons p ps ih =>
    simp only [List.map_cons, List.sum_cons]
    rw [ih, List.sum_map_add]

theorem cosine_dot_comm (vec1 vec2 : TfIdfMap K) (h1 : UniqueKeys vec1) (h2 : UniqueKeys vec2) :
    cosine_dot vec1 vec2 = cosine_dot vec2 vec1 := by
  rw [cosine_dot_eq_sum, cosine_dot_eq_sum]
  have e1 : (vec1.map (fun p => p.2 * weight_of vec2 p.1)).sum
      = (vec1.map (fun p => (vec2.map (fun q => if q.1 = p.1 then p.2 * q.2 else 0)).sum)).sum := by
    congr 1
    apply List.map_congr_left
    intro p _
    rw [weight_of_eq_sum vec2 h2, ← List.sum_map_mul_left]
    congr 1
    apply List.map_congr_left
    intro q _
    split <;> simp
  have e2 : (vec2.map (fun q => q.2 * weight_of vec1 q.1)).sum
      = (vec2.map (fun q => (vec1.map (fun p => if q.1 = p.1 then p.2 * q.2 else 0)).sum)).sum := by
    congr 1
    apply List.map_congr_left
    intro q _
    rw [weight_of_eq_sum vec1 h1, ← List.sum_map_mul_left]
    congr 1
    apply List.map_congr_left
    intro p _
    by_cases hpq : p.1 = q.1
    · simp [hpq, mul_comm]
    · have : ¬ q.1 = p.1 := fun e => hpq e.symm
      simp [hpq, this]
  rw [e1, e2, list_sum_comm]

theorem cosine_sim_comm (sqrt : K → K) (vec1 vec2 : TfIdfMap K) (h1 : UniqueKeys vec1)
    (h2 : UniqueKeys vec2) : cosine_sim sqrt vec1 vec2 = cosine_sim sqrt vec2 vec1 := by
  unfold cosine_sim
  rw [cosine_dot_comm vec1 vec2 h1 h2, mul_comm]
end cosine

/-! ### The adjacency matrix: claims C1 and C2 -/

section claims_adjacency
variable {K : Type} [LinearOrderedField K]

theorem Matrix.mem_data_eq_get {T : Type} [Zero T] {r : Matrix T} {n m : Nat} (h : r.Shape n m)
    {x : T} (hx : x ∈ r.m_data) : ∃ i j, i < n ∧ j < m ∧ r.get i j = x := by
  obtain ⟨-, h2, h3⟩ := h
  obtain ⟨k, hk, rfl⟩ := List.getElem_of_mem hx
  have hkm : k < n * m := h3 ▸ hk
  have hm : 0 < m := by
    rcases Nat.eq_zero_or_pos m with h0 | h0
    · subst h0; simp at hkm
    · exact h0
  refine ⟨k / m, k % m, ?_, Nat.mod_lt _ hm, ?_⟩
  · exact Nat.div_lt_of_lt_mul (by rwa [Nat.mul_comm] at hkm)
  · have hidx : k / m * m + k % m = k := by
      rw [Nat.mul_comm]; exact Nat.div_add_mod k m
    simp [Matrix.get, h2, hidx, List.getD_eq_getElem?_getD, hk]

/-- Claim C1: for every list of tf-idf vectors, of any length `N` and any contents, the
matrix returned by `build_adjacency_matrix` has `N` rows and `N` columns (and `N * N`
stored entries), entry `(i, j)` equals entry `(j, i)` for all `i, j < N`, and every
diagonal entry is 1. -/
theorem build_adjacency_matrix_square_symmetric_diag (sqrt : K → K)
    (tfidf_maps : List (TfIdfMap K)) :
    (build_adjacency_matrix sqrt tfidf_maps).rows = tfidf_maps.length ∧
    (build_adjacency_matrix sqrt tfidf_maps).cols = tfidf_maps.length ∧
    (build_adjacency_matrix sqrt tfidf_maps).m_data.length
      = tfidf_maps.length * tfidf_maps.length ∧
    (∀ i j, i < tfidf_maps.length → j < tfidf_maps.length →
      (build_adjacency_matrix sqrt tfidf_maps).get i j
        = (build_adjacency_matrix sqrt tfidf_maps).get j i) ∧
    (∀ i, i < tfidf_maps.length → (build_adjacency_matrix sqrt tfidf_maps).get i i = 1) := by
  obtain ⟨h1, h2, h3⟩ := build_adjacency_matrix_shape sqrt tfidf_maps
  refine ⟨h1, h2, h3, fun i j hi hj => ?_, fun i hi => ?_⟩
  · rw [build_adjacency_matrix_get sqrt tfidf_maps hi hj,
      build_adjacency_matrix_get sqrt tfidf_maps hj hi]
    by_cases hij : i = j
    · subst hij; rfl
    · have hji : ¬ j = i := fun e => hij e.symm
      simp only [hij, hji, false_or]
      by_cases hc : (i < j ∧ edge sqrt tfidf_maps i j = true) ∨
          (j < i ∧ edge sqrt tfidf_maps j i = true)
      · rw [if_pos hc, if_pos hc.symm]
      · rw [if_neg hc, if_neg (fun h => hc h.symm)]
  · rw [build_adjacency_matrix_get sqrt tfidf_maps hi hi, if_pos (Or.inl rfl)]

/-- Claim C2: when every tf-idf vector is a map with pairwise distinct keys, for all
indices `i ≠ j` the entry `(i, j)` of `build_adjacency_matrix` is 1 if the cosine
similarity of the vectors of sentences `i` and `j` is `>= LexrankEdgeThreshold` (0.1) and
0 otherwise, and no stored entry of the matrix is different from 0 and 1. -/
theorem build_adjacency_matrix_threshold (sqrt : K → K) (tfidf_maps : List (TfIdfMap K))
    (hkeys : ∀ vec ∈ tfidf_maps, UniqueKeys vec) :
    (∀ i j, i < tfidf_maps.length → j < tfidf_maps.length → i ≠ j →
      (build_adjacency_matrix sqrt tfidf_maps).get i j =
        if (cosine_sim sqrt (tfidf_maps.getD i []) (tfidf_maps.getD j [])).ge
            LexrankEdgeThreshold = true
        then 1 else 0) ∧
    (∀ x ∈ (build_adjacency_matrix sqrt tfidf_maps).m_data, x = 0 ∨ x = 1) := by
  constructor
  · intro i j hi hj hij
    rw [build_adjacency_matrix_get sqrt tfidf_maps hi hj]
    have hsym : edge sqrt tfidf_maps j i = edge sqrt tfidf_maps i j := by
      unfold edge
      rw [cosine_sim_comm sqrt (tfidf_maps.getD j []) (tfidf_maps.getD i [])]
      · rw [List.getD_eq_getElem _ _ hj]; exact hkeys _ (List.getElem_mem hj)
      · rw [List.getD_eq_getElem _ _ hi]; exact hkeys _ (List.getElem_mem hi)
    rw [hsym]
    change _ = if edge sqrt tfidf_maps i j = true then 1 else 0
    rcases Nat.lt_or_gt_of_ne hij with hlt | hgt
    · by_cases he : edge sqrt tfidf_maps i j = true
      · rw [if_pos (Or.inr (Or.inl ⟨hlt, he⟩)), if_pos he]
      · rw [if_neg he, if_neg]
        rintro (h | ⟨-, h⟩ | ⟨h, -⟩)
        · exact hij h
        · exact he h
        · omega
    · by_cases he : edge sqrt tfidf_maps i j = true
      · rw [if_pos (Or.inr (Or.inr ⟨hgt, he⟩)), if_pos he]
      · rw [if_neg he, if_neg]
        rintro (h | ⟨h, -⟩ | ⟨-, h⟩)
        · exact hij h
        · omega
        · exact he h
  · intro x hx
    obtain ⟨i, j, hi, hj, rfl⟩ :=
      Matrix.mem_data_eq_get (build_adjacency_matrix_shape sqrt tfidf_maps) hx
    rw [build_adjacency_matrix_get sqrt tfidf_maps hi hj]
    split
    · exact Or.inr rfl
    · exact Or.inl rfl

/-- Witness of C2 on three concrete vectors. -/
theorem build_adjacency_matrix_threshold_witness :
    (∀ vec ∈ sample_maps, UniqueKeys vec) ∧
    ((∀ i j, i < sample_maps.length → j < sample_maps.length → i ≠ j →
      (build_adjacency_matrix id sample_maps).get i j =
        if (cosine_sim id (sample_maps.getD i []) (sample_maps.getD j [])).ge
            LexrankEdgeThreshold = true
        then 1 else 0) ∧
    (∀ x ∈ (build_adjacency_matrix id sample_maps).m_data, x = 0 ∨ x = 1)) :=
  ⟨by decide, build_adjacency_matrix_threshold id sample_maps (by decide)⟩
end claims_adjacency

/-! ### Entries of `markov_chain_mat` -/

section markov
variable {K : Type} [LinearOrderedField K]

theorem foldl_ite_never {ι T : Type} (l : List ι) (p : ι → Prop) [DecidablePred p]
    (g : ι → T → T) (v : T) (h : ∀ x ∈ l, ¬ p x) :
    l.foldl (fun v x => if p x then g x v else v) v = v := by
  induction l with
  | nil => rfl
  | cons x xs ih =>
    rw [List.foldl_cons, if_neg (h x (List.mem_cons_self x xs))]
    exact ih (fun y hy => h y (List.mem_cons_of_mem x hy))

theorem foldl_ite_once {ι T : Type} [DecidableEq ι] (l : List ι) (hl : l.Nodup) (x0 : ι)
    (hx : x0 ∈ l) (g : T → T) (v : T) :
    l.foldl (fun v x => if x0 = x then g v else v) v = g v := by
  induction l generalizing v with
  | nil => simp at hx
  | cons x xs ih =>
    obtain ⟨hnot, hnd⟩ := List.nodup_cons.mp hl
    rw [List.foldl_cons]
    by_cases hx0 : x0 = x
    · subst hx0
      rw [if_pos rfl]
      exact foldl_ite_never xs (fun x => x0 = x) (fun _ => g) (g v)
        (fun y hy e => hnot (e ▸ hy))
    · rw [if_neg hx0]
      rcases List.mem_cons.mp hx with h | h
      · exact absurd h hx0
      · exact ih hnd h v

/-- First loop nest of `markov_chain_mat`: the entry `(a, b)` becomes `1 / colsum` of
column `b` when `adj_mat(a, b)` is not zero, and is left alone otherwise. -/
theorem markov_uniform_pointwise (adj_mat : Matrix Nat) (n : Nat) :
    Pointwise (T := K) n n
      (fun r => (List.range n).foldl
        (fun result j =>
          (List.range n).foldl
            (fun result i =>
              if adj_mat.get i j ≠ 0 then result.set i j (1 / (colsum adj_mat j : K)) else result)
            result)
        r)
      (fun (a b : Nat) (v : K) => if adj_mat.get a b ≠ 0 then 1 / (colsum adj_mat b : K) else v) := by
  have key := pointwise_foldl (T := K) (n := n) (m := n) (List.range n)
    (fun result j =>
      (List.range n).foldl
        (fun result i =>
          if adj_mat.get i j ≠ 0 then result.set i j (1 / (colsum adj_mat j : K)) else result)
        result)
    (fun (j a b : Nat) (v : K) =>
      if b = j ∧ adj_mat.get a b ≠ 0 then 1 / (colsum adj_mat b : K) else v)
    (by
      intro j hj
      have hj' : j < n := List.mem_range.mp hj
      have inner := pointwise_foldl (T := K) (n := n) (m := n) (List.range n)
        (fun result i =>
          if adj_mat.get i j ≠ 0 then result.set i j (1 / (colsum adj_mat j : K)) else result)
        (fun (i a b : Nat) (v : K) =>
          if adj_mat.get i j ≠ 0 ∧ a = i ∧ b = j then 1 / (colsum adj_mat j : K) else v)
        (by
          intro i hi
          have hi' : i < n := List.mem_range.mp hi
          have h2 := pointwise_ite (adj_mat.get i j ≠ 0)
            (pointwise_set hi' hj' (1 / (colsum adj_mat j : K)))
          intro r hr
          obtain ⟨s, g⟩ := h2 r hr
          refine ⟨s, fun a b ha hb => (g a b ha hb).trans ?_⟩
          dsimp only
          by_cases hc : adj_mat.get i j ≠ 0
          · by_cases h1 : a = i ∧ b = j
            · rw [if_pos hc, if_pos h1, if_pos ⟨hc, h1⟩]
            · rw [if_pos hc, if_neg h1, if_neg (fun h => h1 h.2)]
          · rw [if_neg hc, if_neg (fun h => hc h.1)])
      intro r hr
      obtain ⟨s, g⟩ := inner r hr
      refine ⟨s, fun a b ha hb => (g a b ha hb).trans ?_⟩
      refine (foldl_ite_const _ (fun i => adj_mat.get i j ≠ 0 ∧ a = i ∧ b = j) _ _).trans ?_
      dsimp only
      by_cases hc : b = j ∧ adj_mat.get a b ≠ 0
      · obtain ⟨rfl, hne⟩ := hc
        rw [if_pos ⟨a, List.mem_range.mpr ha, hne, rfl, rfl⟩, if_pos ⟨rfl, hne⟩]
      · rw [if_neg hc, if_neg]
        rintro ⟨i, -, hne, rfl, rfl⟩
        exact hc ⟨rfl, hne⟩)
  intro r hr
  obtain ⟨s, g⟩ := key r hr
  refine ⟨s, fun a b ha hb => (g a b ha hb).trans ?_⟩
  refine (foldl_ite_const _ (fun j => b = j ∧ adj_mat.get a b ≠ 0) _ _).trans ?_
  dsimp only
  by_cases hc : adj_mat.get a b ≠ 0
  · rw [if_pos ⟨b, List.mem_range.mpr hb, rfl, hc⟩, if_pos hc]
  · rw [if_neg hc, if_neg]
    rintro ⟨j, -, -, hne⟩
    exact hc hne

/-- Second loop nest of `markov_chain_mat`: every entry `v` becomes
`v * (1 - damping_factor) + entry_damping`. -/
theorem markov_damping_pointwise (n : Nat) (damping_factor entry_damping : K) :
    Pointwise (T := K) n n
      (fun r => (List.range n).foldl
        (fun result i =>
          (List.range n).foldl
            (fun result j =>
              let result := result.set i j (result.get i j * (1 - damping_factor))
              result.set i j (result.get i j + entry_damping))
            result)
        r)
      (fun (_ _ : Nat) (v : K) => v * (1 - damping_factor) + entry_damping) := by
  have key := pointwise_foldl (T := K) (n := n) (m := n) (List.range n)
    (fun result i =>
      (List.range n).foldl
        (fun result j =>
          let result := result.set i j (result.get i j * (1 - damping_factor))
          result.set i j (result.get i j + entry_damping))
        result)
    (fun (i a _ : Nat) (v : K) =>
      if a = i then v * (1 - damping_factor) + entry_damping else v)
    (by
      intro i hi
      have hi' : i < n := List.mem_range.mp hi
      have inner := pointwise_foldl (T := K) (n := n) (m := n) (List.range n)
        (fun result j =>
          let result := result.set i j (result.get i j * (1 - damping_factor))
          result.set i j (result.get i j + entry_damping))
        (fun (j a b : Nat) (v : K) =>
          if a = i ∧ b = j then v * (1 - damping_factor) + entry_damping else v)
        (by
          intro j hj
          have hj' : j < n := List.mem_range.mp hj
          have h2 := pointwise_comp
            (pointwise_modify hi' hj' (fun v : K => v * (1 - damping_factor)))
            (pointwise_modify hi' hj' (fun v : K => v + entry_damping))
          intro r hr
          obtain ⟨s, g⟩ := h2 r hr
          refine ⟨s, fun a b ha hb => (g a b ha hb).trans ?_⟩
          dsimp only
          by_cases h1 : a = i ∧ b = j
          · rw [if_pos h1, if_pos h1, if_pos h1]
          · rw [if_neg h1, if_neg h1, if_neg h1])
      intro r hr
      obtain ⟨s, g⟩ := inner r hr
      refine ⟨s, fun a b ha hb => (g a b ha hb).trans ?_⟩
      dsimp only
      by_cases hai : a = i
      · subst hai
        rw [if_pos rfl]
        have : (fun (v : K) (x : Nat) =>
            if a = a ∧ b = x then v * (1 - damping_factor) + entry_damping else v)
            = (fun (v : K) (x : Nat) =>
            if b = x then (fun v => v * (1 - damping_factor) + entry_damping) v else v) := by
          funext v x
          simp
        rw [this]
        exact foldl_ite_once _ (List.nodup_range n) b (List.mem_range.mpr hb) _ _
      · rw [if_neg hai]
        exact foldl_ite_never _ (fun j => a = i ∧ b = j) _ _ (fun _ _ h => hai h.1))
  intro r hr
  obtain ⟨s, g⟩ := key r hr
  refine ⟨s, fun a b ha hb => (g a b ha hb).trans ?_⟩
  exact foldl_ite_once _ (List.nodup_range n) a (List.mem_range.mpr ha)
    (fun v => v * (1 - damping_factor) + entry_damping) _

theorem markov_chain_mat_shape (adj_mat : Matrix Nat) (damping_factor : K) :
    (markov_chain_mat adj_mat damping_factor).Shape adj_mat.rows adj_mat.rows := by
  obtain ⟨s1, -⟩ := markov_uniform_pointwise (K := K) adj_mat adj_mat.rows _
    (Matrix.shape_new (T := K) adj_mat.rows adj_mat.rows)
  obtain ⟨s2, -⟩ := markov_damping_pointwise adj_mat.rows damping_factor
    (damping_factor / (adj_mat.rows : K)) _ s1
  exact s2

theorem markov_chain_mat_get (adj_mat : Matrix Nat) (damping_factor : K) {a b : Nat}
    (ha : a < adj_mat.rows) (hb : b < adj_mat.rows) :
    (markov_chain_mat adj_mat damping_factor).get a b =
      (if adj_mat.get a b ≠ 0 then 1 / (colsum adj_mat b : K) else 0) * (1 - damping_factor)
        + damping_factor / (adj_mat.rows : K) := by
  obtain ⟨s1, g1⟩ := markov_uniform_pointwise (K := K) adj_mat adj_mat.rows _
    (Matrix.shape_new (T := K) adj_mat.rows adj_mat.rows)
  obtain ⟨-, g2⟩ := markov_damping_pointwise adj_mat.rows damping_factor
    (damping_factor / (adj_mat.rows : K)) _ s1
  refine (g2 a b ha hb).trans ?_
  dsimp only
  rw [g1 a b ha hb, Matrix.get_new]
end markov

/-! ### Degrees and column sums -/

section markov_claims
variable {K : Type} [LinearOrderedField K]

theorem foldl_add_eq_sum {ι M : Type} [AddCommMonoid M] (l : List ι) (f : ι → M) (acc : M) :
    l.foldl (fun c i => c + f i) acc = acc + (l.map f).sum := by
  induction l generalizing acc with
  | nil => simp
  | cons x xs ih => rw [List.foldl_cons, ih, List.map_cons, List.sum_cons, add_assoc]

theorem sum_map_range {M : Type} [AddCommMonoid M] (f : Nat → M) (n : Nat) :
    ((List.range n).map f).sum = ∑ i in Finset.range n, f i := by
  induction n with
  | zero => simp
  | succ k ih => simp [List.range_succ, Finset.sum_range_succ, ih]

theorem countP_range (p : Nat → Bool) (n : Nat) :
    (List.range n).countP p = ∑ i in Finset.range n, if p i = true then 1 else 0 := by
  induction n with
  | zero => simp
  | succ k ih =>
    rw [List.range_succ, List.countP_append, ih, Finset.sum_range_succ]
    congr 1
    cases hp : p k <;> simp [List.countP_cons, hp]

theorem colsum_eq_degree {adj : Matrix Nat} {n : Nat} (h : IsAdjacency adj n) {j : Nat}
    (hj : j < n) : colsum adj j = degree adj j := by
  obtain ⟨⟨hr, -, -⟩, h01, -⟩ := h
  unfold colsum degree
  rw [foldl_add_eq_sum, Nat.zero_add, sum_map_range, countP_range, Matrix.rows, hr]
  apply Finset.sum_congr rfl
  intro i hi
  rcases h01 i (Finset.mem_range.mp hi) j hj with h0 | h1
  · simp [h0]
  · simp [h1]

theorem degree_pos {adj : Matrix Nat} {n : Nat} (h : IsAdjacency adj n) {j : Nat} (hj : j < n) :
    1 ≤ degree adj j := by
  obtain ⟨⟨hr, -, -⟩, -, hd⟩ := h
  unfold degree
  rw [Matrix.rows, hr]
  apply List.countP_pos_iff.mpr
  exact ⟨j, List.mem_range.mpr hj, by simp [hd j hj]⟩

theorem build_adjacency_matrix_isAdjacency (sqrt : K → K) (tfidf_maps : List (TfIdfMap K)) :
    IsAdjacency (build_adjacency_matrix sqrt tfidf_maps) tfidf_maps.length := by
  refine ⟨build_adjacency_matrix_shape sqrt tfidf_maps, fun i hi j hj => ?_, fun i hi => ?_⟩
  · rw [build_adjacency_matrix_get sqrt tfidf_maps hi hj]
    split
    · exact Or.inr rfl
    · exact Or.inl rfl
  · rw [build_adjacency_matrix_get sqrt tfidf_maps hi hi, if_pos (Or.inl rfl)]

theorem markov_chain_mat_get_base {adj : Matrix Nat} {n : Nat} (h : IsAdjacency adj n)
    (d : K) {i j : Nat} (hi : i < n) (hj : j < n) :
    (markov_chain_mat adj d).get i j = (1 - d) * base adj i j + d / (n : K) := by
  have hr : adj.rows = n := h.1.1
  rw [markov_chain_mat_get adj d (hr.symm ▸ hi) (hr.symm ▸ hj), colsum_eq_degree h hj, hr,
    mul_comm]
  congr 2
  unfold base
  rcases h.2.1 i hi j hj with h0 | h1
  · simp [h0]
  · simp [h1]

theorem base_nonneg (adj : Matrix Nat) (i j : Nat) : (0 : K) ≤ base adj i j := by
  unfold base
  split
  · positivity
  · exact le_refl 0

theorem sum_base {adj : Matrix Nat} {n : Nat} (h : IsAdjacency adj n) {j : Nat} (hj : j < n) :
    ∑ i in Finset.range n, (base adj i j : K) = 1 := by
  have hpos : (0 : K) < (degree adj j : K) := by
    exact_mod_cast degree_pos h hj
  have hdeg : ((degree adj j : Nat) : K)
      = ∑ i in Finset.range n, if adj.get i j = 1 then (1 : K) else 0 := by
    unfold degree
    rw [countP_range, Matrix.rows, h.1.1]
    push_cast
    apply Finset.sum_congr rfl
    intro i _
    simp
  have : ∑ i in Finset.range n, (base adj i j : K)
      = (∑ i in Finset.range n, if adj.get i j = 1 then (1 : K) else 0) * (1 / (degree adj j : K)) := by
    rw [Finset.sum_mul]
    apply Finset.sum_congr rfl
    intro i _
    unfold base
    split <;> simp
  rw [this, ← hdeg]
  field_simp

theorem column_sum_markov {adj : Matrix Nat} {n : Nat} (h : IsAdjacency adj n) (d : K)
    {j : Nat} (hj : j < n) : ∑ i in Finset.range n, (markov_chain_mat adj d).get i j = 1 := by
  have hn : (0 : K) < (n : K) := by
    have : 0 < n := by omega
    exact_mod_cast this
  have e : ∀ i ∈ Finset.range n,
      (markov_chain_mat adj d).get i j = (1 - d) * base adj i j + d / (n : K) :=
    fun i hi => markov_chain_mat_get_base h d (Finset.mem_range.mp hi) hj
  rw [Finset.sum_congr rfl e, Finset.sum_add_distrib, ← Finset.mul_sum, sum_base h hj,
    Finset.sum_const, Finset.card_range, nsmul_eq_mul]
  field_simp

end markov_claims

/-! ### The transition matrix: claims C3 to C6 -/

section markov_claims2
variable {K : Type} [LinearOrderedField K]

/-- Claim C3: for every `n × n` 0/1 adjacency matrix with all-1 diagonal (`n >= 1` since
it has a column `j`) and every damping factor `d`, the entries of column `j` of
`markov_chain_mat adj d` sum to exactly 1, hence to 1 within `1e-9`. -/
theorem markov_chain_mat_column_sum (adj : Matrix Nat) (n : Nat) (d : K)
    (h : IsAdjacency adj n) (j : Nat) (hj : j < n) :
    column_sum (markov_chain_mat adj d) j = 1 ∧
      |column_sum (markov_chain_mat adj d) j - 1| ≤ 1 / 10 ^ 9 := by
  have hs : column_sum (markov_chain_mat adj d) j = 1 := by
    unfold column_sum
    rw [Matrix.rows, (markov_chain_mat_shape adj d).1, Matrix.rows, h.1.1, sum_map_range]
    exact column_sum_markov h d hj
  refine ⟨hs, ?_⟩
  rw [hs, sub_self, abs_zero]
  positivity

/-- Claim C4: for every `n × n` 0/1 adjacency matrix with all-1 diagonal and every damping
factor `d`, entry `(i, j)` of `markov_chain_mat adj d` is `(1 - d) * base(i, j) + d / n`,
where `base(i, j)` is `1 / deg(j)` if `adj(i, j) = 1` and 0 otherwise and `deg(j)` counts
the 1-entries of column `j`. -/
theorem markov_chain_mat_entry (adj : Matrix Nat) (n : Nat) (d : K) (h : IsAdjacency adj n)
    (i j : Nat) (hi : i < n) (hj : j < n) :
    (markov_chain_mat adj d).get i j
      = (1 - d) * (if adj.get i j = 1 then 1 / (degree adj j : K) else 0) + d / (n : K) :=
  markov_chain_mat_get_base h d hi hj

/-- Claim C5: for every `n × n` 0/1 adjacency matrix with all-1 diagonal and every damping
factor `0 < d <= 1`, every entry of `markov_chain_mat adj d` is at least `d / n` and
strictly positive. -/
theorem markov_chain_mat_entry_lower_bound (adj : Matrix Nat) (n : Nat) (d : K)
    (h : IsAdjacency adj n) (hd0 : 0 < d) (hd1 : d ≤ 1) (i j : Nat) (hi : i < n) (hj : j < n) :
    d / (n : K) ≤ (markov_chain_mat adj d).get i j ∧ 0 < (markov_chain_mat adj d).get i j := by
  have hn : (0 : K) < (n : K) := by
    have : 0 < n := by omega
    exact_mod_cast this
  have hpos : 0 < d / (n : K) := div_pos hd0 hn
  have hle : d / (n : K) ≤ (markov_chain_mat adj d).get i j := by
    rw [markov_chain_mat_get_base h d hi hj]
    have : 0 ≤ (1 - d) * (base adj i j : K) :=
      mul_nonneg (sub_nonneg.mpr hd1) (base_nonneg adj i j)
    linarith
  exact ⟨hle, lt_of_lt_of_le hpos hle⟩

/-- Claim C6: for every list of tf-idf vectors, every column `j` of the matrix returned
by `build_adjacency_matrix` holds a 1-entry (its diagonal entry), so its degree is at
least 1 and the divisor `colsum` of `1.0 / colsum` in `markov_chain_mat` is not zero,
neither as an integer nor after conversion to `double`. -/
theorem build_adjacency_matrix_colsum_ne_zero (sqrt : K → K) (tfidf_maps : List (TfIdfMap K))
    (j : Nat) (hj : j < tfidf_maps.length) :
    (∃ i, i < tfidf_maps.length ∧ (build_adjacency_matrix sqrt tfidf_maps).get i j = 1) ∧
    1 ≤ degree (build_adjacency_matrix sqrt tfidf_maps) j ∧
    1 ≤ colsum (build_adjacency_matrix sqrt tfidf_maps) j ∧
    ((colsum (build_adjacency_matrix sqrt tfidf_maps) j : Nat) : K) ≠ 0 := by
  have hadj := build_adjacency_matrix_isAdjacency sqrt tfidf_maps
  have hdeg := degree_pos hadj hj
  have hcol : 1 ≤ colsum (build_adjacency_matrix sqrt tfidf_maps) j := by
    rw [colsum_eq_degree hadj hj]; exact hdeg
  refine ⟨⟨j, hj, hadj.2.2 j hj⟩, hdeg, hcol, ?_⟩
  have : (0 : K) < ((colsum (build_adjacency_matrix sqrt tfidf_maps) j : Nat) : K) := by
    exact_mod_cast hcol
  exact ne_of_gt this

/-- Witness of C3 on `sample_adj`, column 1, damping factor 0.15. -/
theorem markov_chain_mat_column_sum_witness :
    IsAdjacency sample_adj 3 ∧ 1 < 3 ∧
    (column_sum (markov_chain_mat sample_adj (15 / 100 : ℚ)) 1 = 1 ∧
      |column_sum (markov_chain_mat sample_adj (15 / 100 : ℚ)) 1 - 1| ≤ 1 / 10 ^ 9) :=
  ⟨by decide, by decide,
    markov_chain_mat_column_sum sample_adj 3 (15 / 100 : ℚ) (by decide) 1 (by decide)⟩

/-- Witness of C4 on `sample_adj`, entry `(0, 1)`, damping factor 0.15. -/
theorem markov_chain_mat_entry_witness :
    IsAdjacency sample_adj 3 ∧ 0 < 3 ∧ 1 < 3 ∧
    (markov_chain_mat sample_adj (15 / 100 : ℚ)).get 0 1
      = (1 - 15 / 100) * (if sample_adj.get 0 1 = 1 then 1 / (degree sample_adj 1 : ℚ) else 0)
        + 15 / 100 / ((3 : Nat) : ℚ) :=
  ⟨by decide, by decide, by decide,
    markov_chain_mat_entry sample_adj 3 (15 / 100 : ℚ) (by decide) 0 1 (by decide) (by decide)⟩

/-- Witness of C5 on `sample_adj`, entry `(2, 0)`, damping factor 0.15. -/
theorem markov_chain_mat_entry_lower_bound_witness :
    IsAdjacency sample_adj 3 ∧ (0 : ℚ) < 15 / 100 ∧ (15 / 100 : ℚ) ≤ 1 ∧ 2 < 3 ∧ 0 < 3 ∧
    (15 / 100 / ((3 : Nat) : ℚ) ≤ (markov_chain_mat sample_adj (15 / 100 : ℚ)).get 2 0 ∧
      0 < (markov_chain_mat sample_adj (15 / 100 : ℚ)).get 2 0) :=
  ⟨by decide, by norm_num, by norm_num, by decide, by decide,
    markov_chain_mat_entry_lower_bound sample_adj 3 (15 / 100 : ℚ) (by decide) (by norm_num)
      (by norm_num) 2 0 (by decide) (by decide)⟩

/-- Witness of C6 on the three sample vectors, column 2. -/
theorem build_adjacency_matrix_colsum_ne_zero_witness :
    2 < sample_maps.length ∧
    ((∃ i, i < sample_maps.length ∧ (build_adjacency_matrix id sample_maps).get i 2 = 1) ∧
    1 ≤ degree (build_adjacency_matrix id sample_maps) 2 ∧
    1 ≤ colsum (build_adjacency_matrix id sample_maps) 2 ∧
    ((colsum (build_adjacency_matrix id sample_maps) 2 : Nat) : ℚ) ≠ 0) :=
  ⟨by decide, build_adjacency_matrix_colsum_ne_zero id sample_maps 2 (by decide)⟩

end markov_claims2

/-! ### Vectors and the matrix-vector product -/

section vectors
variable {T : Type}

theorem vector_shape_new [Zero T] (n : Nat) : (Vector.new n : Vector T).Shape n := by
  simp [Vector.Shape, Vector.new]

theorem vector_shape_set {v : Vector T} {n : Nat} (h : v.Shape n) (i : Nat) (x : T) :
    (v.set i x).Shape n := by
  obtain ⟨h1, h2⟩ := h
  exact ⟨h1, by simp [Vector.set, h2]⟩

theorem vector_get_set [Zero T] {v : Vector T} {n : Nat} (h : v.Shape n) {i : Nat} (hi : i < n)
    (a : Nat) (x : T) : (v.set i x).get a = if a = i then x else v.get a := by
  have hlt : i < v.m_data.length := h.2 ▸ hi
  simp only [Vector.get, Vector.set, List.getD_eq_getElem?_getD, List.getElem?_set]
  by_cases hai : a = i
  · subst hai
    simp [hlt]
  · have hne : ¬ i = a := fun e => hai e.symm
    simp [hne, hai]

theorem Vector.set_of_length_le (v : Vector T) {i : Nat} (h : v.m_data.length ≤ i) (x : T) :
    v.set i x = v := by
  cases v with
  | mk size data =>
    simp only [Vector.set]
    rw [List.set_eq_of_length_le h]

theorem Vector.foldl_set_shape [Zero T] (l : List Nat) (f : Vector T → Nat → T) {v : Vector T}
    {n : Nat} (h : v.Shape n) : (l.foldl (fun r i => r.set i (f r i)) v).Shape n := by
  induction l generalizing v with
  | nil => exact h
  | cons x xs ih => exact ih (vector_shape_set h _ _)

theorem Vector.foldl_set_get [Zero T] (l : List Nat) (f : Nat → T) {v : Vector T} {n : Nat}
    (h : v.Shape n) {a : Nat} (ha : a < n) (hmem : a ∈ l) :
    (l.foldl (fun r i => r.set i (f i)) v).get a = f a := by
  induction l using List.reverseRecOn with
  | nil => simp at hmem
  | append_singleton xs x ih =>
    rw [List.foldl_append, List.foldl_cons, List.foldl_nil]
    have hs := Vector.foldl_set_shape xs (fun _ i => f i) h
    by_cases hax : a = x
    · subst hax
      rw [vector_get_set hs ha, if_pos rfl]
    · have hx : a ∈ xs := by
        rcases List.mem_append.mp hmem with h1 | h1
        · exact h1
        · exact absurd (List.mem_singleton.mp h1) hax
      by_cases hxn : x < n
      · rw [vector_get_set hs hxn, if_neg hax]
        exact ih hx
      · have hlen : (xs.foldl (fun r i => r.set i (f i)) v).m_data.length ≤ x := by
          rw [hs.2]; omega
        rw [Vector.set_of_length_le _ hlen]
        exact ih hx

theorem mulVec_shape [Zero T] [Add T] [Mul T] (matrix : Matrix T) (vector : Vector T) :
    (matrix.mulVec vector).Shape matrix.rows :=
  Vector.foldl_set_shape _ (fun _ i => (List.range matrix.cols).foldl
    (fun elem j => elem + matrix.get i j * vector.get j) 0) (vector_shape_new matrix.rows)

theorem mulVec_get_foldl [Zero T] [Add T] [Mul T] (matrix : Matrix T) (vector : Vector T)
    {i : Nat} (hi : i < matrix.rows) :
    (matrix.mulVec vector).get i
      = (List.range matrix.cols).foldl (fun elem j => elem + matrix.get i j * vector.get j) 0 :=
  Vector.foldl_set_get (List.range matrix.rows)
    (fun i => (List.range matrix.cols).foldl
      (fun elem j => elem + matrix.get i j * vector.get j) 0)
    (vector_shape_new matrix.rows) hi (List.mem_range.mpr hi)

end vectors

section vectors_field
variable {K : Type} [LinearOrderedField K]

theorem mulVec_get (matrix : Matrix K) (vector : Vector K) {i : Nat} (hi : i < matrix.rows) :
    (matrix.mulVec vector).get i
      = ∑ j in Finset.range matrix.cols, matrix.get i j * vector.get j := by
  rw [mulVec_get_foldl matrix vector hi, foldl_add_eq_sum, zero_add, sum_map_range]

theorem initial_dist_shape (n : Nat) : (initial_dist n : Vector K).Shape n :=
  Vector.foldl_set_shape _ (fun r _ => 1 / (r.size : K)) (vector_shape_new n)

theorem initial_dist_get (n : Nat) {i : Nat} (hi : i < n) :
    (initial_dist n : Vector K).get i = 1 / (n : K) := by
  have hsize : ∀ (l : List Nat) (v : Vector K), v.m_size = n →
      l.foldl (fun r i => r.set i (1 / (r.size : K))) v
        = l.foldl (fun r i => r.set i (1 / (n : K))) v := by
    intro l
    induction l with
    | nil => intro v _; rfl
    | cons x xs ih =>
      intro v hv
      rw [List.foldl_cons, List.foldl_cons, Vector.size, hv]
      exact ih _ hv
  unfold initial_dist
  rw [hsize _ _ (vector_shape_new n).1]
  exact Vector.foldl_set_get (List.range n) (fun _ => 1 / (n : K)) (vector_shape_new n) hi
    (List.mem_range.mpr hi)

end vectors_field

/-! ### The damped matrix acting on vectors -/

section stochastic
variable {K : Type} [LinearOrderedField K]

theorem markov_chain_mat_shape_of {adj : Matrix Nat} {n : Nat} (h : IsAdjacency adj n) (d : K) :
    (markov_chain_mat adj d).Shape n n := by
  have hr : adj.rows = n := h.1.1
  have hs := markov_chain_mat_shape adj d
  rwa [hr] at hs

theorem markov_mulVec_get {adj : Matrix Nat} {n : Nat} (h : IsAdjacency adj n) (d : K)
    (x : Vector K) {i : Nat} (hi : i < n) :
    ((markov_chain_mat adj d).mulVec x).get i
      = ∑ j in Finset.range n, (markov_chain_mat adj d).get i j * x.get j := by
  have hs := markov_chain_mat_shape_of h d
  rw [mulVec_get _ _ (by rw [Matrix.rows, hs.1]; exact hi), Matrix.cols, hs.2.1]

theorem markov_mulVec_shape {adj : Matrix Nat} {n : Nat} (h : IsAdjacency adj n) (d : K)
    (x : Vector K) : ((markov_chain_mat adj d).mulVec x).Shape n := by
  have hs := markov_chain_mat_shape_of h d
  have := mulVec_shape (markov_chain_mat adj d) x
  rwa [Matrix.rows, hs.1] at this

theorem markov_mulVec_sum {adj : Matrix Nat} {n : Nat} (h : IsAdjacency adj n) (d : K)
    (x : Vector K) :
    ∑ i in Finset.range n, ((markov_chain_mat adj d).mulVec x).get i
      = ∑ j in Finset.range n, x.get j := by
  have e : ∀ i ∈ Finset.range n, ((markov_chain_mat adj d).mulVec x).get i
      = ∑ j in Finset.range n, (markov_chain_mat adj d).get i j * x.get j :=
    fun i hi => markov_mulVec_get h d x (Finset.mem_range.mp hi)
  rw [Finset.sum_congr rfl e, Finset.sum_comm]
  apply Finset.sum_congr rfl
  intro j hj
  rw [← Finset.sum_mul, column_sum_markov h d (Finset.mem_range.mp hj), one_mul]

theorem markov_get_nonneg {adj : Matrix Nat} {n : Nat} (h : IsAdjacency adj n) {d : K}
    (hd0 : 0 ≤ d) (hd1 : d ≤ 1) {i j : Nat} (hi : i < n) (hj : j < n) :
    0 ≤ (markov_chain_mat adj d).get i j := by
  rw [markov_chain_mat_get_base h d hi hj]
  have h1 : 0 ≤ (1 - d) * (base adj i j : K) :=
    mul_nonneg (sub_nonneg.mpr hd1) (base_nonneg adj i j)
  have h2 : 0 ≤ d / (n : K) := div_nonneg hd0 (Nat.cast_nonneg n)
  linarith

theorem markov_mulVec_nonneg {adj : Matrix Nat} {n : Nat} (h : IsAdjacency adj n) {d : K}
    (hd0 : 0 ≤ d) (hd1 : d ≤ 1) {x : Vector K} (hx : ∀ j, j < n → 0 ≤ x.get j) {i : Nat}
    (hi : i < n) : 0 ≤ ((markov_chain_mat adj d).mulVec x).get i := by
  rw [markov_mulVec_get h d x hi]
  apply Finset.sum_nonneg
  intro j hj
  exact mul_nonneg (markov_get_nonneg h hd0 hd1 hi (Finset.mem_range.mp hj))
    (hx j (Finset.mem_range.mp hj))

/-- One product with the damped matrix shrinks the 1-norm distance of two vectors of equal
total mass by the factor `1 - d`. -/
theorem markov_mulVec_contraction {adj : Matrix Nat} {n : Nat} (h : IsAdjacency adj n) {d : K}
    (hd1 : d ≤ 1) (x y : Vector K)
    (hsum : ∑ j in Finset.range n, y.get j = ∑ j in Finset.range n, x.get j) :
    ∑ i in Finset.range n,
        |((markov_chain_mat adj d).mulVec y).get i - ((markov_chain_mat adj d).mulVec x).get i|
      ≤ (1 - d) * ∑ j in Finset.range n, |y.get j - x.get j| := by
  have hz : ∑ j in Finset.range n, (y.get j - x.get j) = 0 := by
    rw [Finset.sum_sub_distrib, hsum, sub_self]
  have hd : 0 ≤ 1 - d := sub_nonneg.mpr hd1
  have hdiff : ∀ i ∈ Finset.range n,
      ((markov_chain_mat adj d).mulVec y).get i - ((markov_chain_mat adj d).mulVec x).get i
        = (1 - d) * ∑ j in Finset.range n, base adj i j * (y.get j - x.get j) := by
    intro i hi
    have hi' := Finset.mem_range.mp hi
    rw [markov_mulVec_get h d y hi', markov_mulVec_get h d x hi', ← Finset.sum_sub_distrib]
    have e : ∀ j ∈ Finset.range n,
        (markov_chain_mat adj d).get i j * y.get j - (markov_chain_mat adj d).get i j * x.get j
          = (1 - d) * (base adj i j * (y.get j - x.get j))
            + d / (n : K) * (y.get j - x.get j) := by
      intro j hj
      rw [markov_chain_mat_get_base h d hi' (Finset.mem_range.mp hj)]
      ring
    rw [Finset.sum_congr rfl e, Finset.sum_add_distrib, ← Finset.mul_sum, ← Finset.mul_sum, hz,
      mul_zero, add_zero]
  have hbound : ∀ i ∈ Finset.range n,
      |((markov_chain_mat adj d).mulVec y).get i - ((markov_chain_mat adj d).mulVec x).get i|
        ≤ (1 - d) * ∑ j in Finset.range n, base adj i j * |y.get j - x.get j| := by
    intro i hi
    rw [hdiff i hi, abs_mul, abs_of_nonneg hd]
    apply mul_le_mul_of_nonneg_left _ hd
    refine (Finset.abs_sum_le_sum_abs _ _).trans (le_of_eq ?_)
    apply Finset.sum_congr rfl
    intro j _
    rw [abs_mul, abs_of_nonneg (base_nonneg adj i j)]
  refine (Finset.sum_le_sum hbound).trans (le_of_eq ?_)
  rw [← Finset.mul_sum, Finset.sum_comm]
  congr 1
  apply Finset.sum_congr rfl
  intro j hj
  rw [← Finset.sum_mul, sum_base h (Finset.mem_range.mp hj), one_mul]

end stochastic

/-! ### The power-iteration loop -/

section iteration
variable {K : Type} [LinearOrderedField K]

theorem iterate_dist_succ (trans_mat : Matrix K) (x0 : Vector K) (t : Nat) :
    iterate_dist trans_mat x0 (t + 1) = trans_mat.mulVec (iterate_dist trans_mat x0 t) :=
  Function.iterate_succ_apply' _ t x0

theorem iterate_dist_succ_left (trans_mat : Matrix K) (x0 : Vector K) (t : Nat) :
    iterate_dist trans_mat x0 (t + 1) = iterate_dist trans_mat (trans_mat.mulVec x0) t :=
  Function.iterate_succ_apply _ t x0

theorem converged_iff {v : Vector K} {n : Nat} (hv : v.Shape n) (w : Vector K) :
    converged v w = true ↔ ∀ i, i < n → |v.get i - w.get i| ≤ PowerIterationEpsilon := by
  unfold converged close
  rw [List.all_eq_true, Vector.size, hv.1]
  constructor
  · intro h i hi
    exact of_decide_eq_true (h i (List.mem_range.mpr hi))
  · intro h i hi
    exact decide_eq_true (h i (List.mem_range.mp hi))

/-- The loop returns `r` within `fuel` products exactly when `r` is the iterate
`x_{t+1}` for the first index `t < fuel` at which the convergence test succeeds. -/
theorem power_iteration_eq_some_iff (trans_mat : Matrix K) (fuel : Nat) (x0 r : Vector K) :
    power_iteration trans_mat fuel x0 = some r ↔
      ∃ t, t < fuel ∧ r = iterate_dist trans_mat x0 (t + 1) ∧
        converged (iterate_dist trans_mat x0 (t + 1)) (iterate_dist trans_mat x0 t) = true ∧
        ∀ s, s < t →
          converged (iterate_dist trans_mat x0 (s + 1)) (iterate_dist trans_mat x0 s) = false := by
  induction fuel generalizing x0 with
  | zero =>
    constructor
    · intro h; simp [power_iteration] at h
    · rintro ⟨t, ht, -⟩; omega
  | succ fuel ih =>
    rw [power_iteration]
    by_cases hc : converged (trans_mat.mulVec x0) x0 = true
    · simp only [hc, if_true]
      constructor
      · intro h
        have hr : r = trans_mat.mulVec x0 := (Option.some.inj h).symm
        exact ⟨0, Nat.succ_pos _, hr, hc, fun s hs => absurd hs (Nat.not_lt_zero s)⟩
      · rintro ⟨t, -, hr, -, hfirst⟩
        rcases Nat.eq_zero_or_pos t with h0 | hpos
        · subst h0
          rw [hr]; rfl
        · have := hfirst 0 hpos
          have hc' : converged (iterate_dist trans_mat x0 (0 + 1)) (iterate_dist trans_mat x0 0)
              = true := hc
          rw [this] at hc'
          exact absurd hc' (by simp)
    · have hcf : converged (trans_mat.mulVec x0) x0 = false := by simpa using hc
      simp only [hcf, Bool.false_eq_true, if_false]
      rw [ih (trans_mat.mulVec x0)]
      constructor
      · rintro ⟨t, ht, hr, hconv, hfirst⟩
        refine ⟨t + 1, by omega, ?_, ?_, ?_⟩
        · rw [hr, ← iterate_dist_succ_left]
        · rw [iterate_dist_succ_left trans_mat x0 (t + 1), iterate_dist_succ_left trans_mat x0 t]
          exact hconv
        · intro s hs
          rcases Nat.eq_zero_or_pos s with h0 | hpos
          · subst h0; exact hcf
          · obtain ⟨s', rfl⟩ : ∃ s', s = s' + 1 := ⟨s - 1, by omega⟩
            rw [iterate_dist_succ_left trans_mat x0 (s' + 1),
              iterate_dist_succ_left trans_mat x0 s']
            exact hfirst s' (by omega)
      · rintro ⟨t, ht, hr, hconv, hfirst⟩
        rcases Nat.eq_zero_or_pos t with h0 | hpos
        · subst h0
          have hc' : converged (trans_mat.mulVec x0) x0 = true := hconv
          exact absurd hc' hc
        · obtain ⟨t', rfl⟩ : ∃ t', t = t' + 1 := ⟨t - 1, by omega⟩
          refine ⟨t', by omega, ?_, ?_, ?_⟩
          · rw [hr, ← iterate_dist_succ_left]
          · rw [← iterate_dist_succ_left trans_mat x0 (t' + 1),
              ← iterate_dist_succ_left trans_mat x0 t']
            exact hconv
          · intro s hs
            rw [← iterate_dist_succ_left trans_mat x0 (s + 1),
              ← iterate_dist_succ_left trans_mat x0 s]
            exact hfirst (s + 1) (by omega)

end iteration

/-! ### Invariants of the iterates -/

section iteration2
variable {K : Type} [LinearOrderedField K]

theorem iterate_shape {adj : Matrix Nat} {n : Nat} (h : IsAdjacency adj n) (d : K) (t : Nat) :
    (iterate_dist (markov_chain_mat adj d) (initial_dist n) t).Shape n := by
  cases t with
  | zero => exact initial_dist_shape n
  | succ t => rw [iterate_dist_succ]; exact markov_mulVec_shape h d _

theorem initial_dist_sum {n : Nat} (hn : 0 < n) :
    ∑ i in Finset.range n, (initial_dist n : Vector K).get i = 1 := by
  have e : ∀ i ∈ Finset.range n, (initial_dist n : Vector K).get i = 1 / (n : K) :=
    fun i hi => initial_dist_get n (Finset.mem_range.mp hi)
  have hn' : (n : K) ≠ 0 := by
    have : (0 : K) < (n : K) := by exact_mod_cast hn
    exact ne_of_gt this
  rw [Finset.sum_congr rfl e, Finset.sum_const, Finset.card_range, nsmul_eq_mul]
  field_simp

theorem iterate_sum {adj : Matrix Nat} {n : Nat} (h : IsAdjacency adj n) (hn : 0 < n) (d : K)
    (t : Nat) :
    ∑ i in Finset.range n, (iterate_dist (markov_chain_mat adj d) (initial_dist n) t).get i = 1 := by
  induction t with
  | zero => exact initial_dist_sum hn
  | succ t ih => rw [iterate_dist_succ, markov_mulVec_sum h d, ih]

theorem iterate_nonneg {adj : Matrix Nat} {n : Nat} (h : IsAdjacency adj n) {d : K}
    (hd0 : 0 ≤ d) (hd1 : d ≤ 1) (t : Nat) :
    ∀ i, i < n → 0 ≤ (iterate_dist (markov_chain_mat adj d) (initial_dist n) t).get i := by
  induction t with
  | zero =>
    intro i hi
    change 0 ≤ (initial_dist n : Vector K).get i
    rw [initial_dist_get n hi]
    positivity
  | succ t ih =>
    intro i hi
    rw [iterate_dist_succ]
    exact markov_mulVec_nonneg h hd0 hd1 ih hi

/-- The 1-norm distance of consecutive iterates decays geometrically. -/
theorem iterate_delta {adj : Matrix Nat} {n : Nat} (h : IsAdjacency adj n) (hn : 0 < n) {d : K}
    (hd0 : 0 ≤ d) (hd1 : d ≤ 1) (t : Nat) :
    ∑ i in Finset.range n,
        |(iterate_dist (markov_chain_mat adj d) (initial_dist n) (t + 1)).get i
          - (iterate_dist (markov_chain_mat adj d) (initial_dist n) t).get i|
      ≤ (1 - d) ^ t * 2 := by
  induction t with
  | zero =>
    rw [pow_zero, one_mul]
    have hb : ∀ i ∈ Finset.range n,
        |(iterate_dist (markov_chain_mat adj d) (initial_dist n) (0 + 1)).get i
          - (iterate_dist (markov_chain_mat adj d) (initial_dist n) 0).get i|
        ≤ (iterate_dist (markov_chain_mat adj d) (initial_dist n) (0 + 1)).get i
          + (iterate_dist (markov_chain_mat adj d) (initial_dist n) 0).get i := by
      intro i hi
      have h1 := iterate_nonneg h hd0 hd1 (0 + 1) i (Finset.mem_range.mp hi)
      have h0 := iterate_nonneg h hd0 hd1 0 i (Finset.mem_range.mp hi)
      rw [abs_le]
      constructor <;> linarith
    refine (Finset.sum_le_sum hb).trans (le_of_eq ?_)
    rw [Finset.sum_add_distrib, iterate_sum h hn d (0 + 1), iterate_sum h hn d 0]
    norm_num
  | succ t ih =>
    rw [iterate_dist_succ _ _ (t + 1), iterate_dist_succ _ _ t]
    have hsum : ∑ j in Finset.range n,
          (markov_chain_mat adj d |>.mulVec
            (iterate_dist (markov_chain_mat adj d) (initial_dist n) t)).get j
        = ∑ j in Finset.range n,
          (iterate_dist (markov_chain_mat adj d) (initial_dist n) t).get j := by
      rw [markov_mulVec_sum h d]
    have hc := markov_mulVec_contraction h hd1
      (iterate_dist (markov_chain_mat adj d) (initial_dist n) t)
      ((markov_chain_mat adj d).mulVec (iterate_dist (markov_chain_mat adj d) (initial_dist n) t))
      hsum
    refine hc.trans ?_
    rw [← iterate_dist_succ, pow_succ, mul_comm ((1 - d) ^ t) (1 - d), mul_assoc]
    exact mul_le_mul_of_nonneg_left ih (sub_nonneg.mpr hd1)

/-- With the damping factor 0.15 the convergence test succeeds at index 76 at the latest. -/
theorem lexrank_converged_at {adj : Matrix Nat} {n : Nat} (h : IsAdjacency adj n) (hn : 0 < n) :
    converged (iterate_dist (markov_chain_mat adj (DampingFactor : K)) (initial_dist n) (76 + 1))
      (iterate_dist (markov_chain_mat adj (DampingFactor : K)) (initial_dist n) 76) = true := by
  have hd0 : (0 : K) ≤ DampingFactor := by unfold DampingFactor; norm_num
  have hd1 : (DampingFactor : K) ≤ 1 := by unfold DampingFactor; norm_num
  rw [converged_iff (iterate_shape h _ _)]
  intro i hi
  have hdelta := iterate_delta h hn hd0 hd1 76
  have hsmall : (1 - (DampingFactor : K)) ^ 76 * 2 ≤ PowerIterationEpsilon := by
    unfold DampingFactor PowerIterationEpsilon
    norm_num
  have hterm := Finset.single_le_sum
    (f := fun i => |(iterate_dist (markov_chain_mat adj (DampingFactor : K)) (initial_dist n)
        (76 + 1)).get i
      - (iterate_dist (markov_chain_mat adj (DampingFactor : K)) (initial_dist n) 76).get i|)
    (fun j _ => abs_nonneg _) (Finset.mem_range.mpr hi)
  exact (hterm.trans hdelta).trans hsmall

theorem foldlM_except_ok {α β ε : Type} (f : β → α → Except ε β) (l : List α)
    (h : ∀ x ∈ l, ∀ acc, ∃ acc', f acc x = Except.ok acc') (acc : β) :
    ∃ m, l.foldlM f acc = Except.ok m := by
  induction l generalizing acc with
  | nil => exact ⟨acc, rfl⟩
  | cons p ps ih =>
    obtain ⟨acc', hacc⟩ := h p (List.mem_cons_self p ps) acc
    rw [List.foldlM_cons, hacc]
    exact ih (fun q hq => h q (List.mem_cons_of_mem p hq)) acc'

theorem tf_idf_map_ok (log10 : K → K) (idf_scores : List (String × K)) (sentence : doc_terms)
    (h : ∀ term_pair ∈ sentence, (idf_scores.lookup term_pair.1).isSome = true) :
    ∃ m, tf_idf_map log10 idf_scores sentence = Except.ok m := by
  unfold tf_idf_map
  apply foldlM_except_ok
  intro p hp acc
  obtain ⟨idf, hidf⟩ := Option.isSome_iff_exists.mp (h p hp)
  simp only [hidf]
  split <;> split <;> exact ⟨_, rfl⟩

theorem tf_idf_maps_ok (log10 : K → K) (norm_doc : NormalizedDocument)
    (idf_scores : List (String × K)) (h : AllTermsKnown norm_doc idf_scores) :
    ∃ tfidf_maps, tf_idf_maps log10 norm_doc idf_scores = Except.ok tfidf_maps ∧
      tfidf_maps.length = norm_doc.sentence_term_counts.length := by
  unfold tf_idf_maps
  unfold AllTermsKnown at h
  generalize norm_doc.sentence_term_counts = sentences at h
  induction sentences with
  | nil => exact ⟨[], rfl, rfl⟩
  | cons s ss ih =>
    obtain ⟨m, hm⟩ := tf_idf_map_ok log10 idf_scores s (h s (List.mem_cons_self s ss))
    obtain ⟨ms, hms, hlen⟩ := ih (fun s' hs' => h s' (List.mem_cons_of_mem s hs'))
    refine ⟨m :: ms, ?_, by simp [hlen]⟩
    rw [List.mapM_cons, hms, hm]
    rfl

end iteration2

/-! ### Runs of `lexrank` -/

section lexrank_lemmas
variable {K : Type} [LinearOrderedField K]

theorem lexrank_trans_mat_cols (sqrt : K → K) (tfidf_maps : List (TfIdfMap K)) :
    (lexrank_trans_mat sqrt tfidf_maps).cols = tfidf_maps.length :=
  (markov_chain_mat_shape_of (build_adjacency_matrix_isAdjacency sqrt tfidf_maps)
    DampingFactor).2.1

theorem lexrank_of_maps (sqrt log10 : K → K) (fuel : Nat) (norm_doc : NormalizedDocument)
    (idf_scores : List (String × K)) (tfidf_maps : List (TfIdfMap K))
    (hmaps : tf_idf_maps log10 norm_doc idf_scores = Except.ok tfidf_maps) :
    lexrank sqrt log10 fuel norm_doc idf_scores =
      match power_iteration (lexrank_trans_mat sqrt tfidf_maps) fuel
          (initial_dist tfidf_maps.length) with
      | none => Except.error Failure.fuel_exhausted
      | some lexrank_dist => Except.ok (to_std_vector lexrank_dist) := by
  unfold lexrank
  rw [hmaps]
  simp only [lexrank_trans_mat_cols]

theorem lexrank_eq_ok (sqrt log10 : K → K) (fuel : Nat) (norm_doc : NormalizedDocument)
    (idf_scores : List (String × K)) (r : List K)
    (h : lexrank sqrt log10 fuel norm_doc idf_scores = Except.ok r) :
    ∃ tfidf_maps lexrank_dist, tf_idf_maps log10 norm_doc idf_scores = Except.ok tfidf_maps ∧
      power_iteration (lexrank_trans_mat sqrt tfidf_maps) fuel (initial_dist tfidf_maps.length)
        = some lexrank_dist ∧ r = to_std_vector lexrank_dist := by
  cases hmaps : tf_idf_maps log10 norm_doc idf_scores with
  | error e =>
    unfold lexrank at h
    rw [hmaps] at h
    cases h
  | ok tfidf_maps =>
    rw [lexrank_of_maps sqrt log10 fuel norm_doc idf_scores tfidf_maps hmaps] at h
    cases hp : power_iteration (lexrank_trans_mat sqrt tfidf_maps) fuel
        (initial_dist tfidf_maps.length) with
    | none => rw [hp] at h; cases h
    | some lexrank_dist =>
      rw [hp] at h
      exact ⟨tfidf_maps, lexrank_dist, rfl, hp, (Except.ok.inj h).symm⟩

theorem to_std_vector_sum {v : Vector K} {n : Nat} (hv : v.Shape n) :
    (to_std_vector v).sum = ∑ i in Finset.range n, v.get i := by
  unfold to_std_vector
  rw [Vector.size, hv.1, sum_map_range]

theorem to_std_vector_length {v : Vector K} {n : Nat} (hv : v.Shape n) :
    (to_std_vector v).length = n := by
  unfold to_std_vector
  rw [Vector.size, hv.1, List.length_map, List.length_range]

theorem lexrank_iterate_shape (sqrt : K → K) (tfidf_maps : List (TfIdfMap K)) (t : Nat) :
    (iterate_dist (lexrank_trans_mat sqrt tfidf_maps) (initial_dist tfidf_maps.length) t).Shape
      tfidf_maps.length :=
  iterate_shape (build_adjacency_matrix_isAdjacency sqrt tfidf_maps) DampingFactor t

theorem lexrank_iterate_sum (sqrt : K → K) (tfidf_maps : List (TfIdfMap K))
    (hn : 0 < tfidf_maps.length) (t : Nat) :
    ∑ i in Finset.range tfidf_maps.length,
      (iterate_dist (lexrank_trans_mat sqrt tfidf_maps) (initial_dist tfidf_maps.length) t).get i
        = 1 :=
  iterate_sum (build_adjacency_matrix_isAdjacency sqrt tfidf_maps) hn DampingFactor t

/-- For a document with at least one sentence and known terms the loop of `lexrank` ends:
some index `t <= 76` is the first at which the convergence test succeeds, and every fuel
above it returns the iterate `x_{t+1}`. -/
theorem lexrank_total (sqrt log10 : K → K) (norm_doc : NormalizedDocument)
    (idf_scores : List (String × K)) (hknown : AllTermsKnown norm_doc idf_scores)
    (hN : 1 ≤ norm_doc.sentence_term_counts.length) :
    ∃ tfidf_maps t, tf_idf_maps log10 norm_doc idf_scores = Except.ok tfidf_maps ∧
      tfidf_maps.length = norm_doc.sentence_term_counts.length ∧ t ≤ 76 ∧
      converged
        (iterate_dist (lexrank_trans_mat sqrt tfidf_maps) (initial_dist tfidf_maps.length) (t + 1))
        (iterate_dist (lexrank_trans_mat sqrt tfidf_maps) (initial_dist tfidf_maps.length) t)
        = true ∧
      ∀ fuel, t < fuel → lexrank sqrt log10 fuel norm_doc idf_scores =
        Except.ok (to_std_vector (iterate_dist (lexrank_trans_mat sqrt tfidf_maps)
          (initial_dist tfidf_maps.length) (t + 1))) := by
  classical
  obtain ⟨tfidf_maps, hmaps, hlen⟩ := tf_idf_maps_ok log10 norm_doc idf_scores hknown
  have hadj := build_adjacency_matrix_isAdjacency sqrt tfidf_maps
  have hn : 0 < tfidf_maps.length := by omega
  have hc : converged
      (iterate_dist (lexrank_trans_mat sqrt tfidf_maps) (initial_dist tfidf_maps.length) (76 + 1))
      (iterate_dist (lexrank_trans_mat sqrt tfidf_maps) (initial_dist tfidf_maps.length) 76)
      = true := lexrank_converged_at hadj hn
  have hex : ∃ s, converged
      (iterate_dist (lexrank_trans_mat sqrt tfidf_maps) (initial_dist tfidf_maps.length) (s + 1))
      (iterate_dist (lexrank_trans_mat sqrt tfidf_maps) (initial_dist tfidf_maps.length) s)
      = true := ⟨76, hc⟩
  refine ⟨tfidf_maps, Nat.find hex, hmaps, hlen, Nat.find_min' hex hc, Nat.find_spec hex,
    fun fuel hfuel => ?_⟩
  have hp : power_iteration (lexrank_trans_mat sqrt tfidf_maps) fuel
      (initial_dist tfidf_maps.length)
      = some (iterate_dist (lexrank_trans_mat sqrt tfidf_maps) (initial_dist tfidf_maps.length)
          (Nat.find hex + 1)) := by
    rw [power_iteration_eq_some_iff]
    refine ⟨Nat.find hex, hfuel, rfl, Nat.find_spec hex, fun s hs => ?_⟩
    have := Nat.find_min hex hs
    simpa using this
  rw [lexrank_of_maps sqrt log10 fuel norm_doc idf_scores tfidf_maps hmaps, hp]

end lexrank_lemmas

/-! ### One-sentence documents -/

section lexrank_claims
variable {K : Type} [LinearOrderedField K]

theorem Matrix.eq_of_shape_one {T : Type} [Zero T] {r : Matrix T} (h : r.Shape 1 1) :
    r = { n_rows := 1, n_cols := 1, m_data := [r.get 0 0] } := by
  obtain ⟨h1, h2, h3⟩ := h
  cases r with
  | mk rows cols data =>
    simp only at h1 h2 h3
    subst h1 h2
    match data, h3 with
    | [x], _ => simp [Matrix.get]

theorem vector_eq_of_shape_one {T : Type} [Zero T] {v : Vector T} (h : v.Shape 1) :
    v = { m_size := 1, m_data := [v.get 0] } := by
  obtain ⟨h1, h2⟩ := h
  cases v with
  | mk size data =>
    simp only at h1 h2
    subst h1
    match data, h2 with
    | [x], _ => simp [Vector.get]

/-- A one-sentence document: both matrices are `[1]` and any positive fuel returns `[1]`. -/
theorem lexrank_single_sentence (sqrt log10 : K → K) (norm_doc : NormalizedDocument)
    (idf_scores : List (String × K)) (hknown : AllTermsKnown norm_doc idf_scores)
    (hone : norm_doc.sentence_term_counts.length = 1) :
    ∃ tfidf_maps, tf_idf_maps log10 norm_doc idf_scores = Except.ok tfidf_maps ∧
      build_adjacency_matrix sqrt tfidf_maps = { n_rows := 1, n_cols := 1, m_data := [1] } ∧
      lexrank_trans_mat sqrt tfidf_maps = { n_rows := 1, n_cols := 1, m_data := [1] } ∧
      ∀ fuel, 0 < fuel → lexrank sqrt log10 fuel norm_doc idf_scores = Except.ok [1] := by
  obtain ⟨tfidf_maps, hmaps, hlen⟩ := tf_idf_maps_ok log10 norm_doc idf_scores hknown
  rw [hone] at hlen
  have hadj := build_adjacency_matrix_isAdjacency sqrt tfidf_maps
  rw [hlen] at hadj
  have hA : build_adjacency_matrix sqrt tfidf_maps
      = { n_rows := 1, n_cols := 1, m_data := [1] } := by
    rw [Matrix.eq_of_shape_one hadj.1, hadj.2.2 0 Nat.zero_lt_one]
  have hTs := markov_chain_mat_shape_of hadj (DampingFactor : K)
  have hT00 : (lexrank_trans_mat sqrt tfidf_maps).get 0 0 = 1 := by
    have := column_sum_markov hadj (DampingFactor : K) Nat.zero_lt_one
    rwa [Finset.sum_range_one] at this
  have hT : lexrank_trans_mat sqrt tfidf_maps
      = { n_rows := 1, n_cols := 1, m_data := [1] } := by
    have := Matrix.eq_of_shape_one hTs
    rw [show (markov_chain_mat (build_adjacency_matrix sqrt tfidf_maps) (DampingFactor : K)).get
      0 0 = 1 from hT00] at this
    exact this
  refine ⟨tfidf_maps, hmaps, hA, hT, fun fuel hfuel => ?_⟩
  have hx0 : (initial_dist 1 : Vector K).get 0 = 1 := by
    rw [initial_dist_get 1 Nat.zero_lt_one]; norm_num
  have hx1s : ((lexrank_trans_mat sqrt tfidf_maps).mulVec (initial_dist 1)).Shape 1 :=
    markov_mulVec_shape hadj _ _
  have hx1 : ((lexrank_trans_mat sqrt tfidf_maps).mulVec (initial_dist 1)).get 0 = 1 := by
    have := markov_mulVec_get hadj (DampingFactor : K) (initial_dist 1) Nat.zero_lt_one
    rw [Finset.sum_range_one] at this
    change ((lexrank_trans_mat sqrt tfidf_maps).mulVec (initial_dist 1)).get 0
      = (lexrank_trans_mat sqrt tfidf_maps).get 0 0 * (initial_dist 1 : Vector K).get 0 at this
    rw [this, hT00, hx0, one_mul]
  have hconv : converged ((lexrank_trans_mat sqrt tfidf_maps).mulVec (initial_dist 1))
      (initial_dist 1) = true := by
    rw [converged_iff hx1s]
    intro i hi
    have hi0 : i = 0 := by omega
    subst hi0
    rw [hx1, hx0, sub_self, abs_zero]
    unfold PowerIterationEpsilon
    positivity
  have hp : power_iteration (lexrank_trans_mat sqrt tfidf_maps) fuel (initial_dist 1)
      = some ((lexrank_trans_mat sqrt tfidf_maps).mulVec (initial_dist 1)) := by
    rw [power_iteration_eq_some_iff]
    exact ⟨0, hfuel, rfl, hconv, fun s hs => absurd hs (Nat.not_lt_zero s)⟩
  rw [lexrank_of_maps sqrt log10 fuel norm_doc idf_scores tfidf_maps hmaps, hlen, hp]
  have hvec := vector_eq_of_shape_one hx1s
  rw [hx1] at hvec
  rw [hvec]
  simp [to_std_vector, Vector.size, Vector.get, List.range_succ]

end lexrank_claims

/-! ### The score vector: claims C7 to C10 -/

section lexrank_claims2
variable {K : Type} [LinearOrderedField K]

/-- Claim C7: for every normalized document with `N >= 1` sentences whose terms all occur
in the idf table, `lexrank` returns a score vector, and every score vector it returns sums
to exactly 1 (so to 1 within the convergence epsilon `1e-5`); the sum of the entries
is 1 at the uniform start vector and is preserved by every step `x -> T * x`. -/
theorem lexrank_scores_sum_one (sqrt log10 : K → K) (norm_doc : NormalizedDocument)
    (idf_scores : List (String × K)) (hknown : AllTermsKnown norm_doc idf_scores)
    (hN : 1 ≤ norm_doc.sentence_term_counts.length) :
    (∃ fuel r, lexrank sqrt log10 fuel norm_doc idf_scores = Except.ok r) ∧
    (∀ fuel r, lexrank sqrt log10 fuel norm_doc idf_scores = Except.ok r →
      r.sum = 1 ∧ |r.sum - 1| ≤ PowerIterationEpsilon) ∧
    (∀ tfidf_maps, tf_idf_maps log10 norm_doc idf_scores = Except.ok tfidf_maps → ∀ t,
      (to_std_vector (iterate_dist (lexrank_trans_mat sqrt tfidf_maps)
        (initial_dist tfidf_maps.length) t)).sum = 1) := by
  have hiter : ∀ tfidf_maps, tf_idf_maps log10 norm_doc idf_scores = Except.ok tfidf_maps → ∀ t,
      (to_std_vector (iterate_dist (lexrank_trans_mat sqrt tfidf_maps)
        (initial_dist tfidf_maps.length) t)).sum = 1 := by
    intro tfidf_maps hmaps t
    obtain ⟨maps', hmaps', hlen⟩ := tf_idf_maps_ok log10 norm_doc idf_scores hknown
    have hsame : maps' = tfidf_maps := Except.ok.inj (hmaps'.symm.trans hmaps)
    subst hsame
    rw [to_std_vector_sum (lexrank_iterate_shape sqrt maps' t)]
    exact lexrank_iterate_sum sqrt maps' (by omega) t
  refine ⟨?_, ?_, hiter⟩
  · obtain ⟨tfidf_maps, t, -, -, -, -, hrun⟩ :=
      lexrank_total sqrt log10 norm_doc idf_scores hknown hN
    exact ⟨t + 1, _, hrun (t + 1) (Nat.lt_succ_self t)⟩
  · intro fuel r hr
    obtain ⟨tfidf_maps, lexrank_dist, hmaps, hp, rfl⟩ :=
      lexrank_eq_ok sqrt log10 fuel norm_doc idf_scores r hr
    obtain ⟨t, -, hdist, -, -⟩ := (power_iteration_eq_some_iff _ _ _ _).mp hp
    have hsum := hiter tfidf_maps hmaps (t + 1)
    rw [← hdist] at hsum
    refine ⟨hsum, ?_⟩
    rw [hsum, sub_self, abs_zero]
    unfold PowerIterationEpsilon
    positivity

/-- Witness of C7 on the three-sentence sample document. -/
theorem lexrank_scores_sum_one_witness :
    AllTermsKnown sample_doc sample_idf ∧ 1 ≤ sample_doc.sentence_term_counts.length ∧
    ((∃ fuel r, lexrank id id fuel sample_doc sample_idf = Except.ok r) ∧
    (∀ fuel r, lexrank id id fuel sample_doc sample_idf = Except.ok r →
      r.sum = 1 ∧ |r.sum - 1| ≤ PowerIterationEpsilon) ∧
    (∀ tfidf_maps, tf_idf_maps id sample_doc sample_idf = Except.ok tfidf_maps → ∀ t,
      (to_std_vector (iterate_dist (lexrank_trans_mat id tfidf_maps)
        (initial_dist tfidf_maps.length) t)).sum = 1)) :=
  ⟨by decide, by decide, lexrank_scores_sum_one id id sample_doc sample_idf (by decide) (by decide)⟩

/-- Claim C8: for every normalized document with `N >= 1` sentences whose terms all occur
in the idf table, the power iteration of `lexrank` stops: started from the uniform vector,
some pair of consecutive iterates `x_t`, `x_{t+1} = T * x_t` with `t <= 76` has
`|x_{t+1}(i) - x_t(i)| <= 1e-5` for every `i`, and with any fuel above `t` the loop returns
one and the same score vector. -/
theorem lexrank_power_iteration_terminates (sqrt log10 : K → K) (norm_doc : NormalizedDocument)
    (idf_scores : List (String × K)) (hknown : AllTermsKnown norm_doc idf_scores)
    (hN : 1 ≤ norm_doc.sentence_term_counts.length) :
    ∃ tfidf_maps t r, tf_idf_maps log10 norm_doc idf_scores = Except.ok tfidf_maps ∧ t ≤ 76 ∧
      (∀ i, i < tfidf_maps.length →
        |(iterate_dist (lexrank_trans_mat sqrt tfidf_maps) (initial_dist tfidf_maps.length)
              (t + 1)).get i
          - (iterate_dist (lexrank_trans_mat sqrt tfidf_maps) (initial_dist tfidf_maps.length)
              t).get i| ≤ PowerIterationEpsilon) ∧
      ∀ fuel, t < fuel → lexrank sqrt log10 fuel norm_doc idf_scores = Except.ok r := by
  obtain ⟨tfidf_maps, t, hmaps, -, ht, hconv, hrun⟩ :=
    lexrank_total sqrt log10 norm_doc idf_scores hknown hN
  exact ⟨tfidf_maps, t, _, hmaps, ht,
    (converged_iff (lexrank_iterate_shape sqrt tfidf_maps (t + 1)) _).mp hconv, hrun⟩

/-- Witness of C8 on the three-sentence sample document. -/
theorem lexrank_power_iteration_terminates_witness :
    AllTermsKnown sample_doc sample_idf ∧ 1 ≤ sample_doc.sentence_term_counts.length ∧
    ∃ tfidf_maps t r, tf_idf_maps id sample_doc sample_idf = Except.ok tfidf_maps ∧ t ≤ 76 ∧
      (∀ i, i < tfidf_maps.length →
        |(iterate_dist (lexrank_trans_mat id tfidf_maps) (initial_dist tfidf_maps.length)
              (t + 1)).get i
          - (iterate_dist (lexrank_trans_mat id tfidf_maps) (initial_dist tfidf_maps.length)
              t).get i| ≤ PowerIterationEpsilon) ∧
      ∀ fuel, t < fuel → lexrank id id fuel sample_doc sample_idf = Except.ok r :=
  ⟨by decide, by decide,
    lexrank_power_iteration_terminates id id sample_doc sample_idf (by decide) (by decide)⟩

/-- Claim C9: whenever `lexrank` returns a vector `r`, there is an index `t` such that
`r` holds the entries of `x_{t+1} = T * x_t`, the later of the two iterates (the iteration
starts at the uniform vector `x_0`), with `|x_{t+1}(i) - x_t(i)| <= 1e-5`
(`PowerIterationEpsilon`) for every index `i`, while for every earlier `s < t` the pair
`x_s`, `x_{s+1}` violates that bound at some index. -/
theorem lexrank_returns_first_converged (sqrt log10 : K → K) (fuel : Nat)
    (norm_doc : NormalizedDocument) (idf_scores : List (String × K)) (r : List K)
    (hr : lexrank sqrt log10 fuel norm_doc idf_scores = Except.ok r) :
    ∃ tfidf_maps t, tf_idf_maps log10 norm_doc idf_scores = Except.ok tfidf_maps ∧ t < fuel ∧
      r = to_std_vector ((lexrank_trans_mat sqrt tfidf_maps).mulVec
        (iterate_dist (lexrank_trans_mat sqrt tfidf_maps) (initial_dist tfidf_maps.length) t)) ∧
      r = to_std_vector
        (iterate_dist (lexrank_trans_mat sqrt tfidf_maps) (initial_dist tfidf_maps.length)
          (t + 1)) ∧
      r.length = tfidf_maps.length ∧
      (∀ i, i < tfidf_maps.length →
        |(iterate_dist (lexrank_trans_mat sqrt tfidf_maps) (initial_dist tfidf_maps.length)
              (t + 1)).get i
          - (iterate_dist (lexrank_trans_mat sqrt tfidf_maps) (initial_dist tfidf_maps.length)
              t).get i| ≤ PowerIterationEpsilon) ∧
      (∀ s, s < t → ∃ i, i < tfidf_maps.length ∧
        ¬ |(iterate_dist (lexrank_trans_mat sqrt tfidf_maps) (initial_dist tfidf_maps.length)
              (s + 1)).get i
          - (iterate_dist (lexrank_trans_mat sqrt tfidf_maps) (initial_dist tfidf_maps.length)
              s).get i| ≤ PowerIterationEpsilon) := by
  obtain ⟨tfidf_maps, lexrank_dist, hmaps, hp, rfl⟩ :=
    lexrank_eq_ok sqrt log10 fuel norm_doc idf_scores r hr
  obtain ⟨t, ht, hdist, hconv, hfirst⟩ := (power_iteration_eq_some_iff _ _ _ _).mp hp
  have hshape := fun s => lexrank_iterate_shape sqrt tfidf_maps s
  refine ⟨tfidf_maps, t, hmaps, ht, ?_, by rw [hdist], ?_, ?_, ?_⟩
  · rw [hdist, iterate_dist_succ]
  · rw [hdist]; exact to_std_vector_length (hshape (t + 1))
  · exact (converged_iff (hshape (t + 1)) _).mp hconv
  · intro s hs
    have hnot := hfirst s hs
    by_contra hall
    have hconv' : converged
        (iterate_dist (lexrank_trans_mat sqrt tfidf_maps) (initial_dist tfidf_maps.length) (s + 1))
        (iterate_dist (lexrank_trans_mat sqrt tfidf_maps) (initial_dist tfidf_maps.length) s)
        = true := by
      rw [converged_iff (hshape (s + 1))]
      intro i hi
      by_contra hi'
      exact hall ⟨i, hi, hi'⟩
    rw [hnot] at hconv'
    exact absurd hconv' (by simp)

/-- Claim C10: for every normalized document with exactly one sentence whose terms all
occur in the idf table, the adjacency matrix is `[1]`, the transition matrix is `[1]`, and
`lexrank` returns the score vector `[1]` after exactly one matrix-vector product: one unit
of fuel (and any larger amount) returns `[1]`, and without a product nothing is returned. -/
theorem lexrank_single_sentence_scores (sqrt log10 : K → K) (norm_doc : NormalizedDocument)
    (idf_scores : List (String × K)) (hknown : AllTermsKnown norm_doc idf_scores)
    (hone : norm_doc.sentence_term_counts.length = 1) :
    ∃ tfidf_maps, tf_idf_maps log10 norm_doc idf_scores = Except.ok tfidf_maps ∧
      build_adjacency_matrix sqrt tfidf_maps = { n_rows := 1, n_cols := 1, m_data := [1] } ∧
      lexrank_trans_mat sqrt tfidf_maps = { n_rows := 1, n_cols := 1, m_data := [1] } ∧
      lexrank sqrt log10 1 norm_doc idf_scores = Except.ok [1] ∧
      (∀ fuel, 0 < fuel → lexrank sqrt log10 fuel norm_doc idf_scores = Except.ok [1]) ∧
      lexrank sqrt log10 0 norm_doc idf_scores = Except.error Failure.fuel_exhausted := by
  obtain ⟨tfidf_maps, hmaps, hA, hT, hrun⟩ :=
    lexrank_single_sentence sqrt log10 norm_doc idf_scores hknown hone
  refine ⟨tfidf_maps, hmaps, hA, hT, hrun 1 Nat.zero_lt_one, hrun, ?_⟩
  rw [lexrank_of_maps sqrt log10 0 norm_doc idf_scores tfidf_maps hmaps]
  rfl

/-- Witness of C9: the run of `lexrank` on the one-sentence sample document. -/
theorem lexrank_returns_first_converged_witness :
    lexrank id id 1 one_doc sample_idf = Except.ok [1] ∧
    ∃ tfidf_maps t, tf_idf_maps id one_doc sample_idf = Except.ok tfidf_maps ∧ t < 1 ∧
      [1] = to_std_vector ((lexrank_trans_mat id tfidf_maps).mulVec
        (iterate_dist (lexrank_trans_mat id tfidf_maps) (initial_dist tfidf_maps.length) t)) ∧
      [1] = to_std_vector
        (iterate_dist (lexrank_trans_mat id tfidf_maps) (initial_dist tfidf_maps.length)
          (t + 1)) ∧
      [(1 : ℚ)].length = tfidf_maps.length ∧
      (∀ i, i < tfidf_maps.length →
        |(iterate_dist (lexrank_trans_mat id tfidf_maps) (initial_dist tfidf_maps.length)
              (t + 1)).get i
          - (iterate_dist (lexrank_trans_mat id tfidf_maps) (initial_dist tfidf_maps.length)
              t).get i| ≤ PowerIterationEpsilon) ∧
      (∀ s, s < t → ∃ i, i < tfidf_maps.length ∧
        ¬ |(iterate_dist (lexrank_trans_mat id tfidf_maps) (initial_dist tfidf_maps.length)
              (s + 1)).get i
          - (iterate_dist (lexrank_trans_mat id tfidf_maps) (initial_dist tfidf_maps.length)
              s).get i| ≤ PowerIterationEpsilon) :=
  have hrun : lexrank id id 1 one_doc sample_idf = Except.ok [1] :=
    Exists.elim (lexrank_single_sentence id id one_doc sample_idf (by decide) rfl)
      (fun _ h => h.2.2.2 1 Nat.zero_lt_one)
  ⟨hrun, lexrank_returns_first_converged id id 1 one_doc sample_idf [1] hrun⟩

/-- Witness of C10 on the one-sentence sample document. -/
theorem lexrank_single_sentence_scores_witness :
    AllTermsKnown one_doc sample_idf ∧ one_doc.sentence_term_counts.length = 1 ∧
    ∃ tfidf_maps, tf_idf_maps id one_doc sample_idf = Except.ok tfidf_maps ∧
      build_adjacency_matrix id tfidf_maps = { n_rows := 1, n_cols := 1, m_data := [1] } ∧
      lexrank_trans_mat id tfidf_maps = { n_rows := 1, n_cols := 1, m_data := [1] } ∧
      lexrank id id 1 one_doc sample_idf = Except.ok [1] ∧
      (∀ fuel, 0 < fuel → lexrank id id fuel one_doc sample_idf = Except.ok [1]) ∧
      lexrank id id 0 one_doc sample_idf = Except.error Failure.fuel_exhausted :=
  ⟨by decide, rfl, lexrank_single_sentence_scores id id one_doc sample_idf (by decide) rfl⟩

end lexrank_claims2

/-! ### Documents whose sentences are all similar: claim C11 -/

section uniform
variable {K : Type} [LinearOrderedField K]

theorem Matrix.eq_of_get_const {T : Type} [Zero T] {r : Matrix T} {n m : Nat} (h : r.Shape n m)
    (c : T) (hc : ∀ i j, i < n → j < m → r.get i j = c) :
    r = { n_rows := n, n_cols := m, m_data := List.replicate (n * m) c } := by
  have hdata : r.m_data = List.replicate (n * m) c := by
    rw [List.eq_replicate_iff]
    refine ⟨h.2.2, fun x hx => ?_⟩
    obtain ⟨i, j, hi, hj, rfl⟩ := Matrix.mem_data_eq_get h hx
    exact hc i j hi hj
  obtain ⟨h1, h2, -⟩ := h
  cases r with
  | mk rows cols data =>
    simp only at h1 h2 hdata
    subst h1 h2 hdata
    rfl

theorem build_adjacency_matrix_all_ones_get (sqrt : K → K) (tfidf_maps : List (TfIdfMap K))
    (hsim : AllSimilar sqrt tfidf_maps) {i j : Nat} (hi : i < tfidf_maps.length)
    (hj : j < tfidf_maps.length) : (build_adjacency_matrix sqrt tfidf_maps).get i j = 1 := by
  rw [build_adjacency_matrix_get sqrt tfidf_maps hi hj, if_pos]
  rcases Nat.lt_trichotomy i j with hlt | heq | hgt
  · exact Or.inr (Or.inl ⟨hlt, hsim i hi j hj (Nat.ne_of_lt hlt)⟩)
  · exact Or.inl heq
  · exact Or.inr (Or.inr ⟨hgt, hsim j hj i hi (Nat.ne_of_lt hgt)⟩)

theorem degree_all_ones {adj : Matrix Nat} {n : Nat} (hr : adj.rows = n)
    (hone : ∀ i j, i < n → j < n → adj.get i j = 1) {j : Nat} (hj : j < n) :
    degree adj j = n := by
  unfold degree
  rw [hr, countP_range]
  have e : ∀ i ∈ Finset.range n, (if decide (adj.get i j = 1) = true then 1 else 0) = 1 := by
    intro i hi
    simp [hone i j (Finset.mem_range.mp hi) hj]
  rw [Finset.sum_congr rfl e]
  simp

theorem markov_all_ones_get {adj : Matrix Nat} {n : Nat} (h : IsAdjacency adj n)
    (hone : ∀ i j, i < n → j < n → adj.get i j = 1) (d : K) {i j : Nat} (hi : i < n)
    (hj : j < n) : (markov_chain_mat adj d).get i j = (1 - d) * (1 / (n : K)) + d / (n : K) := by
  rw [markov_chain_mat_get_base h d hi hj]
  unfold base
  rw [if_pos (hone i j hi hj), degree_all_ones h.1.1 hone hj]

end uniform

section uniform2
variable {K : Type} [LinearOrderedField K]

theorem to_std_vector_const {v : Vector K} {n : Nat} (hv : v.Shape n) (c : K)
    (hc : ∀ i, i < n → v.get i = c) : to_std_vector v = List.replicate n c := by
  rw [List.eq_replicate_iff]
  refine ⟨to_std_vector_length hv, fun x hx => ?_⟩
  unfold to_std_vector at hx
  rw [Vector.size, hv.1] at hx
  obtain ⟨i, hi, rfl⟩ := List.mem_map.mp hx
  exact hc i (List.mem_range.mp hi)

/-- When all vectors are similar, the transition matrix is constant `1 / N` and the first
product already returns the uniform vector. -/
theorem lexrank_uniform (sqrt log10 : K → K) (norm_doc : NormalizedDocument)
    (idf_scores : List (String × K)) (tfidf_maps : List (TfIdfMap K))
    (hmaps : tf_idf_maps log10 norm_doc idf_scores = Except.ok tfidf_maps)
    (hN : 1 ≤ tfidf_maps.length) (hsim : AllSimilar sqrt tfidf_maps) :
    (∀ i j, i < tfidf_maps.length → j < tfidf_maps.length →
      (lexrank_trans_mat sqrt tfidf_maps).get i j = 1 / (tfidf_maps.length : K)) ∧
    ∀ fuel, 0 < fuel → lexrank sqrt log10 fuel norm_doc idf_scores
      = Except.ok (List.replicate tfidf_maps.length (1 / (tfidf_maps.length : K))) := by
  have hadj := build_adjacency_matrix_isAdjacency sqrt tfidf_maps
  have hn : (tfidf_maps.length : K) ≠ 0 := by
    have : (0 : K) < (tfidf_maps.length : K) := by exact_mod_cast hN
    exact ne_of_gt this
  have hT : ∀ i j, i < tfidf_maps.length → j < tfidf_maps.length →
      (lexrank_trans_mat sqrt tfidf_maps).get i j = 1 / (tfidf_maps.length : K) := by
    intro i j hi hj
    unfold lexrank_trans_mat
    rw [markov_all_ones_get hadj
      (fun a b ha hb => build_adjacency_matrix_all_ones_get sqrt tfidf_maps hsim ha hb)
      DampingFactor hi hj]
    field_simp
  refine ⟨hT, fun fuel hfuel => ?_⟩
  have hx1s : ((lexrank_trans_mat sqrt tfidf_maps).mulVec (initial_dist tfidf_maps.length)).Shape
      tfidf_maps.length := markov_mulVec_shape hadj _ _
  have hx1 : ∀ i, i < tfidf_maps.length →
      ((lexrank_trans_mat sqrt tfidf_maps).mulVec (initial_dist tfidf_maps.length)).get i
        = 1 / (tfidf_maps.length : K) := by
    intro i hi
    have hm := markov_mulVec_get hadj (DampingFactor : K) (initial_dist tfidf_maps.length) hi
    change ((lexrank_trans_mat sqrt tfidf_maps).mulVec (initial_dist tfidf_maps.length)).get i
      = ∑ j in Finset.range tfidf_maps.length,
          (lexrank_trans_mat sqrt tfidf_maps).get i j
            * (initial_dist tfidf_maps.length : Vector K).get j at hm
    have e : ∀ j ∈ Finset.range tfidf_maps.length,
        (lexrank_trans_mat sqrt tfidf_maps).get i j
            * (initial_dist tfidf_maps.length : Vector K).get j
          = 1 / (tfidf_maps.length : K) * (1 / (tfidf_maps.length : K)) := by
      intro j hj
      rw [hT i j hi (Finset.mem_range.mp hj), initial_dist_get _ (Finset.mem_range.mp hj)]
    rw [hm, Finset.sum_congr rfl e, Finset.sum_const, Finset.card_range, nsmul_eq_mul]
    field_simp
  have hconv : converged
      ((lexrank_trans_mat sqrt tfidf_maps).mulVec (initial_dist tfidf_maps.length))
      (initial_dist tfidf_maps.length) = true := by
    rw [converged_iff hx1s]
    intro i hi
    rw [hx1 i hi, initial_dist_get _ hi, sub_self, abs_zero]
    unfold PowerIterationEpsilon
    positivity
  have hp : power_iteration (lexrank_trans_mat sqrt tfidf_maps) fuel
      (initial_dist tfidf_maps.length)
      = some ((lexrank_trans_mat sqrt tfidf_maps).mulVec (initial_dist tfidf_maps.length)) := by
    rw [power_iteration_eq_some_iff]
    exact ⟨0, hfuel, rfl, hconv, fun s hs => absurd hs (Nat.not_lt_zero s)⟩
  rw [lexrank_of_maps sqrt log10 fuel norm_doc idf_scores tfidf_maps hmaps, hp]
  exact congrArg Except.ok (to_std_vector_const hx1s _ hx1)

/-- Claim C11: for a document whose `N >= 1` tf-idf vectors are pairwise similar (cosine
similarity `>= 0.1` for every pair of distinct sentences), `build_adjacency_matrix` returns
the `N × N` all-ones matrix, every entry of `markov_chain_mat adj 0.15` equals
`0.85 * (1 / N) + 0.15 / N = 1 / N`, and `lexrank` returns, after its first product, the
uniform score vector with every entry `1 / N`. -/
theorem lexrank_all_similar_uniform (sqrt log10 : K → K) (norm_doc : NormalizedDocument)
    (idf_scores : List (String × K)) (tfidf_maps : List (TfIdfMap K))
    (hmaps : tf_idf_maps log10 norm_doc idf_scores = Except.ok tfidf_maps)
    (hN : 1 ≤ tfidf_maps.length) (hsim : AllSimilar sqrt tfidf_maps) :
    build_adjacency_matrix sqrt tfidf_maps
      = { n_rows := tfidf_maps.length, n_cols := tfidf_maps.length,
          m_data := List.replicate (tfidf_maps.length * tfidf_maps.length) 1 } ∧
    (∀ i j, i < tfidf_maps.length → j < tfidf_maps.length →
      (markov_chain_mat (build_adjacency_matrix sqrt tfidf_maps) (15 / 100 : K)).get i j
          = 85 / 100 * (1 / (tfidf_maps.length : K)) + 15 / 100 / (tfidf_maps.length : K) ∧
      (markov_chain_mat (build_adjacency_matrix sqrt tfidf_maps) (15 / 100 : K)).get i j
          = 1 / (tfidf_maps.length : K)) ∧
    markov_chain_mat (build_adjacency_matrix sqrt tfidf_maps) (15 / 100 : K)
      = { n_rows := tfidf_maps.length, n_cols := tfidf_maps.length,
          m_data := List.replicate (tfidf_maps.length * tfidf_maps.length)
            (1 / (tfidf_maps.length : K)) } ∧
    ∀ fuel, 0 < fuel → lexrank sqrt log10 fuel norm_doc idf_scores
      = Except.ok (List.replicate tfidf_maps.length (1 / (tfidf_maps.length : K))) := by
  have hadj := build_adjacency_matrix_isAdjacency sqrt tfidf_maps
  obtain ⟨hT, hrun⟩ := lexrank_uniform sqrt log10 norm_doc idf_scores tfidf_maps hmaps hN hsim
  have hT' : ∀ i j, i < tfidf_maps.length → j < tfidf_maps.length →
      (markov_chain_mat (build_adjacency_matrix sqrt tfidf_maps) (15 / 100 : K)).get i j
        = 1 / (tfidf_maps.length : K) := hT
  refine ⟨?_, fun i j hi hj => ⟨?_, hT' i j hi hj⟩, ?_, hrun⟩
  · exact Matrix.eq_of_get_const hadj.1 1
      (fun i j hi hj => build_adjacency_matrix_all_ones_get sqrt tfidf_maps hsim hi hj)
  · rw [markov_all_ones_get hadj
      (fun a b ha hb => build_adjacency_matrix_all_ones_get sqrt tfidf_maps hsim ha hb)
      (15 / 100 : K) hi hj]
    norm_num
  · exact Matrix.eq_of_get_const (markov_chain_mat_shape_of hadj _) _ hT'

theorem two_doc_maps :
    tf_idf_maps zero_log two_doc unit_idf = Except.ok [[("cat", 1)], [("cat", 1)]] := by
  simp only [tf_idf_maps, two_doc, List.mapM_cons, List.mapM_nil]
  norm_num [tf_idf_map, unit_idf, zero_log, List.lookup, close, numeric_limits_epsilon,
    map_assign]
  rfl

theorem two_doc_similar : AllSimilar id ([[("cat", 1)], [("cat", 1)]] : List (TfIdfMap ℚ)) := by
  intro i hi j hj hij
  have hi' : i < 2 := hi
  have hj' : j < 2 := hj
  interval_cases i <;> interval_cases j <;>
    first
    | exact absurd rfl hij
    | norm_num [cosine_sim, cosine_dot, euc_len, fdiv, DivResult.ge, LexrankEdgeThreshold,
        List.lookup]

/-- Witness of C11: two identical sentences (cosine similarity 1), `N = 2`. -/
theorem lexrank_all_similar_uniform_witness :
    tf_idf_maps zero_log two_doc unit_idf = Except.ok [[("cat", 1)], [("cat", 1)]] ∧
    1 ≤ ([[("cat", 1)], [("cat", 1)]] : List (TfIdfMap ℚ)).length ∧
    AllSimilar id ([[("cat", 1)], [("cat", 1)]] : List (TfIdfMap ℚ)) ∧
    (build_adjacency_matrix id ([[("cat", 1)], [("cat", 1)]] : List (TfIdfMap ℚ))
      = { n_rows := 2, n_cols := 2, m_data := List.replicate (2 * 2) 1 } ∧
    (∀ i j, i < 2 → j < 2 →
      (markov_chain_mat (build_adjacency_matrix id
          ([[("cat", 1)], [("cat", 1)]] : List (TfIdfMap ℚ))) (15 / 100 : ℚ)).get i j
          = 85 / 100 * (1 / ((2 : Nat) : ℚ)) + 15 / 100 / ((2 : Nat) : ℚ) ∧
      (markov_chain_mat (build_adjacency_matrix id
          ([[("cat", 1)], [("cat", 1)]] : List (TfIdfMap ℚ))) (15 / 100 : ℚ)).get i j
          = 1 / ((2 : Nat) : ℚ)) ∧
    markov_chain_mat (build_adjacency_matrix id
        ([[("cat", 1)], [("cat", 1)]] : List (TfIdfMap ℚ))) (15 / 100 : ℚ)
      = { n_rows := 2, n_cols := 2, m_data := List.replicate (2 * 2) (1 / ((2 : Nat) : ℚ)) } ∧
    ∀ fuel, 0 < fuel → lexrank id zero_log fuel two_doc unit_idf
      = Except.ok (List.replicate 2 (1 / ((2 : Nat) : ℚ)))) :=
  ⟨two_doc_maps, by decide, two_doc_similar,
    lexrank_all_similar_uniform id zero_log two_doc unit_idf [[("cat", 1)], [("cat", 1)]]
      two_doc_maps (by decide) two_doc_similar⟩

end uniform2

/-! ### Cosine similarity: claims C12 to C14 -/

section cosine_claims
variable {K : Type} [LinearOrderedField K]

theorem euc_len_eq_spec (sqrt : K → K) (vec : TfIdfMap K) :
    euc_len sqrt vec = euclidean_length_spec sqrt vec := by
  unfold euc_len euclidean_length_spec
  rw [foldl_add_eq_sum vec (fun p => p.2 * p.2) 0, zero_add]
  congr 2
  apply List.map_congr_left
  intro p _
  ring

theorem weight_of_mem {vec : TfIdfMap K} (h : UniqueKeys vec) {p : String × K} (hp : p ∈ vec) :
    weight_of vec p.1 = p.2 := by
  induction vec with
  | nil => simp at hp
  | cons q qs ih =>
    obtain ⟨k, y⟩ := q
    have hnd : k ∉ qs.map Prod.fst ∧ UniqueKeys qs := by
      simpa [UniqueKeys] using h
    rcases List.mem_cons.mp hp with heq | hmem
    · subst heq
      simp [weight_of, List.lookup]
    · have hne : (p.1 == k) = false := by
        have : p.1 ≠ k := fun e => hnd.1 (e ▸ List.mem_map_of_mem Prod.fst hmem)
        simpa using this
      have := ih hnd.2 hmem
      simp only [weight_of, List.lookup, hne] at this ⊢
      exact this

theorem weight_of_not_mem {vec : TfIdfMap K} {term : String}
    (h : term ∉ vec.map Prod.fst) : weight_of vec term = 0 := by
  induction vec with
  | nil => simp [weight_of]
  | cons q qs ih =>
    obtain ⟨k, y⟩ := q
    have hk : term ≠ k := fun e => h (by simp [e])
    have hq : term ∉ qs.map Prod.fst := fun hm => h (by simp [List.mem_map] at hm ⊢; exact Or.inr hm)
    have hne : (term == k) = false := by simpa using hk
    have := ih hq
    simp only [weight_of, List.lookup, hne] at this ⊢
    exact this

theorem cosine_dot_eq_shared_sum (vec1 vec2 : TfIdfMap K) (h1 : UniqueKeys vec1) :
    cosine_dot vec1 vec2 = ∑ t in shared_terms vec1 vec2, weight_of vec1 t * weight_of vec2 t := by
  rw [cosine_dot_eq_sum]
  have e1 : (vec1.map (fun p => p.2 * weight_of vec2 p.1)).sum
      = ((vec1.map Prod.fst).map (fun t => weight_of vec1 t * weight_of vec2 t)).sum := by
    rw [List.map_map]
    congr 1
    apply List.map_congr_left
    intro p hp
    simp only [Function.comp]
    rw [weight_of_mem h1 hp]
  rw [e1, ← List.sum_toFinset _ h1]
  unfold shared_terms
  symm
  apply Finset.sum_subset Finset.inter_subset_left
  intro t _ hnot
  have : t ∉ vec2.map Prod.fst := by
    intro hm
    apply hnot
    rw [Finset.mem_inter]
    exact ⟨by assumption, List.mem_toFinset.mpr hm⟩
  rw [weight_of_not_mem this, mul_zero]

/-- Claim C12: for tf-idf vectors `v1` (a map with pairwise distinct keys) and `v2` with
non-zero Euclidean lengths, `cosine_sim v1 v2` is the finite number obtained by dividing
the sum over the terms `t` present in both maps of `v1[t] * v2[t]` by
`euc_len v1 * euc_len v2`, where `euc_len v` is the square root of the sum of the squares
of the weights of `v`. -/
theorem cosine_sim_eq_spec (sqrt : K → K) (vec1 vec2 : TfIdfMap K) (h1 : UniqueKeys vec1)
    (hlen1 : euc_len sqrt vec1 ≠ 0) (hlen2 : euc_len sqrt vec2 ≠ 0) :
    cosine_sim sqrt vec1 vec2 = DivResult.finite (cosine_sim_spec sqrt vec1 vec2) ∧
    cosine_sim_spec sqrt vec1 vec2
      = (∑ t in shared_terms vec1 vec2, weight_of vec1 t * weight_of vec2 t)
        / (euc_len sqrt vec1 * euc_len sqrt vec2) ∧
    euc_len sqrt vec1 = sqrt ((vec1.map (fun p => p.2 ^ 2)).sum) ∧
    euc_len sqrt vec2 = sqrt ((vec2.map (fun p => p.2 ^ 2)).sum) := by
  refine ⟨?_, ?_, euc_len_eq_spec sqrt vec1, euc_len_eq_spec sqrt vec2⟩
  · unfold cosine_sim fdiv
    rw [if_neg (mul_ne_zero hlen1 hlen2), cosine_dot_eq_shared_sum vec1 vec2 h1]
    unfold cosine_sim_spec
    rw [euc_len_eq_spec, euc_len_eq_spec]
  · unfold cosine_sim_spec
    rw [euc_len_eq_spec, euc_len_eq_spec]

/-- Witness of C12 on two vectors sharing the term `cat`. -/
theorem cosine_sim_eq_spec_witness :
    UniqueKeys ([("cat", 1)] : TfIdfMap ℚ) ∧
    euc_len id ([("cat", 1)] : TfIdfMap ℚ) ≠ 0 ∧
    euc_len id ([("cat", 2), ("dog", 1)] : TfIdfMap ℚ) ≠ 0 ∧
    (cosine_sim id ([("cat", 1)] : TfIdfMap ℚ) [("cat", 2), ("dog", 1)]
      = DivResult.finite (cosine_sim_spec id [("cat", 1)] [("cat", 2), ("dog", 1)]) ∧
    cosine_sim_spec id ([("cat", 1)] : TfIdfMap ℚ) [("cat", 2), ("dog", 1)]
      = (∑ t in shared_terms ([("cat", 1)] : TfIdfMap ℚ) [("cat", 2), ("dog", 1)],
          weight_of ([("cat", 1)] : TfIdfMap ℚ) t
            * weight_of ([("cat", 2), ("dog", 1)] : TfIdfMap ℚ) t)
        / (euc_len id ([("cat", 1)] : TfIdfMap ℚ)
            * euc_len id ([("cat", 2), ("dog", 1)] : TfIdfMap ℚ)) ∧
    euc_len id ([("cat", 1)] : TfIdfMap ℚ)
      = id ((([("cat", 1)] : TfIdfMap ℚ).map (fun p => p.2 ^ 2)).sum) ∧
    euc_len id ([("cat", 2), ("dog", 1)] : TfIdfMap ℚ)
      = id ((([("cat", 2), ("dog", 1)] : TfIdfMap ℚ).map (fun p => p.2 ^ 2)).sum)) :=
  ⟨by decide, by norm_num [euc_len], by norm_num [euc_len],
    cosine_sim_eq_spec id [("cat", 1)] [("cat", 2), ("dog", 1)] (by decide)
      (by norm_num [euc_len]) (by norm_num [euc_len])⟩

end cosine_claims

section cosine_claims2
variable {K : Type} [LinearOrderedField K]

theorem sum_squares_nonneg (vec : TfIdfMap K) : 0 ≤ (vec.map (fun p => p.2 ^ 2)).sum := by
  apply List.sum_nonneg
  intro x hx
  obtain ⟨p, -, rfl⟩ := List.mem_map.mp hx
  positivity

theorem weights_zero_of_sum_squares {vec : TfIdfMap K}
    (h : (vec.map (fun p => p.2 ^ 2)).sum = 0) : ∀ p ∈ vec, p.2 = 0 := by
  induction vec with
  | nil => intro p hp; simp at hp
  | cons q qs ih =>
    rw [List.map_cons, List.sum_cons] at h
    have hq : 0 ≤ q.2 ^ 2 := by positivity
    have hqs := sum_squares_nonneg qs
    have h1 : q.2 ^ 2 = 0 := by linarith
    have h2 : (qs.map (fun p => p.2 ^ 2)).sum = 0 := by linarith
    intro p hp
    rcases List.mem_cons.mp hp with rfl | hmem
    · exact pow_eq_zero_iff (by norm_num) |>.mp h1
    · exact ih h2 p hmem

theorem weight_of_eq_zero {vec : TfIdfMap K} (h : ∀ p ∈ vec, p.2 = 0) (term : String) :
    weight_of vec term = 0 := by
  induction vec with
  | nil => simp [weight_of]
  | cons q qs ih =>
    obtain ⟨k, y⟩ := q
    have hy : y = 0 := h (k, y) (List.mem_cons_self _ _)
    have := ih (fun p hp => h p (List.mem_cons_of_mem _ hp))
    by_cases hk : (term == k) = true
    · simp [weight_of, List.lookup, hk, hy]
    · have hk' : (term == k) = false := by simpa using hk
      simp only [weight_of, List.lookup, hk'] at this ⊢
      exact this

theorem cosine_dot_zero_of_zero_norm (sqrt : K → K)
    (hsqrt : ∀ x, 0 ≤ x → sqrt x = 0 → x = 0) (vec1 vec2 : TfIdfMap K)
    (hzero : euc_len sqrt vec1 = 0 ∨ euc_len sqrt vec2 = 0) : cosine_dot vec1 vec2 = 0 := by
  rw [cosine_dot_eq_sum]
  apply List.sum_eq_zero
  intro x hx
  obtain ⟨p, hp, rfl⟩ := List.mem_map.mp hx
  rcases hzero with h | h
  · rw [euc_len_eq_spec] at h
    have := weights_zero_of_sum_squares (hsqrt _ (sum_squares_nonneg vec1) h) p hp
    rw [this, zero_mul]
  · rw [euc_len_eq_spec] at h
    have := weight_of_eq_zero (weights_zero_of_sum_squares (hsqrt _ (sum_squares_nonneg vec2) h))
      p.1
    rw [this, mul_zero]

/-- Counterexample to claim C13 as stated: both maps empty, Euclidean length 0; the
division `0.0 / 0.0` is performed and the result is NaN, not 0. -/
theorem cosine_sim_zero_norm_counterexample :
    euc_len id ([] : TfIdfMap ℚ) = 0 ∧
    cosine_sim id ([] : TfIdfMap ℚ) [] = DivResult.nan ∧
    cosine_sim id ([] : TfIdfMap ℚ) [] ≠ DivResult.finite 0 := by
  have h : cosine_sim id ([] : TfIdfMap ℚ) [] = DivResult.nan := by
    simp [cosine_sim, cosine_dot, euc_len, fdiv]
  refine ⟨by simp [euc_len], h, ?_⟩
  rw [h]
  exact fun e => DivResult.noConfusion e

/-- Claim C13 as amended: when `euc_len v1 = 0` or `euc_len v2 = 0` (the square root
vanishing only at 0), `cosine_sim v1 v2` carries out the division `0.0 / 0.0`: its result
is NaN, no finite number and in particular not 0, and the test `cos_sim >= 0.1` of
`build_adjacency_matrix` is false for it. -/
theorem cosine_sim_zero_norm_nan (sqrt : K → K) (hsqrt : ∀ x, 0 ≤ x → sqrt x = 0 → x = 0)
    (vec1 vec2 : TfIdfMap K) (hzero : euc_len sqrt vec1 = 0 ∨ euc_len sqrt vec2 = 0) :
    cosine_sim sqrt vec1 vec2 = DivResult.nan ∧
    (∀ q, cosine_sim sqrt vec1 vec2 ≠ DivResult.finite q) ∧
    (cosine_sim sqrt vec1 vec2).ge LexrankEdgeThreshold = false := by
  have hden : euc_len sqrt vec1 * euc_len sqrt vec2 = 0 := by
    rcases hzero with h | h
    · rw [h, zero_mul]
    · rw [h, mul_zero]
  have hnan : cosine_sim sqrt vec1 vec2 = DivResult.nan := by
    unfold cosine_sim fdiv
    rw [if_pos hden, cosine_dot_zero_of_zero_norm sqrt hsqrt vec1 vec2 hzero]
    simp
  refine ⟨hnan, fun q => ?_, ?_⟩
  · rw [hnan]
    exact fun e => DivResult.noConfusion e
  · rw [hnan]
    rfl

/-- Witness of the amended C13: an empty map against a one-term map. -/
theorem cosine_sim_zero_norm_nan_witness :
    (∀ x : ℚ, 0 ≤ x → id x = 0 → x = 0) ∧
    (euc_len id ([] : TfIdfMap ℚ) = 0 ∨ euc_len id ([("cat", 1)] : TfIdfMap ℚ) = 0) ∧
    (cosine_sim id ([] : TfIdfMap ℚ) [("cat", 1)] = DivResult.nan ∧
    (∀ q, cosine_sim id ([] : TfIdfMap ℚ) [("cat", 1)] ≠ DivResult.finite q) ∧
    (cosine_sim id ([] : TfIdfMap ℚ) [("cat", 1)]).ge LexrankEdgeThreshold = false) :=
  ⟨fun _ _ h => h, Or.inl (by simp [euc_len]),
    cosine_sim_zero_norm_nan id (fun _ _ h => h) [] [("cat", 1)] (Or.inl (by simp [euc_len]))⟩

/-- Claim C14: for every tf-idf vector `v` (a map with pairwise distinct keys) with
non-zero Euclidean length, `sqrt` being a square root at the sum of the squares of the
weights of `v`, `cosine_sim v v` is exactly 1, hence 1 within any epsilon. -/
theorem cosine_sim_self (sqrt : K → K) (vec : TfIdfMap K) (hkeys : UniqueKeys vec)
    (hsqrt : sqrt ((vec.map (fun p => p.2 ^ 2)).sum) * sqrt ((vec.map (fun p => p.2 ^ 2)).sum)
      = (vec.map (fun p => p.2 ^ 2)).sum)
    (hlen : euc_len sqrt vec ≠ 0) :
    cosine_sim sqrt vec vec = DivResult.finite 1 ∧
    ∀ eps : K, 0 ≤ eps → ∃ q, cosine_sim sqrt vec vec = DivResult.finite q ∧ |q - 1| ≤ eps := by
  have hdot : cosine_dot vec vec = (vec.map (fun p => p.2 ^ 2)).sum := by
    rw [cosine_dot_eq_sum]
    congr 1
    apply List.map_congr_left
    intro p hp
    rw [weight_of_mem hkeys hp]
    ring
  have hden : euc_len sqrt vec * euc_len sqrt vec = (vec.map (fun p => p.2 ^ 2)).sum := by
    rw [euc_len_eq_spec]
    exact hsqrt
  have hne : euc_len sqrt vec * euc_len sqrt vec ≠ 0 := mul_ne_zero hlen hlen
  have hone : cosine_sim sqrt vec vec = DivResult.finite 1 := by
    unfold cosine_sim fdiv
    rw [if_neg hne, hdot, hden]
    rw [hden] at hne
    rw [div_self hne]
  refine ⟨hone, fun eps heps => ⟨1, hone, ?_⟩⟩
  rw [sub_self, abs_zero]
  exact heps

/-- Witness of C14 on a two-term vector whose sum of squares is 1, where `id` is a square
root. -/
theorem cosine_sim_self_witness :
    UniqueKeys ([("cat", 3 / 5), ("dog", 4 / 5)] : TfIdfMap ℚ) ∧
    id ((([("cat", 3 / 5), ("dog", 4 / 5)] : TfIdfMap ℚ).map (fun p => p.2 ^ 2)).sum)
        * id ((([("cat", 3 / 5), ("dog", 4 / 5)] : TfIdfMap ℚ).map (fun p => p.2 ^ 2)).sum)
      = (([("cat", 3 / 5), ("dog", 4 / 5)] : TfIdfMap ℚ).map (fun p => p.2 ^ 2)).sum ∧
    euc_len id ([("cat", 3 / 5), ("dog", 4 / 5)] : TfIdfMap ℚ) ≠ 0 ∧
    (cosine_sim id ([("cat", 3 / 5), ("dog", 4 / 5)] : TfIdfMap ℚ)
        [("cat", 3 / 5), ("dog", 4 / 5)] = DivResult.finite 1 ∧
    ∀ eps : ℚ, 0 ≤ eps → ∃ q, cosine_sim id ([("cat", 3 / 5), ("dog", 4 / 5)] : TfIdfMap ℚ)
        [("cat", 3 / 5), ("dog", 4 / 5)] = DivResult.finite q ∧ |q - 1| ≤ eps) :=
  ⟨by decide, by norm_num, by norm_num [euc_len],
    cosine_sim_self id [("cat", 3 / 5), ("dog", 4 / 5)] (by decide) (by norm_num)
      (by norm_num [euc_len])⟩

end cosine_claims2

/-! ### The tf-idf maps: claims C15 and C16 -/

section tfidf
variable {K : Type} [LinearOrderedField K]

theorem tf_idf_fold_known (log10 : K → K) (idf_scores : List (String × K))
    (back : TfIdfMap K) (p : String × Nat) (idf : K) (h : idf_scores.lookup p.1 = some idf) :
    (match idf_scores.lookup p.1 with
      | none => Except.error (Failure.out_of_range p.1)
      | some idf =>
        if !close ((if p.2 > 0 then 1 + log10 (p.2 : K) else 0) * idf) 0 numeric_limits_epsilon
        then Except.ok (map_assign back p.1 ((if p.2 > 0 then 1 + log10 (p.2 : K) else 0) * idf))
        else Except.ok back)
      = (Except.ok (tf_idf_step log10 idf_scores back p) : Except Failure (TfIdfMap K)) := by
  have hw : weight_of idf_scores p.1 = idf := by simp [weight_of, h]
  simp only [h, tf_idf_step, tf_idf_weight, hw]
  split <;> split <;> rfl

theorem tf_idf_fold_unknown (log10 : K → K) (idf_scores : List (String × K))
    (back : TfIdfMap K) (p : String × Nat) (h : idf_scores.lookup p.1 = none) :
    (match idf_scores.lookup p.1 with
      | none => Except.error (Failure.out_of_range p.1)
      | some idf =>
        if !close ((if p.2 > 0 then 1 + log10 (p.2 : K) else 0) * idf) 0 numeric_limits_epsilon
        then Except.ok (map_assign back p.1 ((if p.2 > 0 then 1 + log10 (p.2 : K) else 0) * idf))
        else Except.ok back)
      = (Except.error (Failure.out_of_range p.1) : Except Failure (TfIdfMap K)) := by
  simp only [h]

/-- The inner loop either meets only known terms and folds `tf_idf_step`, or stops with
`out_of_range` at a term absent from the idf table. -/
theorem tf_idf_map_foldlM_cases (log10 : K → K) (idf_scores : List (String × K))
    (sentence : doc_terms) (back : TfIdfMap K) :
    ((∀ p ∈ sentence, (idf_scores.lookup p.1).isSome = true) ∧
      sentence.foldlM
        (fun back term_pair =>
          let term := term_pair.1
          let count : Nat := term_pair.2
          let tf : K := if count > 0 then 1 + log10 (count : K) else 0
          match idf_scores.lookup term with
          | none => Except.error (Failure.out_of_range term)
          | some idf =>
            let tfidf := tf * idf
            if !close tfidf 0 numeric_limits_epsilon then
              Except.ok (map_assign back term tfidf)
            else Except.ok back)
        back = Except.ok (sentence.foldl (tf_idf_step log10 idf_scores) back)) ∨
    (∃ p ∈ sentence, idf_scores.lookup p.1 = none ∧
      sentence.foldlM
        (fun back term_pair =>
          let term := term_pair.1
          let count : Nat := term_pair.2
          let tf : K := if count > 0 then 1 + log10 (count : K) else 0
          match idf_scores.lookup term with
          | none => Except.error (Failure.out_of_range term)
          | some idf =>
            let tfidf := tf * idf
            if !close tfidf 0 numeric_limits_epsilon then
              Except.ok (map_assign back term tfidf)
            else Except.ok back)
        back = Except.error (Failure.out_of_range p.1)) := by
  induction sentence generalizing back with
  | nil => exact Or.inl ⟨fun p hp => by simp at hp, rfl⟩
  | cons p ps ih =>
    rw [List.foldlM_cons]
    cases hl : idf_scores.lookup p.1 with
    | none =>
      refine Or.inr ⟨p, List.mem_cons_self p ps, hl, ?_⟩
      dsimp only
      rw [tf_idf_fold_unknown log10 idf_scores back p hl]
      rfl
    | some idf =>
      dsimp only
      rw [tf_idf_fold_known log10 idf_scores back p idf hl]
      rcases ih (tf_idf_step log10 idf_scores back p) with ⟨hall, hok⟩ | ⟨q, hq, hqn, herr⟩
      · refine Or.inl ⟨fun x hx => ?_, ?_⟩
        · rcases List.mem_cons.mp hx with rfl | hx'
          · rw [hl]; rfl
          · exact hall x hx'
        · exact hok
      · exact Or.inr ⟨q, List.mem_cons_of_mem p hq, hqn, herr⟩

theorem tf_idf_map_cases (log10 : K → K) (idf_scores : List (String × K))
    (sentence : doc_terms) :
    ((∀ p ∈ sentence, (idf_scores.lookup p.1).isSome = true) ∧
      tf_idf_map log10 idf_scores sentence
        = Except.ok (sentence.foldl (tf_idf_step log10 idf_scores) [])) ∨
    (∃ p ∈ sentence, idf_scores.lookup p.1 = none ∧
      tf_idf_map log10 idf_scores sentence = Except.error (Failure.out_of_range p.1)) :=
  tf_idf_map_foldlM_cases log10 idf_scores sentence []

/-- The function `tf_idf_maps` either meets only known terms and returns the list of the
folded maps, or stops with `out_of_range` at a term of the document absent from the idf
table. -/
theorem tf_idf_maps_cases (log10 : K → K) (norm_doc : NormalizedDocument)
    (idf_scores : List (String × K)) :
    (AllTermsKnown norm_doc idf_scores ∧
      tf_idf_maps log10 norm_doc idf_scores
        = Except.ok (norm_doc.sentence_term_counts.map
            (fun sentence => sentence.foldl (tf_idf_step log10 idf_scores) []))) ∨
    (∃ sentence ∈ norm_doc.sentence_term_counts, ∃ p ∈ sentence,
      idf_scores.lookup p.1 = none ∧
      tf_idf_maps log10 norm_doc idf_scores = Except.error (Failure.out_of_range p.1)) := by
  unfold tf_idf_maps AllTermsKnown
  generalize norm_doc.sentence_term_counts = sentences
  induction sentences with
  | nil => exact Or.inl ⟨fun s hs => by simp at hs, rfl⟩
  | cons s ss ih =>
    rw [List.mapM_cons]
    rcases tf_idf_map_cases log10 idf_scores s with ⟨hall, hok⟩ | ⟨p, hp, hpn, herr⟩
    · rw [hok]
      rcases ih with ⟨hall', hok'⟩ | ⟨s', hs', p, hp, hpn, herr⟩
      · refine Or.inl ⟨fun x hx => ?_, ?_⟩
        · rcases List.mem_cons.mp hx with rfl | hx'
          · exact hall
          · exact hall' x hx'
        · rw [hok']; rfl
      · refine Or.inr ⟨s', List.mem_cons_of_mem s hs', p, hp, hpn, ?_⟩
        rw [herr]; rfl
    · refine Or.inr ⟨s, List.mem_cons_self s ss, p, hp, hpn, ?_⟩
      rw [herr]; rfl

end tfidf

section tfidf2
variable {K : Type} [LinearOrderedField K]

theorem lookup_map_assign {V : Type} (m : List (String × V)) (k : String) (v : V) (t : String) :
    (map_assign m k v).lookup t = if t = k then some v else m.lookup t := by
  induction m with
  | nil =>
    by_cases h : t = k
    · simp [map_assign, List.lookup, h]
    · have : (t == k) = false := by simpa using h
      simp [map_assign, List.lookup, h, this]
  | cons q qs ih =>
    obtain ⟨k', v'⟩ := q
    by_cases hk : k' = k
    · subst hk
      by_cases h : t = k'
      · simp [map_assign, List.lookup, h]
      · have : (t == k') = false := by simpa using h
        simp [map_assign, List.lookup, h, this]
    · by_cases h' : t = k'
      · subst h'
        have hne : ¬ t = k := hk
        simp [map_assign, List.lookup, hk, hne]
      · have : (t == k') = false := by simpa using h'
        simp only [map_assign, hk, if_false, List.lookup, this]
        exact ih

theorem mem_map_assign {V : Type} (m : List (String × V)) (k : String) (v : V)
    {q : String × V} (hq : q ∈ map_assign m k v) : q.1 = k ∨ q.1 ∈ m.map Prod.fst := by
  induction m with
  | nil =>
    simp only [map_assign, List.mem_singleton] at hq
    exact Or.inl (by rw [hq])
  | cons p ps ih =>
    obtain ⟨k', v'⟩ := p
    by_cases hk : k' = k
    · simp only [map_assign, hk, if_true, List.mem_cons] at hq
      rcases hq with rfl | hq
      · exact Or.inl rfl
      · exact Or.inr (List.mem_cons_of_mem _ (List.mem_map_of_mem Prod.fst hq))
    · simp only [map_assign, hk, if_false, List.mem_cons] at hq
      rcases hq with rfl | hq
      · exact Or.inr (by simp)
      · rcases ih hq with h | h
        · exact Or.inl h
        · exact Or.inr (List.mem_cons_of_mem _ h)

theorem lookup_eq_none_of_not_mem {V : Type} (m : List (String × V)) (t : String)
    (h : t ∉ m.map Prod.fst) : m.lookup t = none := by
  induction m with
  | nil => rfl
  | cons q qs ih =>
    obtain ⟨k, y⟩ := q
    have hk : t ≠ k := fun e => h (by simp [e])
    have hq : t ∉ qs.map Prod.fst := fun hm => h (List.mem_cons_of_mem _ hm)
    have hne : (t == k) = false := by simpa using hk
    simp only [List.lookup, hne]
    exact ih hq

theorem lookup_tf_idf_step (log10 : K → K) (idf_scores : List (String × K)) (back : TfIdfMap K)
    (p : String × Nat) (t : String) :
    (tf_idf_step log10 idf_scores back p).lookup t =
      if t = p.1 ∧
          numeric_limits_epsilon < |tf_idf_weight log10 p.2 (weight_of idf_scores p.1)|
      then some (tf_idf_weight log10 p.2 (weight_of idf_scores p.1))
      else back.lookup t := by
  unfold tf_idf_step close
  by_cases hc : numeric_limits_epsilon < |tf_idf_weight log10 p.2 (weight_of idf_scores p.1)|
  · have hd : ¬ |tf_idf_weight log10 p.2 (weight_of idf_scores p.1) - 0|
        ≤ numeric_limits_epsilon := by rw [sub_zero]; exact not_le.mpr hc
    simp only [hd, decide_False, Bool.not_false, if_true, lookup_map_assign, hc, and_true]
  · have hd : |tf_idf_weight log10 p.2 (weight_of idf_scores p.1) - 0|
        ≤ numeric_limits_epsilon := by rw [sub_zero]; exact not_lt.mp hc
    simp [hd, hc]

/-- The map built by the inner loop of `tf_idf_maps`, read at a term `t`. -/
theorem lookup_tf_idf_fold (log10 : K → K) (idf_scores : List (String × K))
    (sentence : doc_terms) (hkeys : UniqueKeys sentence) (back : TfIdfMap K) (t : String) :
    (sentence.foldl (tf_idf_step log10 idf_scores) back).lookup t =
      match sentence.lookup t with
      | none => back.lookup t
      | some c =>
        if numeric_limits_epsilon < |tf_idf_weight log10 c (weight_of idf_scores t)|
        then some (tf_idf_weight log10 c (weight_of idf_scores t))
        else back.lookup t := by
  induction sentence generalizing back with
  | nil => rfl
  | cons p ps ih =>
    obtain ⟨k, c⟩ := p
    have hnd : k ∉ ps.map Prod.fst ∧ UniqueKeys ps := by
      simpa [UniqueKeys] using hkeys
    rw [List.foldl_cons, ih hnd.2]
    by_cases htk : t = k
    · subst htk
      rw [lookup_eq_none_of_not_mem ps t hnd.1]
      simp only [List.lookup, beq_self_eq_true]
      rw [lookup_tf_idf_step]
      simp
    · have hne : (t == k) = false := by simpa using htk
      simp only [List.lookup, hne]
      have hstep : (tf_idf_step log10 idf_scores back (k, c)).lookup t = back.lookup t := by
        rw [lookup_tf_idf_step]
        simp [htk]
      rw [hstep]

theorem mem_tf_idf_fold (log10 : K → K) (idf_scores : List (String × K))
    (sentence : doc_terms) (back : TfIdfMap K) {q : String × K}
    (hq : q ∈ sentence.foldl (tf_idf_step log10 idf_scores) back) :
    q.1 ∈ back.map Prod.fst ∨ q.1 ∈ sentence.map Prod.fst := by
  induction sentence generalizing back with
  | nil => exact Or.inl (List.mem_map_of_mem Prod.fst hq)
  | cons p ps ih =>
    rw [List.foldl_cons] at hq
    rcases ih _ hq with h | h
    · obtain ⟨x, hx, hx1⟩ := List.mem_map.mp h
      unfold tf_idf_step at hx
      split at hx
      · rcases mem_map_assign _ _ _ hx with h1 | h1
        · exact Or.inr (by rw [← hx1, h1]; simp)
        · exact Or.inl (hx1 ▸ h1)
      · exact Or.inl (hx1 ▸ List.mem_map_of_mem Prod.fst hx)
    · exact Or.inr (List.mem_cons_of_mem _ h)

/-- Claim C15: for every normalized document (each sentence a map with pairwise distinct
terms) and every idf table containing all of its terms, `tf_idf_maps` returns one map per
sentence in the input order; the `k`-th map has no entry for a term that sentence `k` lacks,
and for a term `t` of sentence `k` with count `c` it has an entry iff
`|tf * idf[t]|` exceeds the floating epsilon, where `tf = 1 + log10 c` (0 when `c = 0`),
the entry then being `tf * idf[t]`. -/
theorem tf_idf_maps_entries (log10 : K → K) (norm_doc : NormalizedDocument)
    (idf_scores : List (String × K)) (hknown : AllTermsKnown norm_doc idf_scores)
    (hkeys : ∀ sentence ∈ norm_doc.sentence_term_counts, UniqueKeys sentence) :
    ∃ tfidf_maps, tf_idf_maps log10 norm_doc idf_scores = Except.ok tfidf_maps ∧
      tfidf_maps.length = norm_doc.sentence_term_counts.length ∧
      ∀ k, k < norm_doc.sentence_term_counts.length → ∀ t : String,
        (tfidf_maps.getD k []).lookup t =
          match (norm_doc.sentence_term_counts.getD k []).lookup t with
          | none => none
          | some c =>
            if numeric_limits_epsilon < |tf_idf_weight log10 c (weight_of idf_scores t)|
            then some (tf_idf_weight log10 c (weight_of idf_scores t))
            else none := by
  rcases tf_idf_maps_cases log10 norm_doc idf_scores with ⟨-, hok⟩ | ⟨s, hs, p, hp, hpn, -⟩
  · refine ⟨_, hok, by simp, fun k hk t => ?_⟩
    have hk' : k < (norm_doc.sentence_term_counts.map
        (fun sentence => sentence.foldl (tf_idf_step log10 idf_scores) [])).length := by
      simpa using hk
    rw [List.getD_eq_getElem _ _ hk', List.getElem_map, List.getD_eq_getElem _ _ hk]
    exact lookup_tf_idf_fold log10 idf_scores _
      (hkeys _ (List.getElem_mem hk)) [] t
  · have := hknown s hs p hp
    rw [hpn] at this
    exact absurd this (by simp)

/-- Claim C16: `tf_idf_maps` fails with the unknown-term error (`std::out_of_range` from
`idf_scores.at`) if and only if some term of some sentence of the document is absent from
the idf table; every failure names such a term; a successful run holds no weight for a
term without an idf entry; and `lexrank` fails with the same error. -/
theorem tf_idf_maps_unknown_term (log10 : K → K) (norm_doc : NormalizedDocument)
    (idf_scores : List (String × K)) :
    ((∃ term, tf_idf_maps log10 norm_doc idf_scores
        = Except.error (Failure.out_of_range term)) ↔
      ∃ sentence ∈ norm_doc.sentence_term_counts, ∃ p ∈ sentence,
        idf_scores.lookup p.1 = none) ∧
    (∀ e, tf_idf_maps log10 norm_doc idf_scores = Except.error e →
      ∃ sentence ∈ norm_doc.sentence_term_counts, ∃ p ∈ sentence,
        idf_scores.lookup p.1 = none ∧ e = Failure.out_of_range p.1) ∧
    (∀ tfidf_maps, tf_idf_maps log10 norm_doc idf_scores = Except.ok tfidf_maps →
      ∀ m ∈ tfidf_maps, ∀ q ∈ m, (idf_scores.lookup q.1).isSome = true) ∧
    (∀ e, tf_idf_maps log10 norm_doc idf_scores = Except.error e →
      ∀ (sqrt : K → K) (fuel : Nat),
        lexrank sqrt log10 fuel norm_doc idf_scores = Except.error e) := by
  refine ⟨⟨?_, ?_⟩, ?_, ?_, ?_⟩
  · rintro ⟨term, herr⟩
    rcases tf_idf_maps_cases log10 norm_doc idf_scores with ⟨-, hok⟩ | ⟨s, hs, p, hp, hpn, -⟩
    · rw [hok] at herr
      cases herr
    · exact ⟨s, hs, p, hp, hpn⟩
  · rintro ⟨s, hs, p, hp, hpn⟩
    rcases tf_idf_maps_cases log10 norm_doc idf_scores with ⟨hall, -⟩ | ⟨-, -, q, -, -, herr⟩
    · have := hall s hs p hp
      rw [hpn] at this
      exact absurd this (by simp)
    · exact ⟨q.1, herr⟩
  · intro e herr
    rcases tf_idf_maps_cases log10 norm_doc idf_scores with ⟨-, hok⟩ | ⟨s, hs, p, hp, hpn, herr'⟩
    · rw [hok] at herr
      cases herr
    · exact ⟨s, hs, p, hp, hpn, Except.error.inj (herr.symm.trans herr')⟩
  · intro tfidf_maps hmaps m hm q hq
    rcases tf_idf_maps_cases log10 norm_doc idf_scores with ⟨hall, hok⟩ | ⟨-, -, p, -, -, herr⟩
    · have hsame := Except.ok.inj (hmaps.symm.trans hok)
      rw [hsame] at hm
      obtain ⟨s, hs, rfl⟩ := List.mem_map.mp hm
      rcases mem_tf_idf_fold log10 idf_scores s [] hq with h | h
      · simp at h
      · obtain ⟨p, hp, hp1⟩ := List.mem_map.mp h
        rw [← hp1]
        exact hall s hs p hp
    · rw [herr] at hmaps
      cases hmaps
  · intro e herr sqrt fuel
    unfold lexrank
    rw [herr]

end tfidf2

section tfidf3
variable {K : Type} [LinearOrderedField K]

/-- Witness of C15 on the three-sentence sample document. -/
theorem tf_idf_maps_entries_witness :
    AllTermsKnown sample_doc sample_idf ∧
    (∀ sentence ∈ sample_doc.sentence_term_counts, UniqueKeys sentence) ∧
    ∃ tfidf_maps, tf_idf_maps id sample_doc sample_idf = Except.ok tfidf_maps ∧
      tfidf_maps.length = sample_doc.sentence_term_counts.length ∧
      ∀ k, k < sample_doc.sentence_term_counts.length → ∀ t : String,
        (tfidf_maps.getD k []).lookup t =
          match (sample_doc.sentence_term_counts.getD k []).lookup t with
          | none => none
          | some c =>
            if numeric_limits_epsilon < |tf_idf_weight id c (weight_of sample_idf t)|
            then some (tf_idf_weight id c (weight_of sample_idf t))
            else none :=
  ⟨by decide, by decide, tf_idf_maps_entries id sample_doc sample_idf (by decide) (by decide)⟩

end tfidf3

/-! ### The idf table: claims C17 and C18 -/

section idf
variable {K : Type} [LinearOrderedField K]

theorem lookup_map_increment (m : List (String × K)) (w t : String) :
    (map_increment m w).lookup t
      = if t = w then some ((m.lookup w).getD 0 + 1) else m.lookup t := by
  unfold map_increment
  cases h : m.lookup w with
  | none => simp [lookup_map_assign]
  | some c => simp [lookup_map_assign]

theorem lookup_foldl_increment (words : List String) (hnd : words.Nodup)
    (m : List (String × K)) (t : String) :
    (words.foldl map_increment m).lookup t
      = if t ∈ words then some ((m.lookup t).getD 0 + 1) else m.lookup t := by
  induction words generalizing m with
  | nil => simp
  | cons w ws ih =>
    obtain ⟨hw, hws⟩ := List.nodup_cons.mp hnd
    rw [List.foldl_cons, ih hws, lookup_map_increment]
    by_cases htw : t = w
    · subst htw
      simp [hw]
    · by_cases hmem : t ∈ ws
      · simp [htw, hmem]
      · simp [htw, hmem]

theorem foldl_insert_nodup {α : Type} (l : List (String × α)) (acc : List String)
    (h : acc.Nodup) : (l.foldl (fun dw p => dw.insert p.1) acc).Nodup := by
  induction l generalizing acc with
  | nil => exact h
  | cons p ps ih => exact ih _ (h.insert)

theorem mem_foldl_insert {α : Type} (l : List (String × α)) (acc : List String) (t : String) :
    t ∈ l.foldl (fun dw p => dw.insert p.1) acc ↔ t ∈ acc ∨ ∃ p ∈ l, p.1 = t := by
  induction l generalizing acc with
  | nil => simp
  | cons p ps ih =>
    rw [List.foldl_cons, ih, List.mem_insert_iff]
    constructor
    · rintro ((h | h) | ⟨q, hq, hq1⟩)
      · exact Or.inr ⟨p, List.mem_cons_self _ _, h.symm⟩
      · exact Or.inl h
      · exact Or.inr ⟨q, List.mem_cons_of_mem _ hq, hq1⟩
    · rintro (h | ⟨q, hq, hq1⟩)
      · exact Or.inl (Or.inr h)
      · rcases List.mem_cons.mp hq with rfl | hq'
        · exact Or.inl (Or.inl hq1.symm)
        · exact Or.inr ⟨q, hq', hq1⟩

theorem doc_words_aux (sentences : List doc_terms) (acc : List String) (h : acc.Nodup) :
    (sentences.foldl
        (fun doc_words sentence =>
          sentence.foldl (fun doc_words word_pair => doc_words.insert word_pair.1) doc_words)
        acc).Nodup ∧
    ∀ t, t ∈ sentences.foldl
        (fun doc_words sentence =>
          sentence.foldl (fun doc_words word_pair => doc_words.insert word_pair.1) doc_words)
        acc ↔ t ∈ acc ∨ ∃ s ∈ sentences, ∃ p ∈ s, p.1 = t := by
  induction sentences generalizing acc with
  | nil => exact ⟨h, fun t => by simp⟩
  | cons s ss ih =>
    rw [List.foldl_cons]
    obtain ⟨hnd, hmem⟩ := ih _ (foldl_insert_nodup s acc h)
    refine ⟨hnd, fun t => ?_⟩
    rw [hmem, mem_foldl_insert]
    constructor
    · rintro ((h1 | ⟨p, hp, hp1⟩) | ⟨s', hs', p, hp, hp1⟩)
      · exact Or.inl h1
      · exact Or.inr ⟨s, List.mem_cons_self _ _, p, hp, hp1⟩
      · exact Or.inr ⟨s', List.mem_cons_of_mem _ hs', p, hp, hp1⟩
    · rintro (h1 | ⟨s', hs', p, hp, hp1⟩)
      · exact Or.inl (Or.inl h1)
      · rcases List.mem_cons.mp hs' with rfl | hs''
        · exact Or.inl (Or.inr ⟨p, hp, hp1⟩)
        · exact Or.inr ⟨s', hs'', p, hp, hp1⟩

theorem doc_words_nodup (doc : NormalizedDocument) : (doc_words doc).Nodup :=
  (doc_words_aux doc.sentence_term_counts [] List.nodup_nil).1

theorem mem_doc_words (doc : NormalizedDocument) (t : String) :
    t ∈ doc_words doc ↔ doc_contains doc t = true := by
  unfold doc_words doc_contains
  rw [(doc_words_aux doc.sentence_term_counts [] List.nodup_nil).2 t]
  simp [List.any_eq_true]

end idf

section idf2
variable {K : Type} [LinearOrderedField K]

theorem keys_map_assign {V : Type} (m : List (String × V)) (k : String) (v : V) :
    (map_assign m k v).map Prod.fst
      = if k ∈ m.map Prod.fst then m.map Prod.fst else m.map Prod.fst ++ [k] := by
  induction m with
  | nil => simp [map_assign]
  | cons q qs ih =>
    obtain ⟨k', v'⟩ := q
    by_cases hk : k' = k
    · subst hk
      simp [map_assign]
    · have hk' : ¬ k = k' := fun e => hk e.symm
      simp only [map_assign, hk, if_false, List.map_cons, ih, List.mem_cons, hk', false_or]
      split <;> simp

theorem unique_keys_map_assign {V : Type} {m : List (String × V)} (h : UniqueKeys m)
    (k : String) (v : V) : UniqueKeys (map_assign m k v) := by
  unfold UniqueKeys at h ⊢
  rw [keys_map_assign]
  split
  · exact h
  · rename_i hk
    exact List.Nodup.append h (List.nodup_singleton k)
      (by
        intro x hx hx'
        rw [List.mem_singleton] at hx'
        exact hk (hx' ▸ hx))

theorem unique_keys_map_increment {m : List (String × K)} (h : UniqueKeys m) (w : String) :
    UniqueKeys (map_increment m w) := by
  unfold map_increment
  split <;> exact unique_keys_map_assign h _ _

theorem unique_keys_foldl_increment (words : List String) {m : List (String × K)}
    (h : UniqueKeys m) : UniqueKeys (words.foldl map_increment m) := by
  induction words generalizing m with
  | nil => exact h
  | cons w ws ih => exact ih (unique_keys_map_increment h w)

theorem lookup_isSome_of_mem_keys {V : Type} (m : List (String × V)) (t : String)
    (h : t ∈ m.map Prod.fst) : (m.lookup t).isSome = true := by
  induction m with
  | nil => simp at h
  | cons q qs ih =>
    obtain ⟨k, y⟩ := q
    by_cases hk : t = k
    · subst hk
      simp [List.lookup]
    · have hne : (t == k) = false := by simpa using hk
      have hq : t ∈ qs.map Prod.fst := by
        rcases List.mem_cons.mp h with h1 | h1
        · exact absurd h1 hk
        · exact h1
      simp only [List.lookup, hne]
      exact ih hq

theorem lookup_of_mem_unique {V : Type} {m : List (String × V)} (h : UniqueKeys m)
    {p : String × V} (hp : p ∈ m) : m.lookup p.1 = some p.2 := by
  induction m with
  | nil => simp at hp
  | cons q qs ih =>
    obtain ⟨k, y⟩ := q
    have hnd : k ∉ qs.map Prod.fst ∧ UniqueKeys qs := by
      simpa [UniqueKeys] using h
    rcases List.mem_cons.mp hp with heq | hmem
    · subst heq
      simp [List.lookup]
    · have hne : (p.1 == k) = false := by
        have : p.1 ≠ k := fun e => hnd.1 (e ▸ List.mem_map_of_mem Prod.fst hmem)
        simpa using this
      simp only [List.lookup, hne]
      exact ih hnd.2 hmem

theorem lookup_map_values {V W : Type} (m : List (String × V)) (g : V → W) (t : String) :
    (m.map (fun p => (p.1, g p.2))).lookup t = (m.lookup t).map g := by
  induction m with
  | nil => rfl
  | cons q qs ih =>
    obtain ⟨k, y⟩ := q
    by_cases hk : (t == k) = true
    · simp [List.lookup, hk]
    · have hne : (t == k) = false := by simpa using hk
      simp only [List.map_cons, List.lookup, hne]
      exact ih

/-- The counting loop of `idf_scores`: after the corpus has been folded into `m`, the
count stored for `t` has grown by the number of documents containing `t`. -/
theorem lookup_count_fold (document_corpus : List (Nat × NormalizedDocument))
    (m : List (String × K)) (t : String) :
    (document_corpus.foldl
        (fun result doc_pair => (doc_words doc_pair.2).foldl map_increment result) m).lookup t
      = if doc_freq document_corpus t = 0 then m.lookup t
        else some ((m.lookup t).getD 0 + (doc_freq document_corpus t : K)) := by
  induction document_corpus generalizing m with
  | nil => simp [doc_freq]
  | cons d ds ih =>
    rw [List.foldl_cons, ih, lookup_foldl_increment _ (doc_words_nodup d.2)]
    have hcount : doc_freq (d :: ds) t
        = doc_freq ds t + if doc_contains d.2 t = true then 1 else 0 := by
      unfold doc_freq
      rw [List.countP_cons]
    rw [hcount]
    by_cases hd : t ∈ doc_words d.2
    · have hc : doc_contains d.2 t = true := (mem_doc_words d.2 t).mp hd
      rw [if_pos hd, if_pos hc]
      have hne : ¬ (doc_freq ds t + 1 = 0) := by omega
      rw [if_neg hne]
      by_cases hz : doc_freq ds t = 0
      · rw [if_pos hz, hz]
        simp
      · rw [if_neg hz, Option.getD_some]
        push_cast
        congr 1
        ring
    · have hc : ¬ doc_contains d.2 t = true := fun h => hd ((mem_doc_words d.2 t).mpr h)
      rw [if_neg hd, if_neg hc, Nat.add_zero]

theorem idf_scores_lookup (log10 : K → K) (document_corpus : List (Nat × NormalizedDocument))
    (t : String) :
    (idf_scores log10 document_corpus).lookup t
      = if doc_freq document_corpus t = 0 then none
        else some (log10 ((document_corpus.length : K) / (doc_freq document_corpus t : K))) := by
  unfold idf_scores
  rw [lookup_map_values _ (fun v => log10 ((document_corpus.length : K) / v)),
    lookup_count_fold]
  by_cases hz : doc_freq document_corpus t = 0
  · simp [hz]
  · simp [hz]

theorem idf_scores_unique_keys (log10 : K → K)
    (document_corpus : List (Nat × NormalizedDocument)) :
    UniqueKeys (idf_scores log10 document_corpus) := by
  have h : ∀ (ds : List (Nat × NormalizedDocument)) (m : List (String × K)), UniqueKeys m →
      UniqueKeys (ds.foldl
        (fun result doc_pair => (doc_words doc_pair.2).foldl map_increment result) m) := by
    intro ds
    induction ds with
    | nil => intro m hm; exact hm
    | cons d ds ih =>
      intro m hm
      rw [List.foldl_cons]
      exact ih _ (unique_keys_foldl_increment _ hm)
  have h0 := h document_corpus [] (by simp [UniqueKeys])
  unfold idf_scores UniqueKeys
  unfold UniqueKeys at h0
  simpa [List.map_map, Function.comp] using h0

theorem doc_freq_pos_iff (document_corpus : List (Nat × NormalizedDocument)) (t : String) :
    doc_freq document_corpus t ≠ 0 ↔
      ∃ doc_pair ∈ document_corpus, ∃ sentence ∈ doc_pair.2.sentence_term_counts,
        ∃ word_pair ∈ sentence, word_pair.1 = t := by
  unfold doc_freq
  rw [← Nat.pos_iff_ne_zero, List.countP_pos_iff]
  simp [doc_contains, List.any_eq_true]

end idf2

section idf3
variable {K : Type} [LinearOrderedField K]

theorem idf_scores_value (log10 : K → K) (document_corpus : List (Nat × NormalizedDocument))
    {p : String × K} (hp : p ∈ idf_scores log10 document_corpus) :
    doc_freq document_corpus p.1 ≠ 0 ∧
    p.2 = log10 ((document_corpus.length : K) / (doc_freq document_corpus p.1 : K)) := by
  have hl := lookup_of_mem_unique (idf_scores_unique_keys log10 document_corpus) hp
  rw [idf_scores_lookup] at hl
  by_cases hz : doc_freq document_corpus p.1 = 0
  · rw [if_pos hz] at hl
    cases hl
  · rw [if_neg hz] at hl
    exact ⟨hz, (Option.some.inj hl).symm⟩

/-- Claim C17: for every corpus of `N` documents, the table returned by `idf_scores` has
pairwise distinct keys, its key set is exactly the set of terms occurring in at least one
sentence of at least one document, and the value stored for a term `t` is
`log10 (N / df t)`, where `df t` counts the documents containing `t`, each once.  For the
corpus `A = [{cat, sat}, {dog, ran}]`, `B = [{dog, sat}]` this gives
`idf(sat) = log10 (2 / 2)` and `idf(cat) = log10 (2 / 1)`. -/
theorem idf_scores_table (log10 : K → K) (document_corpus : List (Nat × NormalizedDocument)) :
    UniqueKeys (idf_scores log10 document_corpus) ∧
    (∀ t, t ∈ (idf_scores log10 document_corpus).map Prod.fst ↔
      ∃ doc_pair ∈ document_corpus, ∃ sentence ∈ doc_pair.2.sentence_term_counts,
        ∃ word_pair ∈ sentence, word_pair.1 = t) ∧
    (∀ p ∈ idf_scores log10 document_corpus,
      p.2 = log10 ((document_corpus.length : K) / (doc_freq document_corpus p.1 : K))) ∧
    (∀ t, (idf_scores log10 document_corpus).lookup t
      = if doc_freq document_corpus t = 0 then none
        else some (log10 ((document_corpus.length : K) / (doc_freq document_corpus t : K)))) ∧
    (idf_scores log10 example_corpus).lookup "sat" = some (log10 (2 / 2)) ∧
    (idf_scores log10 example_corpus).lookup "cat" = some (log10 (2 / 1)) := by
  refine ⟨idf_scores_unique_keys log10 document_corpus, fun t => ?_,
    fun p hp => (idf_scores_value log10 document_corpus hp).2,
    idf_scores_lookup log10 document_corpus, ?_, ?_⟩
  · rw [← doc_freq_pos_iff]
    constructor
    · intro hmem
      have hs := lookup_isSome_of_mem_keys _ t hmem
      rw [idf_scores_lookup] at hs
      intro hz
      rw [if_pos hz] at hs
      simp at hs
    · intro hz
      by_contra hmem
      have hn := lookup_eq_none_of_not_mem _ t hmem
      rw [idf_scores_lookup, if_neg hz] at hn
      cases hn
  · rw [idf_scores_lookup]
    have hdf : doc_freq example_corpus "sat" = 2 := by decide
    have hlen : example_corpus.length = 2 := rfl
    rw [hdf, hlen]
    norm_num
  · rw [idf_scores_lookup]
    have hdf : doc_freq example_corpus "cat" = 1 := by decide
    have hlen : example_corpus.length = 2 := rfl
    rw [hdf, hlen]
    norm_num

/-- Claim C18: for every corpus, `log10` being non-negative on `x >= 1` and zero there
only at 1, every entry of the table returned by `idf_scores` has a document frequency
`1 <= df t <= N` and a non-negative value, which is 0 exactly when the term occurs in
every document. -/
theorem idf_scores_nonneg (log10 : K → K) (hnonneg : ∀ x, 1 ≤ x → 0 ≤ log10 x)
    (hzero : ∀ x, 1 ≤ x → (log10 x = 0 ↔ x = 1))
    (document_corpus : List (Nat × NormalizedDocument)) :
    ∀ p ∈ idf_scores log10 document_corpus,
      1 ≤ doc_freq document_corpus p.1 ∧
      doc_freq document_corpus p.1 ≤ document_corpus.length ∧
      0 ≤ p.2 ∧
      (p.2 = 0 ↔ ∀ doc_pair ∈ document_corpus, doc_contains doc_pair.2 p.1 = true) := by
  intro p hp
  obtain ⟨hne, hval⟩ := idf_scores_value log10 document_corpus hp
  have hle : doc_freq document_corpus p.1 ≤ document_corpus.length := List.countP_le_length _
  have hpos : 1 ≤ doc_freq document_corpus p.1 := Nat.one_le_iff_ne_zero.mpr hne
  have hdf : (0 : K) < (doc_freq document_corpus p.1 : K) := by exact_mod_cast hpos
  have hq : (1 : K) ≤ (document_corpus.length : K) / (doc_freq document_corpus p.1 : K) := by
    rw [le_div_iff₀ hdf, one_mul]
    exact_mod_cast hle
  refine ⟨hpos, hle, ?_, ?_⟩
  · rw [hval]
    exact hnonneg _ hq
  · rw [hval, hzero _ hq, div_eq_one_iff_eq (ne_of_gt hdf)]
    have hall : doc_freq document_corpus p.1 = document_corpus.length ↔
        ∀ doc_pair ∈ document_corpus, doc_contains doc_pair.2 p.1 = true := by
      unfold doc_freq
      rw [List.countP_eq_length]
    rw [← hall]
    constructor
    · intro h
      exact (Nat.cast_injective h).symm
    · intro h
      rw [h]

/-- Witness of C18 on the example corpus. -/
theorem idf_scores_nonneg_witness :
    (∀ x : ℚ, 1 ≤ x → 0 ≤ shifted_log x) ∧
    (∀ x : ℚ, 1 ≤ x → (shifted_log x = 0 ↔ x = 1)) ∧
    ∀ p ∈ idf_scores shifted_log example_corpus,
      1 ≤ doc_freq example_corpus p.1 ∧
      doc_freq example_corpus p.1 ≤ example_corpus.length ∧
      0 ≤ p.2 ∧
      (p.2 = 0 ↔ ∀ doc_pair ∈ example_corpus, doc_contains doc_pair.2 p.1 = true) :=
  ⟨fun _ hx => sub_nonneg.mpr hx, fun _ _ => sub_eq_zero,
    idf_scores_nonneg shifted_log (fun _ hx => sub_nonneg.mpr hx) (fun _ _ => sub_eq_zero)
      example_corpus⟩

end idf3

/-! ### The normalizer: claims C19 and C20 -/

section normalizer_claims

theorem take_succ_set {α : Type} (arr : List α) (w : Nat) (x : α) (h : w < arr.length) :
    (arr.set w x).take (w + 1) = arr.take w ++ [x] := by
  induction arr generalizing w with
  | nil => simp at h
  | cons a as ih =>
    cases w with
    | zero => simp
    | succ w =>
      have hw : w < as.length := by simpa using h
      simp only [List.set_cons_succ, List.take_succ_cons, List.cons_append]
      rw [ih w hw]

theorem length_set_fold {α : Type} [DecidableEq α] (value : α) (xs : List α) (arr : List α)
    (w : Nat) :
    (xs.foldl
      (fun state x => if x = value then state else (state.1.set state.2 x, state.2 + 1))
      (arr, w)).1.length = arr.length := by
  induction xs generalizing arr w with
  | nil => rfl
  | cons x xs ih =>
    rw [List.foldl_cons]
    by_cases hx : x = value
    · rw [if_pos hx]; exact ih arr w
    · rw [if_neg hx, ih]; simp

/-- The loop of `std::remove`, started with `w` elements already in place: the first
elements of the vector are then those `w` elements followed by the elements read that
differ from `value`, in order. -/
theorem std_remove_fold {α : Type} [DecidableEq α] (value : α) (xs : List α) (arr : List α)
    (w : Nat) (h : w + xs.length ≤ arr.length) :
    (xs.foldl
        (fun state x => if x = value then state else (state.1.set state.2 x, state.2 + 1))
        (arr, w)).1.take
      (xs.foldl
        (fun state x => if x = value then state else (state.1.set state.2 x, state.2 + 1))
        (arr, w)).2
      = arr.take w ++ xs.filter (fun x => decide (x ≠ value)) := by
  induction xs generalizing arr w with
  | nil => simp
  | cons x xs ih =>
    rw [List.foldl_cons]
    have hlen : w + xs.length + 1 ≤ arr.length := by simpa [Nat.add_assoc] using h
    by_cases hx : x = value
    · rw [if_pos hx, ih arr w (by omega)]
      simp [hx]
    · rw [if_neg hx, ih (arr.set w x) (w + 1) (by simp; omega),
        take_succ_set arr w x (by omega)]
      simp [hx]

theorem erase_remove_eq_filter {α : Type} [DecidableEq α] (v : List α) (value : α) :
    erase_remove v value = v.filter (fun x => decide (x ≠ value)) := by
  unfold erase_remove std_remove
  rw [std_remove_fold value v v 0 (by simp)]
  simp

/-- Claim C19: for every token list `ts` (and every stopword list and stemmer),
`normalize_all` leaves exactly the non-empty results of `normalize` applied to each
element of `ts`, in the same relative order: `filter (not empty) (map normalize ts)`. -/
theorem normalize_all_eq_filter_map (stopwords : List String)
    (stem : List Char → Int → Int → List Char × Int) (ts : List String) :
    normalize_all stopwords stem ts
      = (ts.map (normalize stopwords stem)).filter (fun s => decide (s ≠ "")) ∧
    (∀ s ∈ normalize_all stopwords stem ts, s ≠ "") ∧
    (normalize_all stopwords stem ts).Sublist (ts.map (normalize stopwords stem)) := by
  have h : normalize_all stopwords stem ts
      = (ts.map (normalize stopwords stem)).filter (fun s => decide (s ≠ "")) := by
    unfold normalize_all
    exact erase_remove_eq_filter _ ""
  refine ⟨h, fun s hs => ?_, ?_⟩
  · rw [h] at hs
    simpa using (List.mem_filter.mp hs).2
  · rw [h]
    exact List.filter_sublist _

theorem map_assign_ne_nil {V : Type} (m : List (String × V)) (k : String) (v : V) :
    map_assign m k v ≠ [] := by
  cases m with
  | nil => simp [map_assign]
  | cons q qs =>
    obtain ⟨k', v'⟩ := q
    simp only [map_assign]
    split <;> simp

theorem map_increment_ne_nil (m : doc_terms) (w : String) : map_increment m w ≠ [] := by
  unfold map_increment
  split <;> exact map_assign_ne_nil _ _ _

theorem count_terms_ne_nil {tokens : List String} (h : tokens ≠ []) :
    count_terms tokens ≠ [] := by
  unfold count_terms
  have hs : std_sort tokens ≠ [] := by
    intro he
    have hp := List.mergeSort_perm tokens (fun a b => decide (a ≤ b))
    unfold std_sort at he
    rw [he] at hp
    exact h (List.Perm.eq_nil hp.symm)
  obtain ⟨init, last, hdecomp⟩ : ∃ init last, std_sort tokens = init ++ [last] :=
    ⟨(std_sort tokens).dropLast, (std_sort tokens).getLast hs,
      (List.dropLast_append_getLast hs).symm⟩
  rw [hdecomp, List.foldl_append, List.foldl_cons, List.foldl_nil]
  exact map_increment_ne_nil _ _

/-- The loop of `normalize_document`, started from the sentences already collected. -/
theorem normalize_document_fold (stopwords : List String)
    (stem : List Char → Int → Int → List Char × Int) (sentences : List String)
    (acc : NormalizedDocument) :
    (sentences.foldl
        (fun norm_doc sentence =>
          let tokens := normalize_all stopwords stem (tokenize sentence)
          if tokens.isEmpty then norm_doc
          else { sentence_term_counts := norm_doc.sentence_term_counts ++ [count_terms tokens] })
        acc).sentence_term_counts
      = acc.sentence_term_counts ++
        ((sentences.map (fun sentence => normalize_all stopwords stem (tokenize sentence))).filter
          (fun tokens => decide (tokens ≠ []))).map count_terms := by
  induction sentences generalizing acc with
  | nil => simp
  | cons s ss ih =>
    rw [List.foldl_cons, ih]
    by_cases he : normalize_all stopwords stem (tokenize s) = []
    · simp [he]
    · have hne : (normalize_all stopwords stem (tokenize s)).isEmpty = false := by
        simpa [List.isEmpty_iff] using he
      simp [he, hne]

/-- Claim C20: for every raw document, `normalize_document` returns, in the order of the
raw sentences, one term-count map for each sentence whose token list after `tokenize`
and `normalize_all` is not empty, and none for the other sentences; the normalized
document has at most as many sentences as the raw one and none of its maps is empty. -/
theorem normalize_document_sentences (stopwords : List String)
    (stem : List Char → Int → Int → List Char × Int) (raw_doc : RawDocument) :
    (normalize_document stopwords stem raw_doc).sentence_term_counts
      = ((raw_doc.sentences.map
            (fun sentence => normalize_all stopwords stem (tokenize sentence))).filter
          (fun tokens => decide (tokens ≠ []))).map count_terms ∧
    (normalize_document stopwords stem raw_doc).sentence_term_counts.length
      ≤ raw_doc.sentences.length ∧
    (normalize_document stopwords stem raw_doc).sentence_term_counts.length
      = (raw_doc.sentences.filter (fun sentence =>
          decide (normalize_all stopwords stem (tokenize sentence) ≠ []))).length ∧
    ∀ m ∈ (normalize_document stopwords stem raw_doc).sentence_term_counts, m ≠ [] := by
  have h : (normalize_document stopwords stem raw_doc).sentence_term_counts
      = ((raw_doc.sentences.map
            (fun sentence => normalize_all stopwords stem (tokenize sentence))).filter
          (fun tokens => decide (tokens ≠ []))).map count_terms := by
    unfold normalize_document
    rw [normalize_document_fold]
    simp
  refine ⟨h, ?_, ?_, ?_⟩
  · rw [h, List.length_map]
    exact (List.length_filter_le _ _).trans (le_of_eq (List.length_map _ _))
  · rw [h, List.length_map, List.filter_map, List.length_map]
    rfl
  · intro m hm
    rw [h] at hm
    obtain ⟨tokens, htok, rfl⟩ := List.mem_map.mp hm
    have hne : tokens ≠ [] := by simpa using (List.mem_filter.mp htok).2
    exact count_terms_ne_nil hne

end normalizer_claims

/-! ### Term counts of a sentence -/

section term_counts

theorem lookup_increment_count (m : doc_terms) (w t : String) :
    (map_increment m w).lookup t
      = if t = w then some ((m.lookup w).getD 0 + 1) else m.lookup t := by
  unfold map_increment
  cases h : m.lookup w with
  | none => simp [lookup_map_assign]
  | some c => simp [lookup_map_assign]

/-- Counting a token list into a map: the count of `t` grows by its number of occurrences. -/
theorem lookup_foldl_count (tokens : List String) (m : doc_terms) (t : String) :
    (tokens.foldl (fun counts term => map_increment counts term) m).lookup t
      = if tokens.count t = 0 then m.lookup t
        else some ((m.lookup t).getD 0 + tokens.count t) := by
  induction tokens generalizing m with
  | nil => simp
  | cons w ws ih =>
    rw [List.foldl_cons, ih, lookup_increment_count]
    by_cases h : t = w
    · subst h
      rw [if_pos rfl, List.count_cons_self]
      by_cases hc : List.count t ws = 0
      · rw [if_pos hc, if_neg (by omega), hc]
      · rw [if_neg hc, if_neg (by omega)]
        simp only [Option.getD_some]
        congr 1
        omega
    · rw [if_neg h, List.count_cons_of_ne h]

theorem sum_values_map_assign (m : doc_terms) (k : String) (v : Nat) :
    ((map_assign m k v).map Prod.snd).sum + (m.lookup k).getD 0
      = (m.map Prod.snd).sum + v := by
  induction m with
  | nil => simp [map_assign]
  | cons q qs ih =>
    obtain ⟨k', v'⟩ := q
    by_cases hk : k' = k
    · subst hk
      simp [map_assign, List.lookup]
      omega
    · have hb : (k == k') = false := by simpa using fun e : k = k' => hk e.symm
      simp only [map_assign, if_neg hk, List.map_cons, List.sum_cons, List.lookup, hb]
      omega

theorem sum_values_map_increment (m : doc_terms) (w : String) :
    ((map_increment m w).map Prod.snd).sum = (m.map Prod.snd).sum + 1 := by
  unfold map_increment
  cases h : m.lookup w with
  | none =>
    have := sum_values_map_assign m w (0 + 1)
    rw [h] at this
    simpa using this
  | some c =>
    have := sum_values_map_assign m w (c + 1)
    rw [h] at this
    simp only [Option.getD_some] at this
    show ((map_assign m w (c + 1)).map Prod.snd).sum = _
    omega

theorem sum_values_foldl_count (tokens : List String) (m : doc_terms) :
    ((tokens.foldl (fun counts term => map_increment counts term) m).map Prod.snd).sum
      = (m.map Prod.snd).sum + tokens.length := by
  induction tokens generalizing m with
  | nil => simp
  | cons w ws ih =>
    rw [List.foldl_cons, ih, sum_values_map_increment, List.length_cons]
    omega

theorem unique_keys_foldl_count (tokens : List String) {m : doc_terms} (h : UniqueKeys m) :
    UniqueKeys (tokens.foldl (fun counts term => map_increment counts term) m) := by
  induction tokens generalizing m with
  | nil => exact h
  | cons w ws ih =>
    rw [List.foldl_cons]
    apply ih
    unfold map_increment
    split <;> exact unique_keys_map_assign h _ _

theorem count_std_sort (tokens : List String) (t : String) :
    (std_sort tokens).count t = tokens.count t :=
  (List.mergeSort_perm tokens _).count_eq t

theorem length_std_sort (tokens : List String) : (std_sort tokens).length = tokens.length :=
  (List.mergeSort_perm tokens _).length_eq

theorem count_terms_unique_keys (tokens : List String) : UniqueKeys (count_terms tokens) :=
  unique_keys_foldl_count _ (by simp [UniqueKeys])

theorem count_terms_lookup (tokens : List String) (t : String) :
    (count_terms tokens).lookup t
      = if tokens.count t = 0 then none else some (tokens.count t) := by
  unfold count_terms
  rw [lookup_foldl_count, count_std_sort]
  simp

theorem count_terms_sum (tokens : List String) :
    ((count_terms tokens).map Prod.snd).sum = tokens.length := by
  unfold count_terms
  rw [sum_values_foldl_count, length_std_sort]
  simp

theorem count_terms_entry (tokens : List String) {p : String × Nat}
    (hp : p ∈ count_terms tokens) : p.2 = tokens.count p.1 ∧ 1 ≤ p.2 := by
  have h := lookup_of_mem_unique (count_terms_unique_keys tokens) hp
  rw [count_terms_lookup] at h
  by_cases hc : tokens.count p.1 = 0
  · rw [if_pos hc] at h
    exact absurd h (by simp)
  · rw [if_neg hc] at h
    have he : tokens.count p.1 = p.2 := Option.some.inj h
    exact ⟨he.symm, by omega⟩

/-- Claim C21: every sentence map produced by `normalize_document` is the term-count map
of the surviving normalized tokens of one raw sentence; its keys are distinct, the count
stored for a term `t` is the number of occurrences of `t` in that token list (terms that do
not occur have no entry), every stored count is at least 1, and the counts of the sentence
sum to the number of its surviving tokens. -/
theorem normalize_document_term_counts (stopwords : List String)
    (stem : List Char → Int → Int → List Char × Int) (raw_doc : RawDocument) :
    ∀ m ∈ (normalize_document stopwords stem raw_doc).sentence_term_counts,
      ∃ sentence ∈ raw_doc.sentences,
        normalize_all stopwords stem (tokenize sentence) ≠ [] ∧
        m = count_terms (normalize_all stopwords stem (tokenize sentence)) ∧
        UniqueKeys m ∧
        (∀ t : String, m.lookup t
          = if (normalize_all stopwords stem (tokenize sentence)).count t = 0 then none
            else some ((normalize_all stopwords stem (tokenize sentence)).count t)) ∧
        (∀ p ∈ m, p.2 = (normalize_all stopwords stem (tokenize sentence)).count p.1 ∧
          1 ≤ p.2) ∧
        (m.map Prod.snd).sum = (normalize_all stopwords stem (tokenize sentence)).length := by
  intro m hm
  have h : (normalize_document stopwords stem raw_doc).sentence_term_counts
      = ((raw_doc.sentences.map
            (fun sentence => normalize_all stopwords stem (tokenize sentence))).filter
          (fun tokens => decide (tokens ≠ []))).map count_terms := by
    unfold normalize_document
    rw [normalize_document_fold]
    simp
  rw [h] at hm
  obtain ⟨tokens, htok, rfl⟩ := List.mem_map.mp hm
  obtain ⟨hmem, hne⟩ := List.mem_filter.mp htok
  obtain ⟨sentence, hs, rfl⟩ := List.mem_map.mp hmem
  refine ⟨sentence, hs, by simpa using hne, rfl, count_terms_unique_keys _,
    count_terms_lookup _, fun p hp => count_terms_entry _ hp, count_terms_sum _⟩

end term_counts

/-! ### `remove_punctuation` -/

section punctuation

theorem mem_stripped_chars (c : Char) :
    stripped_chars.contains c = true ↔
      c = apostrophe ∨ c = double_quote ∨ c = Char.ofNat 44 ∨ c = Char.ofNat 60 ∨
        c = Char.ofNat 62 := by
  simp [stripped_chars]

theorem stripped_not_alnum {c : Char} (h : stripped_chars.contains c = true) :
    c.isAlphanum = false := by
  rcases (mem_stripped_chars c).mp h with h | h | h | h | h <;> subst h <;> decide

theorem replace_then_erase (l : List Char) :
    erase_remove
        (std_replace (std_replace (std_replace (std_replace l double_quote apostrophe)
          (Char.ofNat 44) apostrophe) (Char.ofNat 60) apostrophe) (Char.ofNat 62) apostrophe)
        apostrophe
      = strip_punctuation l := by
  rw [erase_remove_eq_filter]
  unfold strip_punctuation std_replace
  induction l with
  | nil => rfl
  | cons x xs ih =>
    simp only [List.map_cons, List.filter_cons]
    rw [ih]
    by_cases h : stripped_chars.contains x = true
    · rcases (mem_stripped_chars x).mp h with e | e | e | e | e <;> subst e <;> rfl
    · have hx := h
      rw [mem_stripped_chars] at hx
      push_neg at hx
      obtain ⟨h1, h2, h3, h4, h5⟩ := hx
      have hb : stripped_chars.contains x = false := by simpa using h
      have hm : x ∉ stripped_chars := by simpa using h
      simp [h1, h2, h3, h4, h5, hb, hm]

theorem mark_while_eq (l : List Char) :
    mark_while_to_remove l
      = List.replicate (l.takeWhile to_remove).length apostrophe ++ l.dropWhile to_remove := by
  induction l with
  | nil => rfl
  | cons c rest ih =>
    by_cases h : to_remove c = true
    · simp [mark_while_to_remove, h, ih, List.takeWhile_cons, List.dropWhile_cons,
        List.replicate_succ]
    · simp [mark_while_to_remove, h, List.takeWhile_cons, List.dropWhile_cons]

theorem dropWhile_append_fixed {α : Type} (p : α → Bool) (l r : List α)
    (hr : r.dropWhile p = r) : (l ++ r).dropWhile p = l.dropWhile p ++ r := by
  induction l with
  | nil => simpa using hr
  | cons x xs ih =>
    by_cases h : p x = true
    · simp [List.dropWhile_cons, h, ih]
    · simp [List.dropWhile_cons, h]

theorem dropWhile_replicate_apostrophe (k : Nat) :
    (List.replicate k apostrophe).dropWhile to_remove = List.replicate k apostrophe := by
  cases k with
  | zero => rfl
  | succ k =>
    have h : to_remove apostrophe = false := by decide
    simp [List.replicate_succ, List.dropWhile_cons, h]

theorem filter_replicate_apostrophe (k : Nat) :
    (List.replicate k apostrophe).filter (fun x => decide (x ≠ apostrophe)) = [] := by
  induction k with
  | zero => rfl
  | succ k ih => simp [List.replicate_succ, ih]

theorem strip_no_apostrophe {l : List Char} {c : Char} (h : c ∈ strip_punctuation l) :
    c ≠ apostrophe := by
  intro e
  have h2 := (List.mem_filter.mp h).2
  rw [e] at h2
  exact absurd h2 (by decide)

theorem mem_trim_while {p : Char → Bool} {l : List Char} {c : Char}
    (h : c ∈ trim_while p l) : c ∈ l := by
  unfold trim_while at h
  rw [List.mem_reverse] at h
  have h1 := (List.dropWhile_sublist p).subset h
  rw [List.mem_reverse] at h1
  exact (List.dropWhile_sublist p).subset h1

/-- The whole of `remove_punctuation` on the characters of a token: delete the five
characters, then trim what the two marking loops mark. -/
theorem remove_punctuation_data (token : String) :
    (remove_punctuation token).data = trim_while to_remove (strip_punctuation token.data) := by
  unfold remove_punctuation
  simp only [replace_then_erase]
  by_cases he : (strip_punctuation token.data).isEmpty = true
  · rw [if_pos he]
    have : strip_punctuation token.data = [] := List.isEmpty_iff.mp he
    rw [this]
    rfl
  · rw [if_neg he]
    show erase_remove _ apostrophe = _
    rw [erase_remove_eq_filter, List.filter_reverse, mark_while_eq, List.filter_append,
      filter_replicate_apostrophe, List.nil_append, mark_while_eq, List.reverse_append,
      List.reverse_replicate,
      dropWhile_append_fixed _ _ _ (dropWhile_replicate_apostrophe _), List.filter_append,
      filter_replicate_apostrophe, List.append_nil]
    unfold trim_while
    congr 1
    apply List.filter_eq_self.mpr
    intro c hc
    have h1 := (List.dropWhile_sublist to_remove).subset hc
    rw [List.mem_reverse] at h1
    have h2 := (List.dropWhile_sublist to_remove).subset h1
    simpa using strip_no_apostrophe h2

end punctuation

section punctuation_claims

theorem trim_while_decomp (p : Char → Bool) (l : List Char) :
    l = l.takeWhile p ++ trim_while p l ++ ((l.dropWhile p).reverse.takeWhile p).reverse := by
  unfold trim_while
  rw [List.append_assoc, ← List.reverse_append, List.takeWhile_append_dropWhile,
    List.reverse_reverse, List.takeWhile_append_dropWhile]

theorem trim_while_head (p : Char → Bool) (l : List Char) (c : Char)
    (h : (trim_while p l).head? = some c) : p c = false := by
  have hd : l.dropWhile p
      = trim_while p l ++ ((l.dropWhile p).reverse.takeWhile p).reverse := by
    unfold trim_while
    rw [← List.reverse_append, List.takeWhile_append_dropWhile, List.reverse_reverse]
  have h1 : (l.dropWhile p).head? = some c := by
    rw [hd, List.head?_append, h]
    rfl
  have h2 := List.head?_dropWhile_not p l
  rw [h1] at h2
  exact h2

theorem trim_while_last (p : Char → Bool) (l : List Char) (c : Char)
    (h : (trim_while p l).getLast? = some c) : p c = false := by
  unfold trim_while at h
  rw [List.getLast?_reverse] at h
  have h2 := List.head?_dropWhile_not p (l.dropWhile p).reverse
  rw [h] at h2
  exact h2

theorem trim_while_eq_nil_iff (p : Char → Bool) (l : List Char) :
    trim_while p l = [] ↔ ∀ x ∈ l, p x = true := by
  constructor
  · intro h
    have hd := trim_while_decomp p l
    rw [h, List.append_nil] at hd
    intro x hx
    rw [hd] at hx
    rcases List.mem_append.mp hx with hx | hx
    · exact List.mem_takeWhile_imp hx
    · exact List.mem_takeWhile_imp (List.mem_reverse.mp hx)
  · intro h
    unfold trim_while
    rw [List.dropWhile_eq_nil_iff.mpr h]
    rfl

/-- Claim C22: for every token, no character of the string returned by
`remove_punctuation` is an apostrophe, a double quote, a comma, `<` or `>`. -/
theorem remove_punctuation_strips (token : String) :
    ∀ c ∈ (remove_punctuation token).data,
      c ≠ apostrophe ∧ c ≠ double_quote ∧ c ≠ Char.ofNat 44 ∧ c ≠ Char.ofNat 60 ∧
        c ≠ Char.ofNat 62 := by
  intro c hc
  rw [remove_punctuation_data] at hc
  have h1 := (List.mem_filter.mp (mem_trim_while hc)).2
  have h2 : ¬ stripped_chars.contains c = true := by simpa using h1
  rw [mem_stripped_chars] at h2
  push_neg at h2
  exact h2

/-- Claim C23: for every token (the embedding reads an ASCII token character by
character), the string returned by `remove_punctuation` is empty exactly when the token
has no alphanumeric character; when it is not empty its first and its last character are
alphanumeric; and it is the contiguous segment of the token without its apostrophes,
double quotes, commas, `<` and `>` that is left after a prefix and a suffix of
non-alphanumeric characters, so the characters between the first and the last
alphanumeric one are kept unchanged and in order. -/
theorem remove_punctuation_trims (token : String) :
    ((remove_punctuation token).data = [] ↔ ∀ c ∈ token.data, c.isAlphanum = false) ∧
    (∀ c, (remove_punctuation token).data.head? = some c → c.isAlphanum = true) ∧
    (∀ c, (remove_punctuation token).data.getLast? = some c → c.isAlphanum = true) ∧
    ∃ pre suf : List Char,
      strip_punctuation token.data = pre ++ (remove_punctuation token).data ++ suf ∧
      (∀ c ∈ pre, c.isAlphanum = false) ∧ (∀ c ∈ suf, c.isAlphanum = false) := by
  have hrem : ∀ c : Char, to_remove c = true → c.isAlphanum = false := by
    intro c h
    simp only [to_remove, Bool.and_eq_true, Bool.not_eq_true'] at h
    exact h.2
  have hkeep : ∀ c ∈ (remove_punctuation token).data, to_remove c = false →
      c.isAlphanum = true := by
    intro c hc h
    rw [remove_punctuation_data] at hc
    have hne : c ≠ apostrophe := strip_no_apostrophe (mem_trim_while hc)
    simp only [to_remove, Bool.and_eq_false_imp, bne_iff_ne, ne_eq, Bool.not_eq_false'] at h
    exact h hne
  refine ⟨?_, ?_, ?_, ?_⟩
  · rw [remove_punctuation_data, trim_while_eq_nil_iff]
    constructor
    · intro h c hc
      by_cases hs : stripped_chars.contains c = true
      · exact stripped_not_alnum hs
      · exact hrem c (h c (List.mem_filter.mpr ⟨hc, by simpa using hs⟩))
    · intro h c hc
      have hne : c ≠ apostrophe := strip_no_apostrophe hc
      have ha := h c (List.mem_filter.mp hc).1
      simp [to_remove, hne, ha]
  · intro c hc
    refine hkeep c (List.mem_of_mem_head? hc) ?_
    rw [remove_punctuation_data] at hc
    exact trim_while_head _ _ c hc
  · intro c hc
    refine hkeep c (List.mem_of_getLast?_eq_some hc) ?_
    rw [remove_punctuation_data] at hc
    exact trim_while_last _ _ c hc
  · refine ⟨(strip_punctuation token.data).takeWhile to_remove,
      (((strip_punctuation token.data).dropWhile to_remove).reverse.takeWhile
        to_remove).reverse, ?_, ?_, ?_⟩
    · rw [remove_punctuation_data]
      exact trim_while_decomp _ _
    · intro c hc
      exact hrem c (List.mem_takeWhile_imp hc)
    · intro c hc
      exact hrem c (List.mem_takeWhile_imp (List.mem_reverse.mp hc))

end punctuation_claims

/-! ### `normalize` -/

section normalize_claims

/-- Claim C24: for every token and every stopword set, when the token after
`remove_punctuation` and lower-casing is a stopword, `normalize` returns the empty string
whatever the stemmer is (the stemmer is not consulted); otherwise it returns the first
`word_end + 1` characters of the buffer the stemmer was given, `word_end` being the index
the stemmer returned, and this is a prefix of the lower-cased, punctuation-stripped token
when the stemmer leaves the characters of its buffer in place. -/
theorem normalize_stopword_or_stem (stopwords : List String)
    (stem : List Char → Int → Int → List Char × Int) (token : String) :
    (String.mk (lowered token) ∈ stopwords →
      ∀ stem2 : List Char → Int → Int → List Char × Int,
        normalize stopwords stem2 token = "") ∧
    (String.mk (lowered token) ∉ stopwords →
      normalize stopwords stem token
        = String.mk
            ((stem (lowered token) 0 (((lowered token).length : Int) - 1)).1.take
              ((((stem (lowered token) 0 (((lowered token).length : Int) - 1)).2
                  % 2 ^ 64).toNat + 1) % 2 ^ 64)) ∧
      ((stem (lowered token) 0 (((lowered token).length : Int) - 1)).1 = lowered token →
        (normalize stopwords stem token).data <+: lowered token)) := by
  constructor
  · intro h stem2
    have hs : is_stopword stopwords (String.mk (lowered token)) = true := by
      simpa [is_stopword] using h
    unfold normalize
    exact if_pos hs
  · intro h
    have hs : ¬ is_stopword stopwords (String.mk (lowered token)) = true := by
      simpa [is_stopword] using h
    have heq : normalize stopwords stem token
        = String.mk
            ((stem (lowered token) 0 (((lowered token).length : Int) - 1)).1.take
              ((((stem (lowered token) 0 (((lowered token).length : Int) - 1)).2
                  % 2 ^ 64).toNat + 1) % 2 ^ 64)) := by
      unfold normalize
      exact if_neg hs
    refine ⟨heq, fun hbuf => ?_⟩
    rw [heq, hbuf]
    exact List.take_prefix _ _

end normalize_claims

/-! ### The documented formula of `markov_chain_mat` -/

section damping_formula

variable {K : Type} [LinearOrderedField K]

theorem column_normalized_eq_base {adj : Matrix Nat} {n : Nat} (h : IsAdjacency adj n)
    {i j : Nat} (hi : i < n) (hj : j < n) :
    (column_normalized adj i j : K) = base adj i j := by
  unfold column_normalized base
  rw [colsum_eq_degree h hj]
  rcases h.2.1 i hi j hj with h0 | h1
  · rw [h0, if_neg (by decide)]
    simp
  · rw [h1, if_pos rfl]
    simp

/-- Claim C25 as found in the code: for every `N × N` 0/1 adjacency matrix with all-1
diagonal and every damping factor `d`, entry `(i, j)` of `markov_chain_mat adj d` is entry
`(i, j)` of `(d/N) J + (1 - d) X`, where `X` is the column-normalized adjacency matrix
and `J` is the all-ones matrix; it equals the entry of `(d/N) I + (1 - d) X`, `I` the
identity, exactly when `i = j` or `d = 0`. -/
theorem markov_chain_mat_all_ones_formula {adj : Matrix Nat} {n : Nat}
    (h : IsAdjacency adj n) (d : K) {i j : Nat} (hi : i < n) (hj : j < n) :
    (markov_chain_mat adj d).get i j = all_ones_formula adj d i j ∧
    ((markov_chain_mat adj d).get i j = documented_formula adj d i j ↔ (i = j ∨ d = 0)) := by
  have hrows : adj.rows = n := h.1.1
  have hn : (n : K) ≠ 0 := by
    have : 0 < n := by omega
    exact_mod_cast this.ne'
  have hget : (markov_chain_mat adj d).get i j = all_ones_formula adj d i j := by
    rw [markov_chain_mat_get_base h d hi hj]
    unfold all_ones_formula
    rw [column_normalized_eq_base h hi hj, hrows]
    ring
  refine ⟨hget, ?_⟩
  rw [hget]
  unfold all_ones_formula documented_formula identity_entry
  rw [hrows]
  by_cases hij : i = j
  · simp [hij]
  · rw [if_neg hij]
    simp only [hij, false_or, mul_one, mul_zero, zero_add, add_left_eq_self]
    constructor
    · intro hd
      rcases div_eq_zero_iff.mp hd with h0 | h0
      · exact h0
      · exact absurd h0 hn
    · intro hd
      rw [hd, zero_div]

/-- Witness of C25 at entry `(0, 1)` of the transition matrix of `sample_adj`. -/
theorem markov_chain_mat_all_ones_formula_witness :
    IsAdjacency sample_adj 3 ∧ 0 < 3 ∧ 1 < 3 ∧
    ((markov_chain_mat sample_adj (15 / 100 : ℚ)).get 0 1
        = all_ones_formula sample_adj (15 / 100 : ℚ) 0 1 ∧
    ((markov_chain_mat sample_adj (15 / 100 : ℚ)).get 0 1
        = documented_formula sample_adj (15 / 100 : ℚ) 0 1 ↔ (0 = 1 ∨ (15 / 100 : ℚ) = 0))) :=
  ⟨by decide, by decide, by decide,
    markov_chain_mat_all_ones_formula (n := 3) (by decide) (15 / 100 : ℚ) (by decide)
      (by decide)⟩

/-- On the 0/1 matrix `sample_adj` with all-1 diagonal and `d = 0.15`, entry `(2, 0)` of
`markov_chain_mat` is `0.05`, while the formula with the identity matrix gives `0`. -/
theorem markov_chain_mat_identity_counterexample :
    IsAdjacency sample_adj 3 ∧
    (markov_chain_mat sample_adj (15 / 100 : ℚ)).get 2 0 = 1 / 20 ∧
    documented_formula sample_adj (15 / 100 : ℚ) 2 0 = 0 ∧
    (markov_chain_mat sample_adj (15 / 100 : ℚ)).get 2 0
      ≠ documented_formula sample_adj (15 / 100 : ℚ) 2 0 := by
  have hadj : IsAdjacency sample_adj 3 := by decide
  have hg : sample_adj.get 2 0 = 0 := by decide
  have h1 : (markov_chain_mat sample_adj (15 / 100 : ℚ)).get 2 0 = 1 / 20 := by
    rw [markov_chain_mat_get_base hadj _ (by decide) (by decide)]
    unfold base
    rw [hg, if_neg (by decide)]
    norm_num
  have h2 : documented_formula sample_adj (15 / 100 : ℚ) 2 0 = 0 := by
    unfold documented_formula identity_entry column_normalized
    rw [hg, if_neg (by decide)]
    norm_num
  refine ⟨hadj, h1, h2, ?_⟩
  rw [h1, h2]
  norm_num

end damping_formula

/-! ### The ranking comparator of `print_summary` -/

section comparator

variable {K : Type} [LinearOrderedField K]

/-- Claim C26: the comparator of `print_summary` is not a strict weak ordering: it holds
of every pair with itself, it holds in both directions for any two entries with equal
scores, whatever their sentence indices, so ties are not decided by the index. -/
theorem print_summary_comp_not_strict_weak :
    (∀ a : K × Int, print_summary_comp a a = true) ∧
    (∀ a b : K × Int, a.1 = b.1 →
      print_summary_comp a b = true ∧ print_summary_comp b a = true) ∧
    (∀ (score : K) (i j : Int),
      print_summary_comp (score, i) (score, j) = print_summary_comp (score, j) (score, i)) ∧
    ¬ IsStrictWeakOrdering (print_summary_comp : K × Int → K × Int → Bool) := by
  have hrefl : ∀ a : K × Int, print_summary_comp a a = true := by
    intro a
    simp [print_summary_comp]
  refine ⟨hrefl, ?_, ?_, ?_⟩
  · intro a b h
    simp [print_summary_comp, h]
  · intro score i j
    rfl
  · intro h
    have h1 := h.1 ((0 : K), (0 : Int))
    rw [hrefl] at h1
    exact absurd h1 (by decide)

end comparator

/-! ### The file filter of `get_data_file_list` -/

section file_filter

/-- Claim C27, as the code behaves: the filter of `get_data_file_list` selects every name
of exactly three characters, none of which ends with `.txt` (`find` returns `npos` and
`size() - 4` wraps around to the same value), and it rejects `a.txt.txt`, which ends with
`.txt` (`find` returns the first occurrence, at position 1, not `size() - 4 = 5`). -/
theorem is_data_file_not_ends_with :
    (∀ a b c : Char, is_data_file (String.mk [a, b, c]) = true ∧
      ends_with (String.mk [a, b, c]) DOCUMENT_EXTENSION = false) ∧
    is_data_file "abc" = true ∧ ends_with "abc" DOCUMENT_EXTENSION = false ∧
    is_data_file "a.txt.txt" = false ∧ ends_with "a.txt.txt" DOCUMENT_EXTENSION = true ∧
    is_data_file "a.txt" = true ∧ ends_with "a.txt" DOCUMENT_EXTENSION = true := by
  refine ⟨?_, ?_, by decide, ?_, by decide, ?_, by decide⟩
  · intro a b c
    have hfind : string_find (String.mk [a, b, c]) DOCUMENT_EXTENSION = npos := by
      simp [string_find, string_find_from, DOCUMENT_EXTENSION, List.isPrefixOf]
    have hsize : ((String.mk [a, b, c]).length + 2 ^ 64 - DOCUMENT_EXTENSION.length) % 2 ^ 64
        = npos := by
      have h1 : (String.mk [a, b, c]).length = 3 := rfl
      have h2 : DOCUMENT_EXTENSION.length = 4 := rfl
      rw [h1, h2]
      unfold npos
      norm_num
    constructor
    · unfold is_data_file
      rw [hfind, hsize]
      exact beq_self_eq_true _
    · simp [ends_with, DOCUMENT_EXTENSION, List.isSuffixOf, List.isPrefixOf]
  · simp [is_data_file, string_find, string_find_from, DOCUMENT_EXTENSION, npos, String.length]
  · simp [is_data_file, string_find, string_find_from, DOCUMENT_EXTENSION, npos, String.length]
  · simp [is_data_file, string_find, string_find_from, DOCUMENT_EXTENSION, npos, String.length]

end file_filter

/-! ### Symmetry of `cosine_sim` -/

section symmetry

variable {K : Type} [LinearOrderedField K]

/-- Claim C28: for all tf-idf vectors `vec1` and `vec2` (maps with pairwise distinct keys),
`cosine_sim vec1 vec2 = cosine_sim vec2 vec1`, although the loop runs over the terms of
the first argument only; hence in every list of vectors where `vec1` stands at index `i`
and `vec2` at a different index `j`, on either side of `i`, entry `(i, j)` of
`build_adjacency_matrix` follows the threshold rule on `cosine_sim vec1 vec2`. -/
theorem cosine_sim_symmetric (sqrt : K → K) (vec1 vec2 : TfIdfMap K) (h1 : UniqueKeys vec1)
    (h2 : UniqueKeys vec2) :
    cosine_sim sqrt vec1 vec2 = cosine_sim sqrt vec2 vec1 ∧
    ∀ (tfidf_maps : List (TfIdfMap K)) (i j : Nat), i < tfidf_maps.length →
      j < tfidf_maps.length → i ≠ j → tfidf_maps.getD i [] = vec1 →
      tfidf_maps.getD j [] = vec2 →
      (build_adjacency_matrix sqrt tfidf_maps).get i j
        = if (cosine_sim sqrt vec1 vec2).ge LexrankEdgeThreshold = true then 1 else 0 := by
  have hsym := cosine_sim_comm sqrt vec1 vec2 h1 h2
  refine ⟨hsym, ?_⟩
  intro tfidf_maps i j hi hj hij hv1 hv2
  rw [build_adjacency_matrix_get sqrt tfidf_maps hi hj]
  have e1 : edge sqrt tfidf_maps i j = (cosine_sim sqrt vec1 vec2).ge LexrankEdgeThreshold := by
    unfold edge
    rw [hv1, hv2]
  have e2 : edge sqrt tfidf_maps j i = (cosine_sim sqrt vec1 vec2).ge LexrankEdgeThreshold := by
    unfold edge
    rw [hv1, hv2, hsym]
  rw [e1, e2]
  by_cases hc : (cosine_sim sqrt vec1 vec2).ge LexrankEdgeThreshold = true
  · rw [if_pos hc, if_pos]
    rcases Nat.lt_or_gt_of_ne hij with hlt | hgt
    · exact Or.inr (Or.inl ⟨hlt, hc⟩)
    · exact Or.inr (Or.inr ⟨hgt, hc⟩)
  · rw [if_neg hc, if_neg]
    rintro (h | h | h)
    · exact hij h
    · exact hc h.2
    · exact hc h.2

/-- Witness of C28 on two vectors of `sample_maps` that share the term `cat`. -/
theorem cosine_sim_symmetric_witness :
    UniqueKeys ([("cat", 1)] : TfIdfMap ℚ) ∧
    UniqueKeys ([("cat", 2), ("dog", 1)] : TfIdfMap ℚ) ∧
    cosine_sim id ([("cat", 1)] : TfIdfMap ℚ) [("cat", 2), ("dog", 1)]
      = cosine_sim id ([("cat", 2), ("dog", 1)] : TfIdfMap ℚ) [("cat", 1)] :=
  ⟨by decide, by decide,
    (cosine_sim_symmetric id [("cat", 1)] [("cat", 2), ("dog", 1)] (by decide) (by decide)).1⟩

end symmetry

/-! ### A lower bound for the scores -/

section lower_bound

variable {K : Type} [LinearOrderedField K]

theorem markov_get_lower_bound {adj : Matrix Nat} {n : Nat} (h : IsAdjacency adj n) {d : K}
    (hd0 : 0 ≤ d) (hd1 : d ≤ 1) {i j : Nat} (hi : i < n) (hj : j < n) :
    d / (n : K) ≤ (markov_chain_mat adj d).get i j := by
  rw [markov_chain_mat_get_base h d hi hj]
  have hb : (0 : K) ≤ base adj i j := base_nonneg adj i j
  have hm : 0 ≤ (1 - d) * base adj i j := mul_nonneg (by linarith) hb
  have hdn : 0 ≤ d / (n : K) := by positivity
  linarith

/-- Every iterate of the power iteration has all its entries at least `d / n`. -/
theorem iterate_lower_bound {adj : Matrix Nat} {n : Nat} (h : IsAdjacency adj n) (hn : 0 < n)
    {d : K} (hd0 : 0 ≤ d) (hd1 : d ≤ 1) (t : Nat) :
    ∀ i, i < n → d / (n : K) ≤ (iterate_dist (markov_chain_mat adj d) (initial_dist n) t).get i := by
  cases t with
  | zero =>
    intro i hi
    show d / (n : K) ≤ (initial_dist n : Vector K).get i
    rw [initial_dist_get n hi]
    have hpos : (0 : K) < n := by exact_mod_cast hn
    exact div_le_div_of_nonneg_right hd1 hpos.le
  | succ t =>
    intro i hi
    rw [iterate_dist_succ, markov_mulVec_get h d _ hi]
    calc d / (n : K)
        = ∑ j in Finset.range n, d / (n : K)
            * (iterate_dist (markov_chain_mat adj d) (initial_dist n) t).get j := by
          rw [← Finset.mul_sum, iterate_sum h hn d t, mul_one]
      _ ≤ _ := Finset.sum_le_sum (fun j hj =>
          mul_le_mul_of_nonneg_right
            (markov_get_lower_bound h hd0 hd1 hi (Finset.mem_range.mp hj))
            (iterate_nonneg h hd0 hd1 t j (Finset.mem_range.mp hj)))

theorem damping_factor_bounds : (0 : K) ≤ DampingFactor ∧ (DampingFactor : K) ≤ 1 := by
  unfold DampingFactor
  constructor <;> norm_num

theorem lexrank_iterate_lower_bound (sqrt : K → K) (tfidf_maps : List (TfIdfMap K))
    (hn : 0 < tfidf_maps.length) (t : Nat) :
    ∀ i, i < tfidf_maps.length →
      DampingFactor / (tfidf_maps.length : K)
        ≤ (iterate_dist (lexrank_trans_mat sqrt tfidf_maps)
            (initial_dist tfidf_maps.length) t).get i :=
  iterate_lower_bound (build_adjacency_matrix_isAdjacency sqrt tfidf_maps) hn
    damping_factor_bounds.1 damping_factor_bounds.2 t

/-- Claim C29: for every normalized document with `N >= 1` sentences whose terms all occur
in the idf table, `lexrank` returns a score vector (with enough fuel), every entry of every
vector it returns is at least `0.15 / N` and so strictly positive, and every iterate of
the power iteration sums to 1 and has all its entries at least `DampingFactor / N`. -/
theorem lexrank_scores_lower_bound (sqrt log10 : K → K) (norm_doc : NormalizedDocument)
    (idf_scores : List (String × K)) (hknown : AllTermsKnown norm_doc idf_scores)
    (hN : 1 ≤ norm_doc.sentence_term_counts.length) :
    (∃ fuel r, lexrank sqrt log10 fuel norm_doc idf_scores = Except.ok r) ∧
    (∀ fuel r, lexrank sqrt log10 fuel norm_doc idf_scores = Except.ok r →
      ∀ x ∈ r, (15 / 100 : K) / (norm_doc.sentence_term_counts.length : K) ≤ x ∧ 0 < x) ∧
    (∀ tfidf_maps, tf_idf_maps log10 norm_doc idf_scores = Except.ok tfidf_maps → ∀ t,
      (∑ i in Finset.range norm_doc.sentence_term_counts.length,
        (iterate_dist (lexrank_trans_mat sqrt tfidf_maps)
          (initial_dist tfidf_maps.length) t).get i) = 1 ∧
      ∀ i, i < norm_doc.sentence_term_counts.length →
        DampingFactor / (norm_doc.sentence_term_counts.length : K)
          ≤ (iterate_dist (lexrank_trans_mat sqrt tfidf_maps)
              (initial_dist tfidf_maps.length) t).get i) := by
  obtain ⟨maps0, hmaps0, hlen0⟩ := tf_idf_maps_ok log10 norm_doc idf_scores hknown
  have hlen : ∀ tfidf_maps, tf_idf_maps log10 norm_doc idf_scores = Except.ok tfidf_maps →
      tfidf_maps.length = norm_doc.sentence_term_counts.length := by
    intro tfidf_maps hm
    rw [hmaps0] at hm
    cases hm
    exact hlen0
  have hiter : ∀ tfidf_maps, tf_idf_maps log10 norm_doc idf_scores = Except.ok tfidf_maps →
      ∀ t,
      (∑ i in Finset.range norm_doc.sentence_term_counts.length,
        (iterate_dist (lexrank_trans_mat sqrt tfidf_maps)
          (initial_dist tfidf_maps.length) t).get i) = 1 ∧
      ∀ i, i < norm_doc.sentence_term_counts.length →
        DampingFactor / (norm_doc.sentence_term_counts.length : K)
          ≤ (iterate_dist (lexrank_trans_mat sqrt tfidf_maps)
              (initial_dist tfidf_maps.length) t).get i := by
    intro tfidf_maps hm t
    have hl := hlen tfidf_maps hm
    have hn : 0 < tfidf_maps.length := by omega
    have h1 := lexrank_iterate_sum sqrt tfidf_maps hn t
    have h2 := lexrank_iterate_lower_bound sqrt tfidf_maps hn t
    rw [← hl]
    exact ⟨h1, h2⟩
  refine ⟨?_, ?_, hiter⟩
  · obtain ⟨tfidf_maps, t, -, -, -, -, hrun⟩ :=
      lexrank_total sqrt log10 norm_doc idf_scores hknown hN
    exact ⟨t + 1, _, hrun (t + 1) (Nat.lt_succ_self t)⟩
  · intro fuel r hr x hx
    obtain ⟨tfidf_maps, lexrank_dist, hm, hpow, rfl⟩ :=
      lexrank_eq_ok sqrt log10 fuel norm_doc idf_scores r hr
    obtain ⟨t, -, hdist, -, -⟩ := (power_iteration_eq_some_iff _ _ _ _).mp hpow
    have hl := hlen tfidf_maps hm
    have hshape := lexrank_iterate_shape sqrt tfidf_maps (t + 1)
    rw [hdist] at hx
    unfold to_std_vector at hx
    obtain ⟨i, hi, rfl⟩ := List.mem_map.mp hx
    rw [List.mem_range, Vector.size, hshape.1, hl] at hi
    have hb := (hiter tfidf_maps hm (t + 1)).2 i hi
    have hpos : (0 : K) < (norm_doc.sentence_term_counts.length : K) := by
      exact_mod_cast (show 0 < norm_doc.sentence_term_counts.length by omega)
    have hd : (DampingFactor : K) = 15 / 100 := rfl
    rw [hd] at hb
    exact ⟨hb, lt_of_lt_of_le (by positivity) hb⟩

/-- Witness of C29 on the three-sentence sample document. -/
theorem lexrank_scores_lower_bound_witness :
    AllTermsKnown sample_doc sample_idf ∧ 1 ≤ sample_doc.sentence_term_counts.length ∧
    ((∃ fuel r, lexrank id id fuel sample_doc sample_idf = Except.ok r) ∧
    (∀ fuel r, lexrank id id fuel sample_doc sample_idf = Except.ok r →
      ∀ x ∈ r, (15 / 100 : ℚ) / (sample_doc.sentence_term_counts.length : ℚ) ≤ x ∧ 0 < x)) :=
  ⟨by decide, by decide,
    (lexrank_scores_lower_bound id id sample_doc sample_idf (by decide) (by decide)).1,
    (lexrank_scores_lower_bound id id sample_doc sample_idf (by decide) (by decide)).2.1⟩

end lower_bound

/-! ### The range of `cosine_sim` -/

section cosine_range

variable {K : Type} [LinearOrderedField K]

theorem weight_of_nonneg {vec : TfIdfMap K} (h : ∀ p ∈ vec, 0 ≤ p.2) (term : String) :
    0 ≤ weight_of vec term := by
  by_cases hm : term ∈ vec.map Prod.fst
  · obtain ⟨p, hp, rfl⟩ := List.mem_map.mp hm
    unfold weight_of
    cases hl : vec.lookup p.1 with
    | none => exact le_refl 0
    | some v =>
      have hin : (p.1, v) ∈ vec := by
        clear h hm hp
        induction vec with
        | nil => simp at hl
        | cons q qs ih =>
          obtain ⟨k, y⟩ := q
          by_cases hk : p.1 = k
          · have hb : (p.1 == k) = true := by simpa using hk
            simp only [List.lookup, hb] at hl
            cases hl
            rw [hk]
            exact List.mem_cons_self _ _
          · have hb : (p.1 == k) = false := by simpa using hk
            simp only [List.lookup, hb] at hl
            exact List.mem_cons_of_mem _ (ih hl)
      exact h _ hin
  · rw [weight_of_not_mem hm]

theorem sum_squares_eq_keys_sum {vec : TfIdfMap K} (h : UniqueKeys vec) :
    (vec.map (fun p => p.2 ^ 2)).sum
      = ∑ t in (vec.map Prod.fst).toFinset, weight_of vec t ^ 2 := by
  rw [List.sum_toFinset _ h, List.map_map]
  congr 1
  apply List.map_congr_left
  intro p hp
  show p.2 ^ 2 = weight_of vec p.1 ^ 2
  rw [weight_of_mem h hp]

/-- The inequality of Cauchy and Schwarz for the numerator of `cosine_sim`. -/
theorem cosine_dot_sq_le (vec1 vec2 : TfIdfMap K) (h1 : UniqueKeys vec1)
    (h2 : UniqueKeys vec2) :
    cosine_dot vec1 vec2 ^ 2
      ≤ (vec1.map (fun p => p.2 ^ 2)).sum * (vec2.map (fun p => p.2 ^ 2)).sum := by
  rw [cosine_dot_eq_shared_sum vec1 vec2 h1, sum_squares_eq_keys_sum h1,
    sum_squares_eq_keys_sum h2]
  refine le_trans (Finset.sum_mul_sq_le_sq_mul_sq _ _ _) ?_
  apply mul_le_mul
  · exact Finset.sum_le_sum_of_subset_of_nonneg Finset.inter_subset_left
      (fun t _ _ => sq_nonneg _)
  · exact Finset.sum_le_sum_of_subset_of_nonneg Finset.inter_subset_right
      (fun t _ _ => sq_nonneg _)
  · exact Finset.sum_nonneg (fun t _ => sq_nonneg _)
  · exact Finset.sum_nonneg (fun t _ => sq_nonneg _)

theorem mem_map_assign_value {V : Type} (m : List (String × V)) (k : String) (v : V)
    {q : String × V} (hq : q ∈ map_assign m k v) : q.2 = v ∨ q ∈ m := by
  induction m with
  | nil =>
    simp only [map_assign, List.mem_singleton] at hq
    exact Or.inl (by rw [hq])
  | cons p ps ih =>
    obtain ⟨k2, v2⟩ := p
    by_cases hk : k2 = k
    · simp only [map_assign, if_pos hk, List.mem_cons] at hq
      rcases hq with hq | hq
      · exact Or.inl (by rw [hq])
      · exact Or.inr (List.mem_cons_of_mem _ hq)
    · simp only [map_assign, if_neg hk, List.mem_cons] at hq
      rcases hq with hq | hq
      · exact Or.inr (by rw [hq]; exact List.mem_cons_self _ _)
      · rcases ih hq with h | h
        · exact Or.inl h
        · exact Or.inr (List.mem_cons_of_mem _ h)

theorem tf_idf_fold_nonneg (log10 : K → K) (idf_scores : List (String × K))
    (hlog : ∀ c : Nat, 1 ≤ c → 0 ≤ log10 (c : K)) (hidf : ∀ e ∈ idf_scores, 0 ≤ e.2)
    (sentence : doc_terms) (back : TfIdfMap K) (hback : ∀ q ∈ back, 0 ≤ q.2) :
    ∀ q ∈ sentence.foldl (tf_idf_step log10 idf_scores) back, 0 ≤ q.2 := by
  induction sentence generalizing back with
  | nil => exact hback
  | cons p ps ih =>
    rw [List.foldl_cons]
    apply ih
    intro q hq
    unfold tf_idf_step at hq
    split at hq
    · rcases mem_map_assign_value _ _ _ hq with h | h
      · rw [h]
        unfold tf_idf_weight
        apply mul_nonneg
        · split
          · rename_i hc
            have := hlog p.2 hc
            linarith
          · exact le_refl 0
        · exact weight_of_nonneg hidf _
      · exact hback q h
    · exact hback q hq

/-- The weights that `tf_idf_maps` stores are not negative when the idf scores are not
negative and `log10` is not negative at the counts, all at least 1. -/
theorem tf_idf_maps_nonneg (log10 : K → K) (norm_doc : NormalizedDocument)
    (idf_scores : List (String × K)) (hlog : ∀ c : Nat, 1 ≤ c → 0 ≤ log10 (c : K))
    (hidf : ∀ e ∈ idf_scores, 0 ≤ e.2) (tfidf_maps : List (TfIdfMap K))
    (hmaps : tf_idf_maps log10 norm_doc idf_scores = Except.ok tfidf_maps) :
    ∀ m ∈ tfidf_maps, ∀ q ∈ m, 0 ≤ q.2 := by
  rcases tf_idf_maps_cases log10 norm_doc idf_scores with ⟨-, h⟩ | ⟨s, -, p, -, -, h⟩
  · rw [h] at hmaps
    cases hmaps
    intro m hm
    obtain ⟨sentence, -, rfl⟩ := List.mem_map.mp hm
    exact tf_idf_fold_nonneg log10 idf_scores hlog hidf sentence [] (by simp)
  · rw [h] at hmaps
    cases hmaps

/-- Claim C30: for all tf-idf vectors `vec1` and `vec2` (maps with pairwise distinct keys)
with non-zero Euclidean lengths, `sqrt` being a square root at the two sums of squares,
`cosine_sim vec1 vec2` is a finite number `q` with `|q| <= 1`; when moreover the two
square roots and all weights are non-negative, `0 <= q <= 1`; and the weights stored by
`tf_idf_maps` are non-negative for a non-negative idf table and a `log10` that is
non-negative at the counts. -/
theorem cosine_sim_bounded (sqrt : K → K) (vec1 vec2 : TfIdfMap K) (h1 : UniqueKeys vec1)
    (h2 : UniqueKeys vec2)
    (hs1 : sqrt ((vec1.map (fun p => p.2 ^ 2)).sum) * sqrt ((vec1.map (fun p => p.2 ^ 2)).sum)
      = (vec1.map (fun p => p.2 ^ 2)).sum)
    (hs2 : sqrt ((vec2.map (fun p => p.2 ^ 2)).sum) * sqrt ((vec2.map (fun p => p.2 ^ 2)).sum)
      = (vec2.map (fun p => p.2 ^ 2)).sum)
    (hlen1 : euc_len sqrt vec1 ≠ 0) (hlen2 : euc_len sqrt vec2 ≠ 0) :
    (∃ q, cosine_sim sqrt vec1 vec2 = DivResult.finite q ∧ |q| ≤ 1 ∧
      (0 ≤ euc_len sqrt vec1 → 0 ≤ euc_len sqrt vec2 → (∀ p ∈ vec1, 0 ≤ p.2) →
        (∀ p ∈ vec2, 0 ≤ p.2) → 0 ≤ q ∧ q ≤ 1)) ∧
    (∀ (log10 : K → K) (norm_doc : NormalizedDocument) (idf_scores : List (String × K))
      (tfidf_maps : List (TfIdfMap K)),
      (∀ c : Nat, 1 ≤ c → 0 ≤ log10 (c : K)) → (∀ e ∈ idf_scores, 0 ≤ e.2) →
      tf_idf_maps log10 norm_doc idf_scores = Except.ok tfidf_maps →
      ∀ m ∈ tfidf_maps, ∀ q ∈ m, 0 ≤ q.2) := by
  refine ⟨?_, fun log10 norm_doc idf_scores tfidf_maps hlog hidf hmaps =>
    tf_idf_maps_nonneg log10 norm_doc idf_scores hlog hidf tfidf_maps hmaps⟩
  have hne : euc_len sqrt vec1 * euc_len sqrt vec2 ≠ 0 := mul_ne_zero hlen1 hlen2
  have he1 : euc_len sqrt vec1 * euc_len sqrt vec1 = (vec1.map (fun p => p.2 ^ 2)).sum := by
    rw [euc_len_eq_spec]
    exact hs1
  have he2 : euc_len sqrt vec2 * euc_len sqrt vec2 = (vec2.map (fun p => p.2 ^ 2)).sum := by
    rw [euc_len_eq_spec]
    exact hs2
  have hsq : cosine_dot vec1 vec2 ^ 2 ≤ (euc_len sqrt vec1 * euc_len sqrt vec2) ^ 2 := by
    have := cosine_dot_sq_le vec1 vec2 h1 h2
    rw [← he1, ← he2] at this
    calc cosine_dot vec1 vec2 ^ 2
        ≤ euc_len sqrt vec1 * euc_len sqrt vec1 * (euc_len sqrt vec2 * euc_len sqrt vec2) := this
      _ = (euc_len sqrt vec1 * euc_len sqrt vec2) ^ 2 := by ring
  have habs : |cosine_dot vec1 vec2| ≤ |euc_len sqrt vec1 * euc_len sqrt vec2| :=
    sq_le_sq.mp hsq
  have hq : |cosine_dot vec1 vec2 / (euc_len sqrt vec1 * euc_len sqrt vec2)| ≤ 1 := by
    rw [abs_div]
    exact div_le_one_of_le₀ habs (abs_nonneg _)
  refine ⟨cosine_dot vec1 vec2 / (euc_len sqrt vec1 * euc_len sqrt vec2), ?_, hq, ?_⟩
  · unfold cosine_sim fdiv
    rw [if_neg hne]
  · intro hp1 hp2 hw1 hw2
    refine ⟨?_, (abs_le.mp hq).2⟩
    apply div_nonneg _ (mul_nonneg hp1 hp2)
    rw [cosine_dot_eq_sum]
    apply List.sum_nonneg
    intro x hx
    obtain ⟨p, hp, rfl⟩ := List.mem_map.mp hx
    exact mul_nonneg (hw1 p hp) (weight_of_nonneg hw2 _)

/-- Witness of C30 on two unit vectors over `ℚ` that share the term `cat`. -/
theorem cosine_sim_bounded_witness :
    UniqueKeys ([("cat", 3 / 5), ("dog", 4 / 5)] : TfIdfMap ℚ) ∧
    UniqueKeys ([("cat", 4 / 5), ("ran", 3 / 5)] : TfIdfMap ℚ) ∧
    euc_len id ([("cat", 3 / 5), ("dog", 4 / 5)] : TfIdfMap ℚ) ≠ 0 ∧
    euc_len id ([("cat", 4 / 5), ("ran", 3 / 5)] : TfIdfMap ℚ) ≠ 0 ∧
    ∃ q, cosine_sim id ([("cat", 3 / 5), ("dog", 4 / 5)] : TfIdfMap ℚ)
        [("cat", 4 / 5), ("ran", 3 / 5)] = DivResult.finite q ∧ |q| ≤ 1 :=
  ⟨by decide, by decide, by norm_num [euc_len], by norm_num [euc_len],
    (cosine_sim_bounded id [("cat", 3 / 5), ("dog", 4 / 5)] [("cat", 4 / 5), ("ran", 3 / 5)]
      (by decide) (by decide) (by norm_num) (by norm_num) (by norm_num [euc_len])
      (by norm_num [euc_len])).1.imp (fun _ h => ⟨h.1, h.2.1⟩)⟩

end cosine_range

section normalizer_witnesses

/-- Witness of C21 on `sample_raw_doc`, whose first sentence leaves the tokens
`the cat the dog` and whose second sentence leaves none. -/
theorem normalize_document_term_counts_witness :
    count_terms ["the", "cat", "the", "dog"]
      ∈ (normalize_document ["a"] identity_stem sample_raw_doc).sentence_term_counts ∧
    ∃ sentence ∈ sample_raw_doc.sentences,
      normalize_all ["a"] identity_stem (tokenize sentence) ≠ [] ∧
      count_terms ["the", "cat", "the", "dog"]
        = count_terms (normalize_all ["a"] identity_stem (tokenize sentence)) ∧
      UniqueKeys (count_terms ["the", "cat", "the", "dog"]) ∧
      (∀ t : String, (count_terms ["the", "cat", "the", "dog"]).lookup t
        = if (normalize_all ["a"] identity_stem (tokenize sentence)).count t = 0 then none
          else some ((normalize_all ["a"] identity_stem (tokenize sentence)).count t)) ∧
      (∀ p ∈ count_terms ["the", "cat", "the", "dog"],
        p.2 = (normalize_all ["a"] identity_stem (tokenize sentence)).count p.1 ∧ 1 ≤ p.2) ∧
      ((count_terms ["the", "cat", "the", "dog"]).map Prod.snd).sum
        = (normalize_all ["a"] identity_stem (tokenize sentence)).length := by
  have h1 : normalize_all ["a"] identity_stem (tokenize "The cat, the <dog>!")
      = ["the", "cat", "the", "dog"] := by decide
  have h2 : normalize_all ["a"] identity_stem (tokenize "...") = [] := by decide
  have hmem : count_terms ["the", "cat", "the", "dog"]
      ∈ (normalize_document ["a"] identity_stem sample_raw_doc).sentence_term_counts := by
    unfold normalize_document
    rw [normalize_document_fold]
    simp [sample_raw_doc, h1, h2]
  exact ⟨hmem, normalize_document_term_counts ["a"] identity_stem sample_raw_doc _ hmem⟩

/-- Witness of C22 on the token `<a,b>`, of which `ab` is left. -/
theorem remove_punctuation_strips_witness :
    'a' ∈ (remove_punctuation "<a,b>").data ∧
    ('a' ≠ apostrophe ∧ 'a' ≠ double_quote ∧ 'a' ≠ Char.ofNat 44 ∧ 'a' ≠ Char.ofNat 60 ∧
      'a' ≠ Char.ofNat 62) :=
  ⟨by decide, remove_punctuation_strips "<a,b>" 'a' (by decide)⟩

end normalizer_witnesses

/-! ### Idempotence of `remove_punctuation` -/

section idempotence

theorem dropWhile_eq_self_of_head (p : Char → Bool) (l : List Char)
    (h : ∀ c, l.head? = some c → p c = false) : l.dropWhile p = l := by
  cases l with
  | nil => rfl
  | cons x xs =>
    have hx : p x = false := h x rfl
    simp [List.dropWhile_cons, hx]

/-- Trimming a list that is already trimmed changes nothing. -/
theorem trim_while_idem (p : Char → Bool) (l : List Char) :
    trim_while p (trim_while p l) = trim_while p l := by
  have h1 : (trim_while p l).dropWhile p = trim_while p l :=
    dropWhile_eq_self_of_head p _ (trim_while_head p l)
  have h2 : (trim_while p l).reverse.dropWhile p = (trim_while p l).reverse := by
    apply dropWhile_eq_self_of_head
    intro c hc
    rw [List.head?_reverse] at hc
    exact trim_while_last p l c hc
  show (((trim_while p l).dropWhile p).reverse.dropWhile p).reverse = trim_while p l
  rw [h1, h2, List.reverse_reverse]

theorem strip_punctuation_trim (l : List Char) :
    strip_punctuation (trim_while to_remove (strip_punctuation l))
      = trim_while to_remove (strip_punctuation l) := by
  unfold strip_punctuation
  apply List.filter_eq_self.mpr
  intro c hc
  exact (List.mem_filter.mp (mem_trim_while hc)).2

/-- Claim C31: `remove_punctuation` is idempotent: for every token (the embedding reads
an ASCII token character by character),
`remove_punctuation (remove_punctuation token) = remove_punctuation token`. -/
theorem remove_punctuation_idempotent (token : String) :
    remove_punctuation (remove_punctuation token) = remove_punctuation token := by
  apply String.ext
  rw [remove_punctuation_data (remove_punctuation token), remove_punctuation_data token,
    strip_punctuation_trim, trim_while_idem]

end idempotence

end ir
